import Mathlib

/-! Real-Time-Bluetooth-Networks: kernel (Lab3/os.c) and file system (Lab5)

A shallow embedding of the thread kernel of `Lab3/os.c` and of the flash file
system of `Lab5/eDisk.c` and `Lab5/eFile.c`, followed by the properties proved
about them.

Conventions of the embedding

* The global variables of a C file become the fields of one state record.
* `uint32_t` and `uint8_t` values are natural numbers, reduced `% 2^32` or
  `% 256` wherever the C operation can wrap; `int32_t` values are integers,
  reduced to two's complement range by `wrap32`.
* A `while` loop that the C code does not bound becomes a recursive function
  with a fuel argument (the number of loop tests it may evaluate) returning
  `none` when the fuel runs out.
* Pointers into the fixed table `tcbs` are indices of type `Fin 6`.  A pointer
  to a semaphore (`int32_t *`) is a value of `SemPtr`; the null pointer stored
  in `tcb.blocked` is `none`.
* `DisableInterrupts` and `EnableInterrupts` bracket code that the embedding
  executes as one atomic step, so they do not appear.
-/

namespace RTOS

/-! ## Lab3/os.c : data model -/

/-- Maximum number of threads (`NUMTHREADS`). -/
def NUMTHREADS : Nat := 6

/-- Number of 32-bit words in the fifo (`FIFOSIZE`). -/
def FIFOSIZE : Nat := 10

/-- Address of an `int32_t` semaphore object: either the global `CurrentSize`
of os.c or a semaphore declared by the client at address `addr`. -/
inductive SemPtr where
  | CurrentSize : SemPtr
  | user (addr : Nat) : SemPtr
deriving DecidableEq, Repr

/-- Thread control block (`struct tcb`) without its saved stack pointer.
`blocked = none` is the null pointer (not blocked); `sleep = 0` is awake. -/
structure tcb where
  next : Fin 6
  blocked : Option SemPtr
  sleep : Nat
deriving DecidableEq, Repr

/-- One slot of `periodic_thread` (`struct event_tcb`).  `task` is the function
pointer, `0` being the null pointer of a slot never registered. -/
structure event_tcb where
  task : Nat
  period : Nat
deriving DecidableEq, Repr

/-- The global variables of os.c.  `sema` holds every `int32_t` object used as
a semaphore, `sema SemPtr.CurrentSize` being the global `CurrentSize`;
`counter` is the static local of `runperiodicevents`; `suspends` counts the
SysTick triggers raised by `OS_Suspend`. -/
structure OS where
  tcbs : Fin 6 → tcb
  RunPt : Fin 6
  sema : SemPtr → Int
  periodic_thread : Fin 2 → event_tcb
  periodic_thread_index : Nat
  max_period : Nat
  counter : Nat
  PutI : Nat
  GetI : Nat
  Fifo : Nat → Nat
  LostData : Nat
  suspends : Nat

/-- Reduction of an integer to the range of `int32_t` (two's complement). -/
def wrap32 (x : Int) : Int := (x + 2 ^ 31) % 2 ^ 32 - 2 ^ 31

/-- Slot `i` with its `blocked` field replaced. -/
def setBlocked (t : Fin 6 → tcb) (i : Fin 6) (b : Option SemPtr) : Fin 6 → tcb :=
  fun j => if j = i then { t i with blocked := b } else t j

/-- Slot `i` with its `sleep` field replaced. -/
def setSleep (t : Fin 6 → tcb) (i : Fin 6) (n : Nat) : Fin 6 → tcb :=
  fun j => if j = i then { t i with sleep := n } else t j

/-- Store of `v` into the semaphore object at `p`. -/
def setSema (m : SemPtr → Int) (p : SemPtr) (v : Int) : SemPtr → Int :=
  fun q => if q = p then v else m q

/-! ## Lab3/os.c : thread ring and scheduler -/

/-- The thread table written by `OS_AddThreads`: slot `i` links to slot
`i+1`, slot 5 back to slot 0; nobody is blocked or asleep; thread 0 runs first.
The stack images are not part of the model. -/
def OS_AddThreads (s : OS) : OS × Int :=
  ({ s with
      tcbs := fun i =>
        { next := if i = 0 then 1 else if i = 1 then 2 else if i = 2 then 3
                  else if i = 3 then 4 else if i = 4 then 5 else 0
          blocked := none
          sleep := 0 }
      RunPt := 0 }, 1)

/-- The `while` loop of `Scheduler`: as long as the thread under `RunPt` is
sleeping or blocked, move `RunPt` to its successor. -/
def schedLoop : Nat → OS → Option OS
  | 0, _ => none
  | fuel + 1, s =>
    if (s.tcbs s.RunPt).sleep ≠ 0 ∨ (s.tcbs s.RunPt).blocked ≠ none then
      schedLoop fuel { s with RunPt := (s.tcbs s.RunPt).next }
    else some s

/-- Round-robin `Scheduler`: skip at least one thread, then skip blocked and
sleeping threads. -/
def Scheduler (fuel : Nat) (s : OS) : Option OS :=
  schedLoop fuel { s with RunPt := (s.tcbs s.RunPt).next }

/-- `OS_Suspend`: clear the SysTick counter and trigger SysTick; the trigger is
recorded in `suspends`. -/
def OS_Suspend (s : OS) : OS :=
  { s with suspends := s.suspends + 1 }

/-- `OS_Sleep`: set the sleep field of the running thread, then suspend. -/
def OS_Sleep (sleepTime : Nat) (s : OS) : OS :=
  OS_Suspend { s with tcbs := setSleep s.tcbs s.RunPt sleepTime }

/-! ## Lab3/os.c : periodic event threads and the tick dispatcher -/

/-- `OS_AddPeriodicEventThread`: raise `max_period` if needed and fill the next
slot of `periodic_thread`.  The C code does not check the index; a store past
the end of the two-slot table is `none`. -/
def OS_AddPeriodicEventThread (thread : Nat) (period : Nat) (s : OS) : Option (OS × Int) :=
  let s1 := if period > s.max_period then { s with max_period := period } else s
  if h : s1.periodic_thread_index < 2 then
    some ({ s1 with
            periodic_thread := fun j =>
              if j = ⟨s1.periodic_thread_index, h⟩ then { task := thread, period := period }
              else s1.periodic_thread j
            periodic_thread_index := (s1.periodic_thread_index + 1) % 2 ^ 32 }, 1)
  else none

/-- First `for` loop of `runperiodicevents`: every nonzero sleep counter is
decremented, slot by slot. -/
def sleepLoop (s : OS) : OS :=
  (List.finRange 6).foldl
    (fun s i =>
      if (s.tcbs i).sleep ≠ 0 then { s with tcbs := setSleep s.tcbs i ((s.tcbs i).sleep - 1) }
      else s) s

/-- Second `for` loop of `runperiodicevents` over the slots still to visit.
`code f` is the effect on the kernel of calling the function at address `f`.
The result carries the slots whose task was invoked, in order.  A modulo by a
zero period and a call through a null pointer are `none`. -/
def periodicLoop (code : Nat → OS → OS) :
    List (Fin 2) → OS × List (Fin 2) → Option (OS × List (Fin 2))
  | [], r => some r
  | i :: rest, (s, log) =>
    if (s.periodic_thread i).period = 0 then none
    else if s.counter % (s.periodic_thread i).period = 0 then
      if (s.periodic_thread i).task = 0 then none
      else periodicLoop code rest (code (s.periodic_thread i).task s, log ++ [i])
    else periodicLoop code rest (s, log)

/-- The tick dispatcher `runperiodicevents`: advance the tick counter modulo
`max_period` (`none` when `max_period` is zero), decrement the sleep counters,
then run the periodic tasks that are due. -/
def runperiodicevents (code : Nat → OS → OS) (s : OS) : Option (OS × List (Fin 2)) :=
  if s.max_period = 0 then none
  else
    let s1 := { s with counter := (s.counter + 1) % 2 ^ 32 % s.max_period }
    periodicLoop code [0, 1] (sleepLoop s1, [])

/-! ## Lab3/os.c : semaphores -/

/-- `OS_InitSemaphore`: store the initial value. -/
def OS_InitSemaphore (semaPt : SemPtr) (value : Int) (s : OS) : OS :=
  { s with sema := setSema s.sema semaPt value }

/-- `OS_Wait`: decrement the semaphore and, when the result is negative, record
the semaphore in the running thread's `blocked` field and suspend. -/
def OS_Wait (semaPt : SemPtr) (s : OS) : OS :=
  let s1 := { s with sema := setSema s.sema semaPt (wrap32 (s.sema semaPt - 1)) }
  if s1.sema semaPt < (0 : Int) then
    OS_Suspend { s1 with tcbs := setBlocked s1.tcbs s1.RunPt (some semaPt) }
  else s1

/-- The search loop of `OS_Signal`: follow `next` from `pt` until a thread
blocked on `semaPt` is found. -/
def signalLoop (t : Fin 6 → tcb) (semaPt : SemPtr) : Nat → Fin 6 → Option (Fin 6)
  | 0, _ => none
  | fuel + 1, pt =>
    if (t pt).blocked ≠ some semaPt then signalLoop t semaPt fuel (t pt).next
    else some pt

/-- `OS_Signal`: increment the semaphore and, when the result is not positive,
wake up the first thread after `RunPt` that is blocked on it. -/
def OS_Signal (fuel : Nat) (semaPt : SemPtr) (s : OS) : Option OS :=
  let s1 := { s with sema := setSema s.sema semaPt (wrap32 (s.sema semaPt + 1)) }
  if s1.sema semaPt ≤ (0 : Int) then
    match signalLoop s1.tcbs semaPt fuel (s1.tcbs s1.RunPt).next with
    | none => none
    | some pt => some { s1 with tcbs := setBlocked s1.tcbs pt none }
  else some s1

/-! ## Lab3/os.c : the FIFO -/

/-- `OS_FIFO_Init`: both indices to 0, the semaphore `CurrentSize` to 0, no
lost data. -/
def OS_FIFO_Init (s : OS) : OS :=
  let s1 := { s with PutI := 0, GetI := 0 }
  let s2 := OS_InitSemaphore SemPtr.CurrentSize 0 s1
  { s2 with LostData := 0 }

/-- `OS_FIFO_Put`: when `CurrentSize` equals `FIFOSIZE` count the lost item and
return -1; otherwise store at `PutI`, advance `PutI` circularly, signal
`CurrentSize` and return 0. -/
def OS_FIFO_Put (fuel : Nat) (data : Nat) (s : OS) : Option (OS × Int) :=
  if s.sema SemPtr.CurrentSize = (FIFOSIZE : Int) then
    some ({ s with LostData := (s.LostData + 1) % 2 ^ 32 }, -1)
  else
    let s1 := { s with Fifo := fun j => if j = s.PutI then data else s.Fifo j }
    let s2 := { s1 with PutI := (s1.PutI + 1) % FIFOSIZE }
    match OS_Signal fuel SemPtr.CurrentSize s2 with
    | none => none
    | some s3 => some (s3, 0)

/-- `OS_FIFO_Get`: wait on `CurrentSize`; when the wait does not block, read at
`GetI` and advance `GetI` circularly.  When the wait blocks, the caller is
suspended inside `OS_Wait` and the rest of the function has not run yet: the
result carries no data. -/
def OS_FIFO_Get (s : OS) : OS × Option Nat :=
  let s1 := OS_Wait SemPtr.CurrentSize s
  if s1.sema SemPtr.CurrentSize < (0 : Int) then (s1, none)
  else ({ s1 with GetI := (s1.GetI + 1) % FIFOSIZE }, some (s1.Fifo s1.GetI))

/-! ## Specification vocabulary for the kernel -/

/-- A thread is runnable when it is neither sleeping nor blocked. -/
def Runnable (s : OS) (i : Fin 6) : Prop :=
  (s.tcbs i).sleep = 0 ∧ (s.tcbs i).blocked = none

instance (s : OS) (i : Fin 6) : Decidable (Runnable s i) := by
  unfold Runnable; infer_instance

/-- The slot `k` positions after slot `i` in ring order. -/
def ringAt (i : Fin 6) (k : Nat) : Fin 6 := ⟨(i.val + k) % 6, Nat.mod_lt _ (by decide)⟩

/-- The links of the thread table are those written by `OS_AddThreads`. -/
def RingLinked (t : Fin 6 → tcb) : Prop := ∀ i : Fin 6, (t i).next = ringAt i 1

instance (t : Fin 6 → tcb) : Decidable (RingLinked t) := by
  unfold RingLinked; infer_instance

/-- Number of threads whose `blocked` field is the semaphore `p`. -/
def blockedCount (t : Fin 6 → tcb) (p : SemPtr) : Nat :=
  (Finset.univ.filter (fun i => (t i).blocked = some p)).card

/-- The semaphore invariant of the data model: a negative counter has as many
threads blocked on the semaphore as its magnitude, a non-negative counter has
none. -/
def SemaInv (s : OS) (p : SemPtr) : Prop :=
  (s.sema p < 0 → (blockedCount s.tcbs p : Int) = - s.sema p) ∧
  (0 ≤ s.sema p → blockedCount s.tcbs p = 0)

instance (s : OS) (p : SemPtr) : Decidable (SemaInv s p) := by
  unfold SemaInv; infer_instance

/-- One semaphore call, issued by the thread `caller` (the run pointer is at
`caller` when the call is made). -/
inductive SemCall where
  | wait (caller : Fin 6) : SemCall
  | signal (caller : Fin 6) : SemCall
deriving DecidableEq, Repr

/-- Number of `OS_Signal` calls in a sequence. -/
def signals : List SemCall → Nat
  | [] => 0
  | SemCall.wait _ :: cs => signals cs
  | SemCall.signal _ :: cs => signals cs + 1

/-- Number of `OS_Wait` calls in a sequence. -/
def waits : List SemCall → Nat
  | [] => 0
  | SemCall.wait _ :: cs => waits cs + 1
  | SemCall.signal _ :: cs => waits cs

/-- The kernel state after a sequence of calls on the semaphore `p`; `none`
when some `OS_Signal` does not return within 6 loop tests. -/
def semRun (p : SemPtr) : List SemCall → OS → Option OS
  | [], s => some s
  | SemCall.wait t :: cs, s => semRun p cs (OS_Wait p { s with RunPt := t })
  | SemCall.signal t :: cs, s => (OS_Signal 6 p { s with RunPt := t }).bind (semRun p cs)

/-- Along the sequence, every `OS_Signal` that leaves the counter `≤ 0` is
issued while some thread is blocked on `p`. -/
def SignalsServed (p : SemPtr) : List SemCall → OS → Prop
  | [], _ => True
  | SemCall.wait t :: cs, s => SignalsServed p cs (OS_Wait p { s with RunPt := t })
  | SemCall.signal t :: cs, s =>
    (wrap32 (s.sema p + 1) ≤ 0 → ∃ i, (s.tcbs i).blocked = some p) ∧
    ∀ s', OS_Signal 6 p { s with RunPt := t } = some s' → SignalsServed p cs s'

/-- The kernel state after `k` consecutive invocations of the tick dispatcher. -/
def ticks (code : Nat → OS → OS) : Nat → OS → Option OS
  | 0, s => some s
  | k + 1, s => (runperiodicevents code s).bind (fun r => ticks code k r.1)

/-- What the comment above `OS_AddPeriodicEventThread` asks of the event
threads, as far as the dispatcher depends on it: they do not sleep and they
leave the registration of the periodic tasks and the tick counter alone. -/
def TaskContract (code : Nat → OS → OS) : Prop :=
  ∀ f s, (∀ i, ((code f s).tcbs i).sleep = (s.tcbs i).sleep) ∧
    (code f s).periodic_thread = s.periodic_thread ∧
    (code f s).max_period = s.max_period ∧ (code f s).counter = s.counter

/-- Two periodic tasks are registered, with periods at least 1. -/
def TwoRegistered (s : OS) : Prop :=
  1 ≤ (s.periodic_thread 0).period ∧ (s.periodic_thread 0).task ≠ 0 ∧
  1 ≤ (s.periodic_thread 1).period ∧ (s.periodic_thread 1).task ≠ 0 ∧
  1 ≤ s.max_period

instance (s : OS) : Decidable (TwoRegistered s) := by
  unfold TwoRegistered; infer_instance

/-- The kernel state after `OS_FIFO_Put` has been called on each item of the
list in turn. -/
def putsRun : List Nat → OS → Option OS
  | [], s => some s
  | x :: xs, s => (OS_FIFO_Put 6 x s).bind (fun r => putsRun xs r.1)

/-- One call on the FIFO. -/
inductive FifoCall where
  | put (data : Nat) : FifoCall
  | get : FifoCall
deriving DecidableEq, Repr

/-- Run a sequence of FIFO calls.  The result is the list of the items whose
put returned 0 and the list of the items returned by the gets, both in call
order; `none` when a put does not return or a get blocks. -/
def fifoRun : List FifoCall → OS → Option (List Nat × List Nat)
  | [], _ => some ([], [])
  | FifoCall.put x :: cs, s =>
    match OS_FIFO_Put 6 x s with
    | none => none
    | some (s', ret) =>
      (fifoRun cs s').map (fun r => (if ret = 0 then x :: r.1 else r.1, r.2))
  | FifoCall.get :: cs, s =>
    match OS_FIFO_Get s with
    | (_, none) => none
    | (s', some d) => (fifoRun cs s').map (fun r => (r.1, d :: r.2))

/-- Along the sequence, every get is issued while the queue is not empty. -/
def GetsNonEmpty : List FifoCall → OS → Prop
  | [], _ => True
  | FifoCall.put x :: cs, s => ∀ r, OS_FIFO_Put 6 x s = some r → GetsNonEmpty cs r.1
  | FifoCall.get :: cs, s => 0 < s.sema SemPtr.CurrentSize ∧ GetsNonEmpty cs (OS_FIFO_Get s).1

/-- The items `q` are those waiting in the queue, oldest first. -/
def FifoHolds (s : OS) (q : List Nat) : Prop :=
  s.sema SemPtr.CurrentSize = (q.length : Int) ∧ q.length ≤ 10 ∧ s.GetI < 10 ∧
  s.PutI = (s.GetI + q.length) % 10 ∧
  ∀ j, j < q.length → q[j]? = some (s.Fifo ((s.GetI + j) % 10))

/-- The run pointer after `n` consecutive scheduling decisions, each with the
given fuel, the thread records staying as they are in between. -/
def schedulerRun (fuel : Nat) : Nat → OS → Option OS
  | 0, s => some s
  | n + 1, s => (Scheduler fuel s).bind (schedulerRun fuel n)

/-- The zero-initialised globals of os.c before `OS_Init`. -/
def zeroOS : OS where
  tcbs := fun _ => { next := 0, blocked := none, sleep := 0 }
  RunPt := 0
  sema := fun _ => 0
  periodic_thread := fun _ => { task := 0, period := 0 }
  periodic_thread_index := 0
  max_period := 0
  counter := 0
  PutI := 0
  GetI := 0
  Fifo := fun _ => 0
  LostData := 0
  suspends := 0

/-- The kernel right after `OS_AddThreads`. -/
def bootOS : OS := (OS_AddThreads zeroOS).1

/-- Thread 0 runs, thread 1 sleeps for 3 ticks, thread 2 is blocked on the
semaphore at address 8, threads 3 to 5 are runnable. -/
def demoSched : OS :=
  { bootOS with
    tcbs := setBlocked (setSleep bootOS.tcbs 1 3) 2 (some (SemPtr.user 8)) }

/-- A client semaphore used in the scenarios. -/
def semA : SemPtr := SemPtr.user 16

/-- Mutex scenario, step 0: the semaphore is initialised to 1; thread 0 (A) runs. -/
def mutex0 : OS := OS_InitSemaphore semA 1 bootOS

/-- Mutex scenario, step 1: A waits. -/
def mutex1 : OS := OS_Wait semA mutex0

/-- Mutex scenario, step 2: thread 1 (B) runs and waits. -/
def mutex2 : OS := OS_Wait semA { mutex1 with RunPt := 1 }

/-- Mutex scenario, step 3: A runs again and signals. -/
def mutex3 : Option OS := OS_Signal 6 semA { mutex2 with RunPt := 0 }

/-- Threads 2 and 4 are blocked on `semA`, whose counter is -2; thread 3 runs. -/
def demoWaiters : OS :=
  { bootOS with
    tcbs := setBlocked (setBlocked bootOS.tcbs 2 (some semA)) 4 (some semA)
    sema := setSema bootOS.sema semA (-2)
    RunPt := 3 }

/-- The semaphore `semA` initialised to the largest `int32_t`, nobody blocked. -/
def overflowSem : OS := OS_InitSemaphore semA (2 ^ 31 - 1) bootOS

/-- Event-thread code for the scenarios: the function at address 1 signals
`semA`, every other function does nothing. -/
def demoCode (f : Nat) (s : OS) : OS :=
  if f = 1 then (OS_Signal 6 semA s).getD s else s

/-- The kernel after `OS_AddThreads` and two registrations: the function at
address 1 with period 1, the function at address 2 with period 2. -/
def demoPeriodic : OS :=
  (((OS_AddPeriodicEventThread 1 1 bootOS).bind
    (fun r => OS_AddPeriodicEventThread 2 2 r.1)).map Prod.fst).getD bootOS

/-- As `demoPeriodic`, with thread 2 blocked on `semA` (counter -1). -/
def demoTick : OS :=
  { demoPeriodic with
    tcbs := setBlocked demoPeriodic.tcbs 2 (some semA)
    sema := setSema demoPeriodic.sema semA (-1) }

/-- The slots of `periodic_thread` whose period divides the tick counter `c`,
in table order. -/
def dueSlots (s : OS) (c : Nat) : List (Fin 2) :=
  [0, 1].filter (fun i => decide (c % (s.periodic_thread i).period = 0))

/-- The kernel state after the tasks of the given slots have been called in
turn. -/
def runSlots (code : Nat → OS → OS) : List (Fin 2) → OS → OS
  | [], s => s
  | i :: l, s => runSlots code l (code (s.periodic_thread i).task s)

/-- The registration of two periodic tasks, one call after the other. -/
def addTwo (f1 p1 f2 p2 : Nat) (s : OS) : Option OS :=
  ((OS_AddPeriodicEventThread f1 p1 s).bind
    (fun r => OS_AddPeriodicEventThread f2 p2 r.1)).map Prod.fst

/-- The kernel after `OS_AddThreads` and the registration of the function at
address 1 with period 2 and the function at address 2 with period 3. -/
def oddPeriodic : OS := (addTwo 1 2 2 3 bootOS).getD bootOS

/-- The kernel after `OS_AddThreads` and one registration only: the function
at address 1 with period 1. -/
def onePeriodic : OS := ((OS_AddPeriodicEventThread 1 1 bootOS).map Prod.fst).getD bootOS

end RTOS

namespace EFile

/-! ## Lab5/eDisk.c : data model -/

/-- Result codes of the disk driver (`enum DRESULT`), with the numeric values
listed in the comments of eDisk.c. -/
inductive DRESULT where
  | RES_OK : DRESULT
  | RES_ERROR : DRESULT
  | RES_WRPRT : DRESULT
  | RES_NOTRDY : DRESULT
  | RES_PARERR : DRESULT
deriving DecidableEq, Repr

/-- Numeric value of a result code. -/
def DRESULT.code : DRESULT → Nat
  | DRESULT.RES_OK => 0
  | DRESULT.RES_ERROR => 1
  | DRESULT.RES_WRPRT => 2
  | DRESULT.RES_NOTRDY => 3
  | DRESULT.RES_PARERR => 4

/-- What eDisk.c takes from `eDisk.h` and `FlashProgram.h`: the address window
of the disk and the two flash primitives.  A medium is a map from byte address
to byte.  `Flash_WriteArray m source addr count` yields the new medium and the
number of words written; `Flash_Erase m addr` yields the new medium and 0 on
success. -/
structure Platform where
  EDISK_ADDR_MIN : Nat
  EDISK_ADDR_MAX : Nat
  Flash_WriteArray : (Nat → Nat) → List Nat → Nat → Nat → (Nat → Nat) × Int
  Flash_Erase : (Nat → Nat) → Nat → (Nat → Nat) × Int

/-- Modelled from the spec: the program primitive of a flash that stores each
32-bit word little-endian, `count` words from `addr` on, and reports `count`
words written.  `FlashProgram.c` is not part of the sources. -/
def storeWords (m : Nat → Nat) (source : List Nat) (addr count : Nat) : (Nat → Nat) × Int :=
  (fun a =>
    if addr ≤ a ∧ a < addr + 4 * count then
      source.getD ((a - addr) / 4) 0 / 256 ^ ((a - addr) % 4) % 256
    else m a, (count : Int))

/-- Modelled from the spec: the erase primitive of a flash whose erase sets
every byte of the 1 KiB block starting at `addr` to 0xFF and reports success.
`FlashProgram.c` is not part of the sources. -/
def eraseBlock (m : Nat → Nat) (addr : Nat) : (Nat → Nat) × Int :=
  (fun a => if addr ≤ a ∧ a < addr + 1024 then 255 else m a, 0)

/-- The medium erases to 0xFF and programs words little-endian. -/
def IdealFlash (hw : Platform) : Prop :=
  hw.Flash_WriteArray = storeWords ∧ hw.Flash_Erase = eraseBlock

/-- The address window holds the 256 sectors of 512 bytes, and the erase
sweep, which runs in steps of 1024 up to `EDISK_ADDR_MAX`, stays within 32-bit
addresses. -/
def Geometry (hw : Platform) : Prop :=
  hw.EDISK_ADDR_MIN + 512 * 255 ≤ hw.EDISK_ADDR_MAX ∧ hw.EDISK_ADDR_MAX + 1024 ≤ 2 ^ 32

instance (hw : Platform) : Decidable (Geometry hw) := by
  unfold Geometry; infer_instance

/-! ## Lab5/eDisk.c : functions -/

/-- `eDisk_Init`: only drive 0 is supported. -/
def eDisk_Init (drive : Nat) : DRESULT :=
  if drive = 0 then DRESULT.RES_OK else DRESULT.RES_ERROR

/-- `eDisk_ReadSector`: parameter error when the sector address is beyond
`EDISK_ADDR_MAX`; otherwise the 512 bytes at that address are copied into
`buff`, byte by byte.  Returns the result code and the buffer. -/
def eDisk_ReadSector (hw : Platform) (m : Nat → Nat) (buff : Nat → Nat) (sector : Nat) :
    DRESULT × (Nat → Nat) :=
  let read_address := (hw.EDISK_ADDR_MIN + 512 * sector) % 2 ^ 32
  if read_address > hw.EDISK_ADDR_MAX then (DRESULT.RES_PARERR, buff)
  else (DRESULT.RES_OK, fun i => if i < 512 then m (read_address + i) else buff i)

/-- One pass of the packing loop of `eDisk_WriteSector`: the word built from
`buff[i+3]`, `buff[i+2]`, `buff[i+1]`, `buff[i]` by adding and shifting left by
8 in 32-bit arithmetic. -/
def packWord (buff : Nat → Nat) (i : Nat) : Nat :=
  let w0 := (0 + buff (i + 3)) % 2 ^ 32
  let w1 := (w0 * 2 ^ 8) % 2 ^ 32
  let w2 := (w1 + buff (i + 2)) % 2 ^ 32
  let w3 := (w2 * 2 ^ 8) % 2 ^ 32
  let w4 := (w3 + buff (i + 1)) % 2 ^ 32
  let w5 := (w4 * 2 ^ 8) % 2 ^ 32
  (w5 + buff i) % 2 ^ 32

/-- `eDisk_WriteSector`: parameter error when the sector address is beyond
`EDISK_ADDR_MAX`; otherwise the buffer is packed into 128 words which are
handed to `Flash_WriteArray`; success when 128 words were written.  Returns the
result code and the medium. -/
def eDisk_WriteSector (hw : Platform) (m : Nat → Nat) (buff : Nat → Nat) (sector : Nat) :
    DRESULT × (Nat → Nat) :=
  let write_address := (hw.EDISK_ADDR_MIN + 512 * sector) % 2 ^ 32
  if write_address > hw.EDISK_ADDR_MAX then (DRESULT.RES_PARERR, m)
  else
    let alligned_32bit_data := (List.range 128).map (fun k => packWord buff (4 * k))
    let r := hw.Flash_WriteArray m alligned_32bit_data write_address 128
    if r.2 = 128 then (DRESULT.RES_OK, r.1) else (DRESULT.RES_ERROR, r.1)

/-- The erase sweep of `eDisk_Format`.  `status` is `none` as long as the
variable has not been assigned. -/
def formatLoop (hw : Platform) : Nat → (Nat → Nat) → Nat → Option Int →
    Option ((Nat → Nat) × Option Int)
  | 0, _, _, _ => none
  | fuel + 1, m, erase_address, status =>
    if erase_address < hw.EDISK_ADDR_MAX then
      let r := hw.Flash_Erase m erase_address
      formatLoop hw fuel r.1 ((erase_address + 1024) % 2 ^ 32) (some r.2)
    else some (m, status)

/-- `eDisk_Format`: erase the disk in 1 KiB blocks; the result reflects the
status of the last erase.  Reading a `status` that was never assigned is
`none`. -/
def eDisk_Format (fuel : Nat) (hw : Platform) (m : Nat → Nat) : Option (DRESULT × (Nat → Nat)) :=
  match formatLoop hw fuel m (hw.EDISK_ADDR_MIN % 2 ^ 32) none with
  | none => none
  | some (_, none) => none
  | some (m', some status) =>
    some (if status = 0 then DRESULT.RES_OK else DRESULT.RES_ERROR, m')

/-! ## Lab5/eFile.c -/

/-- The global variables of eFile.c together with the flash medium `disk`.
`stackBuff` is the content of the uninitialised local buffer of
`MountDirectory`.  The arrays are indexed by `uint8_t` values. -/
structure FileSys where
  Directory : Nat → Nat
  FAT : Nat → Nat
  bDirectoryLoaded : Int
  disk : Nat → Nat
  stackBuff : Nat → Nat

/-- Reduction of an integer to the range of `int16_t`. -/
def wrap16 (x : Int) : Int := (x + 2 ^ 15) % 2 ^ 16 - 2 ^ 15

/-- The function `max` of eFile.c: the larger of two `int16_t`. -/
def max_int16 (a b : Int) : Int := if a > b then a else b

/-- `MountDirectory`: when the directory is not loaded, read sector 255 into a
local buffer, copy its first half to `Directory` and its second half to `FAT`,
and set `bDirectoryLoaded`.  The result of the read is ignored. -/
def MountDirectory (hw : Platform) (fs : FileSys) : FileSys :=
  if fs.bDirectoryLoaded = 0 then
    let buff := (eDisk_ReadSector hw fs.disk fs.stackBuff 255).2
    { fs with
      Directory := fun i => if i < 256 then buff i else fs.Directory i
      FAT := fun i => if i < 256 then buff (i + 256) else fs.FAT i
      bDirectoryLoaded := 1 }
  else fs

/-- The loop of `lastsector`: follow the FAT until an entry 255. -/
def lastsectorLoop (FAT : Nat → Nat) : Nat → Nat → Option Nat
  | 0, _ => none
  | fuel + 1, current_index =>
    if FAT current_index = 255 then some current_index
    else lastsectorLoop FAT fuel (FAT current_index)

/-- `lastsector`: index of the last sector of the file starting at `start`,
255 when `start` is 255. -/
def lastsector (fuel : Nat) (fs : FileSys) (start : Nat) : Option Nat :=
  if start = 255 then some 255 else lastsectorLoop fs.FAT fuel start

/-- The loop of `findfreesector` over the directory entries. -/
def findfreesectorLoop (fuel : Nat) (fs : FileSys) : Nat → Int → Nat → Option Nat
  | 0, _, _ => none
  | n + 1, free_sector, index =>
    match lastsector fuel fs (fs.Directory index) with
    | none => none
    | some last_sector =>
      if last_sector = 255 then some ((free_sector + 1) % 256).toNat
      else findfreesectorLoop fuel fs n
        (max_int16 (wrap16 free_sector) (wrap16 last_sector)) ((index + 1) % 256)

/-- `findfreesector`: one more than the greatest last sector of the files
found before the first directory entry without file. -/
def findfreesector (fuel : Nat) (fs : FileSys) : Option Nat :=
  findfreesectorLoop fuel fs fuel (-1) 0

/-- The loop of `appendfat`: store `n` in the first FAT entry 255 of the chain. -/
def appendfatLoop (n : Nat) : Nat → FileSys → Nat → Option FileSys
  | 0, _, _ => none
  | fuel + 1, fs, index =>
    if fs.FAT index = 255 then
      some { fs with FAT := fun j => if j = index then n else fs.FAT j }
    else appendfatLoop n fuel fs (fs.FAT index)

/-- `appendfat`: append sector `n` to file `num`; returns 0. -/
def appendfat (fuel : Nat) (num n : Nat) (fs : FileSys) : Option (Nat × FileSys) :=
  if fs.Directory num = 255 then
    some (0, { fs with Directory := fun j => if j = num then n else fs.Directory j })
  else (appendfatLoop n fuel fs (fs.Directory num)).map (fun fs' => (0, fs'))

/-- The loop of `OS_File_New`; `n` bounds the number of tests left, at most
255 since `index` starts at 0 and stops at 255. -/
def newLoop (Directory : Nat → Nat) : Nat → Nat → Nat
  | 0, _ => 255
  | n + 1, index =>
    if index ≠ 255 then
      if Directory index = 255 then index else newLoop Directory n ((index + 1) % 256)
    else 255

/-- `OS_File_New`: mount if needed, then return the first index below 255
whose directory entry is 255, or 255. -/
def OS_File_New (hw : Platform) (fs : FileSys) : Nat × FileSys :=
  let fs1 := if fs.bDirectoryLoaded = 0 then MountDirectory hw fs else fs
  (newLoop fs1.Directory 256 0, fs1)

/-- The loop of `OS_File_Size`. -/
def sizeLoop (FAT : Nat → Nat) : Nat → Nat → Nat → Nat
  | 0, _, _ => 255
  | n + 1, size, index =>
    if size < 255 then
      if FAT index = 255 then (size + 1) % 256
      else sizeLoop FAT n ((size + 1) % 256) (FAT index)
    else 255

/-- `OS_File_Size`: number of sectors of file `num`, at most 255. -/
def OS_File_Size (num : Nat) (fs : FileSys) : Nat :=
  if fs.Directory num = 255 then 0 else sizeLoop fs.FAT 256 0 (fs.Directory num)

/-- `OS_File_Append`: mount if needed, find a free sector, write the data to
it and link it to the file; 255 when the disk is full.  The result of the
write is ignored. -/
def OS_File_Append (fuel : Nat) (hw : Platform) (num : Nat) (buf : Nat → Nat) (fs : FileSys) :
    Option (Nat × FileSys) :=
  let fs1 := if fs.bDirectoryLoaded = 0 then MountDirectory hw fs else fs
  match findfreesector fuel fs1 with
  | none => none
  | some sector =>
    if sector = 255 then some (255, fs1)
    else
      let w := eDisk_WriteSector hw fs1.disk buf sector
      appendfat fuel num sector { fs1 with disk := w.2 }

/-- The `for` loop of `OS_File_Read`: follow `location` links of the FAT;
`none` when an entry 255 is met. -/
def readLoop (FAT : Nat → Nat) : Nat → Nat → Option Nat
  | 0, sector => some sector
  | n + 1, sector => if FAT sector = 255 then none else readLoop FAT n (FAT sector)

/-- `OS_File_Read`: read sector `location` of file `num` into `buf`; 255 when
there is no such sector, else the result code of the disk read.  Returns the
result and the buffer. -/
def OS_File_Read (hw : Platform) (num location : Nat) (buf : Nat → Nat) (fs : FileSys) :
    Nat × (Nat → Nat) :=
  if fs.Directory num = 255 then (255, buf)
  else
    match readLoop fs.FAT location (fs.Directory num) with
    | none => (255, buf)
    | some sector =>
      let r := eDisk_ReadSector hw fs.disk buf sector
      (r.1.code % 256, r.2)

/-- `OS_File_Flush`: write `Directory` followed by `FAT` to sector 255 and
return the result code of the write. -/
def OS_File_Flush (hw : Platform) (fs : FileSys) : Nat × FileSys :=
  let buff : Nat → Nat := fun i => if i < 256 then fs.Directory i else fs.FAT (i - 256)
  let w := eDisk_WriteSector hw fs.disk buff 255
  (w.1.code % 256, { fs with disk := w.2 })

/-- `OS_File_Format`: format the disk and clear `bDirectoryLoaded`; returns the
result code of the format. -/
def OS_File_Format (fuel : Nat) (hw : Platform) (fs : FileSys) : Option (Nat × FileSys) :=
  (eDisk_Format fuel hw fs.disk).map
    (fun r => (r.1.code % 256, { fs with disk := r.2, bDirectoryLoaded := 0 }))

/-! ## Scenario data for the file system -/

/-- A platform for the scenarios: an address window holding 256 sectors of 512
bytes (the geometry of the block store), at an origin chosen here since
`eDisk.h` is not part of the sources, on the ideal flash. -/
def tm4c : Platform where
  EDISK_ADDR_MIN := 0x20000
  EDISK_ADDR_MAX := 0x3FFFF
  Flash_WriteArray := storeWords
  Flash_Erase := eraseBlock

/-- Number of loop tests that lets the erase sweep of `eDisk_Format` finish. -/
def formatFuel (hw : Platform) : Nat := (hw.EDISK_ADDR_MAX - hw.EDISK_ADDR_MIN) / 1024 + 2

/-- The RAM of eFile.c after reset (globals zeroed) over a blank medium. -/
def resetFS : FileSys where
  Directory := fun _ => 0
  FAT := fun _ => 0
  bDirectoryLoaded := 0
  disk := fun _ => 0
  stackBuff := fun _ => 0

/-- A buffer whose 512 bytes are 0xAA. -/
def bufAA : Nat → Nat := fun _ => 0xAA

/-- A power cycle: the RAM of eFile.c is that of `ram`, with the directory not
loaded; the medium keeps its content. -/
def powerCycle (ram : FileSys) (fs : FileSys) : FileSys :=
  { ram with bDirectoryLoaded := 0, disk := fs.disk }

/-! ## Specification vocabulary for the file system -/

/-- The program primitive reports every word as written and, on a byte of the
medium that is erased (0xFF), leaves the byte of the source word that belongs
there in little-endian order. -/
def ProgramsErased (hw : Platform) : Prop :=
  ∀ (m : Nat → Nat) (source : List Nat) (addr count : Nat),
    (hw.Flash_WriteArray m source addr count).2 = (count : Int) ∧
    ∀ a, addr ≤ a → a < addr + 4 * count → m a = 255 →
      (hw.Flash_WriteArray m source addr count).1 a
        = source.getD ((a - addr) / 4) 0 / 256 ^ ((a - addr) % 4) % 256

/-- Modelled from the spec: the program primitive of a flash whose bits only go
from 1 to 0 without an erase; each byte becomes the bitwise and of its old
content and the source byte.  `FlashProgram.c` is not part of the sources. -/
def andWords (m : Nat → Nat) (source : List Nat) (addr count : Nat) : (Nat → Nat) × Int :=
  (fun a =>
    if addr ≤ a ∧ a < addr + 4 * count then
      m a &&& (source.getD ((a - addr) / 4) 0 / 256 ^ ((a - addr) % 4) % 256)
    else m a, (count : Int))

/-- The 512-byte image that `OS_File_Flush` builds: `Directory` then `FAT`. -/
def metaImage (fs : FileSys) : Nat → Nat :=
  fun i => if i < 256 then fs.Directory i else fs.FAT (i - 256)

/-- The entries of `Directory` and `FAT` are bytes. -/
def ByteTables (fs : FileSys) : Prop :=
  ∀ i, i < 256 → fs.Directory i < 256 ∧ fs.FAT i < 256

/-- The platform `tm4c` with a flash that wears its bits down instead of
storing. -/
def tm4cAnd : Platform := { tm4c with Flash_WriteArray := andWords }

/-- The platform `tm4c` with a flash whose program primitive writes nothing
and reports 0 words, and whose erase primitive reports failure. -/
def brokenFlash : Platform :=
  { tm4c with
    Flash_WriteArray := fun m _ _ _ => (m, 0)
    Flash_Erase := fun m _ => (m, 1) }

/-- A mounted, empty file system: every entry of `Directory` and `FAT` is 255,
as after a format and the first mount. -/
def freshFS : FileSys where
  Directory := fun _ => 255
  FAT := fun _ => 255
  bDirectoryLoaded := 1
  disk := fun _ => 255
  stackBuff := fun _ => 0

/-- The file system of `tm4c` after format, `OS_File_New`, one append of
`bufAA` to file 0 and a flush. -/
def flushedFS : FileSys :=
  let fs1 := ((OS_File_Format (formatFuel tm4c) tm4c resetFS).map Prod.snd).getD resetFS
  let fs2 := (OS_File_New tm4c fs1).2
  let fs3 := ((OS_File_Append 256 tm4c 0 bufAA fs2).map Prod.snd).getD fs2
  (OS_File_Flush tm4c fs3).2

/-- The file system `flushedFS` after a power cycle: RAM zeroed, directory not
loaded. -/
def rebootFS : FileSys := powerCycle resetFS flushedFS

/-- A mounted file system with one file that starts at sector 0, over a
blank medium. -/
def oneFileFS : FileSys :=
  { freshFS with Directory := fun j => if j = 0 then 0 else 255 }

/-- The platform `tm4c` with a window of 128 sectors only. -/
def halfDisk : Platform := { tm4c with EDISK_ADDR_MAX := 0x2FFFF }

/-- A mounted file system whose file 0 starts at sector 0, which links to
itself. -/
def cyclicFS : FileSys :=
  { freshFS with
    Directory := fun j => if j = 0 then 0 else 255
    FAT := fun j => if j = 0 then 0 else 255 }

/-- A mounted file system whose file 0 starts at sector 200. -/
def farFS : FileSys :=
  { freshFS with Directory := fun j => if j = 0 then 200 else 255 }

/-- The sectors of the chain that starts at sector `s`, up to and including
the first one whose FAT entry is 255; `none` when no such sector is met within
`fuel` sectors. -/
def chainFrom (FAT : Nat → Nat) : Nat → Nat → Option (List Nat)
  | 0, _ => none
  | fuel + 1, s =>
    if FAT s = 255 then some [s] else (chainFrom FAT fuel (FAT s)).map (fun l => s :: l)

/-- The Directory/FAT graph is a forest of simple chains: the chain of every
file in slots 0..254 reaches an end marker without repeating a sector, the
chains of two files share no sector, and no sector is the successor of two
sectors. -/
def Forest (fs : FileSys) : Prop :=
  (∀ i, i ≤ 254 → fs.Directory i ≠ 255 →
    ∃ l, chainFrom fs.FAT 256 (fs.Directory i) = some l ∧ l.Nodup) ∧
  (∀ i i' l l', i ≤ 254 → i' ≤ 254 → i ≠ i' →
    fs.Directory i ≠ 255 → fs.Directory i' ≠ 255 →
    chainFrom fs.FAT 256 (fs.Directory i) = some l →
    chainFrom fs.FAT 256 (fs.Directory i') = some l' → ∀ x, x ∈ l → x ∉ l') ∧
  (∀ j j', j < 256 → j' < 256 → j ≠ j' → fs.FAT j ≠ 255 → fs.FAT j ≠ fs.FAT j')

/-- A freshly formatted and mounted store: every entry of `Directory` and
`FAT` is 255 and the directory is loaded. -/
def Fresh (fs : FileSys) : Prop :=
  (∀ i, i < 256 → fs.Directory i = 255) ∧ (∀ j, j < 256 → fs.FAT j = 255) ∧
  fs.bDirectoryLoaded = 1

/-- The state after a sequence of `OS_File_Append` calls, each given by its
file number and its data. -/
def appendsRun (hw : Platform) : List (Nat × (Nat → Nat)) → FileSys → Option FileSys
  | [], fs => some fs
  | c :: cs, fs => (OS_File_Append 256 hw c.1 c.2 fs).bind (fun r => appendsRun hw cs r.2)

/-- The states reached from a fresh store by `OS_File_New` and
`OS_File_Append` calls, together with the identifiers that `OS_File_New` has
returned so far; every append targets one of these identifiers. -/
inductive Reached (hw : Platform) : FileSys → List Nat → Prop
  | fresh (fs : FileSys) : Fresh fs → Reached hw fs []
  | new (fs : FileSys) (ids : List Nat) : Reached hw fs ids →
      Reached hw (OS_File_New hw fs).2 ((OS_File_New hw fs).1 :: ids)
  | append (fs : FileSys) (ids : List Nat) (num : Nat) (buf : Nat → Nat) (r : Nat)
      (fs' : FileSys) : Reached hw fs ids → num ∈ ids →
      OS_File_Append 256 hw num buf fs = some (r, fs') → Reached hw fs' ids

/-- Sector `s` is on the chain that starts at sector `a`: it is reached after
some number of FAT links, none of the sectors before it being an end. -/
def OnChain (FAT : Nat → Nat) (a s : Nat) : Prop :=
  ∃ j, FAT^[j] a = s ∧ ∀ j', j' < j → FAT (FAT^[j'] a) ≠ 255

/-- The shape of the tables after appends to files created in order: files
0..k-1 exist, sectors 0..n-1 are in use, links go to higher sectors, every
sector in use is referenced once and lies on the chain of a file. -/
structure Allocated (fs : FileSys) (k n : Nat) : Prop where
  loaded : fs.bDirectoryLoaded = 1
  hk : k ≤ 255
  hn : n ≤ 255
  dir_used : ∀ i, i < k → fs.Directory i < n
  dir_free : ∀ i, k ≤ i → i < 256 → fs.Directory i = 255
  fat_used : ∀ j, j < n → fs.FAT j = 255 ∨ (j < fs.FAT j ∧ fs.FAT j < n)
  fat_free : ∀ j, n ≤ j → j < 256 → fs.FAT j = 255
  dir_inj : ∀ i i', i < k → i' < k → fs.Directory i = fs.Directory i' → i = i'
  fat_inj : ∀ j j', j < n → j' < n → fs.FAT j ≠ 255 → fs.FAT j = fs.FAT j' → j = j'
  dir_fat : ∀ i j, i < k → j < n → fs.FAT j ≠ fs.Directory i
  covered : ∀ s, s < n → ∃ i, i < k ∧ OnChain fs.FAT (fs.Directory i) s

/-- The store `freshFS` after one append of `bufAA` to file 0 on `tm4c`. -/
def appendedFS : FileSys :=
  ((OS_File_Append 256 tm4c 0 bufAA freshFS).map Prod.snd).getD freshFS

/-- The layout that `findfreesector` relies on: the files occupy the first `k`
directory slots, every later slot up to 255 is free, and every FAT entry is
either the end marker or a higher sector index below 255. -/
structure Ascending (fs : FileSys) (k : Nat) : Prop where
  hk : k ≤ 255
  dir_used : ∀ i, i < k → fs.Directory i < 255
  dir_free : ∀ i, k ≤ i → i < 256 → fs.Directory i = 255
  fat_up : ∀ s, s < 255 → fs.FAT s = 255 ∨ (s < fs.FAT s ∧ fs.FAT s < 255)

/-- A mounted file system with file 1 at sector 0 and no file 0. -/
def gapFS : FileSys :=
  { freshFS with Directory := fun j => if j = 1 then 0 else 255 }

/-- A mounted file system whose file 0 starts at sector 5, which links down to
sector 2. -/
def descFS : FileSys :=
  { freshFS with
    Directory := fun j => if j = 0 then 5 else 255
    FAT := fun j => if j = 5 then 2 else 255 }

/-- A mounted file system with file 0 in sectors 0 and 2 and file 1 in
sector 1. -/
def twoFilesFS : FileSys :=
  { freshFS with
    Directory := fun j => if j = 0 then 0 else if j = 1 then 1 else 255
    FAT := fun j => if j = 0 then 2 else 255 }

end EFile

namespace RTOS

/-! ## Properties of the scheduler -/

theorem ringAt_zero (p : Fin 6) : ringAt p 0 = p := by
  apply Fin.ext
  simp [ringAt, Nat.mod_eq_of_lt p.isLt]

theorem ringAt_ringAt (p : Fin 6) (a b : Nat) : ringAt (ringAt p a) b = ringAt p (a + b) := by
  apply Fin.ext
  simp [ringAt, Nat.add_assoc]

theorem ringAt_six (p : Fin 6) : ringAt p 6 = p := by
  apply Fin.ext
  simp [ringAt, Nat.mod_eq_of_lt p.isLt]

theorem ringAt_reaches (r i : Fin 6) : ringAt r ((i.val + 5 - r.val) % 6 + 1) = i := by
  revert r i
  decide

/-- Among the six slots after `r` in ring order (the sixth being `r` itself)
there is a first one satisfying `P`, as soon as some slot satisfies `P`. -/
theorem exists_first_after (P : Fin 6 → Prop) (r : Fin 6) (h : ∃ i, P i) :
    ∃ k, 1 ≤ k ∧ k ≤ 6 ∧ P (ringAt r k) ∧ ∀ j, 1 ≤ j → j < k → ¬ P (ringAt r j) := by
  classical
  obtain ⟨i, hi⟩ := h
  have hQ : ∃ k, P (ringAt r (k + 1)) := ⟨(i.val + 5 - r.val) % 6, by rw [ringAt_reaches]; exact hi⟩
  refine ⟨Nat.find hQ + 1, by omega, ?_, Nat.find_spec hQ, ?_⟩
  · have h1 : Nat.find hQ ≤ (i.val + 5 - r.val) % 6 :=
      Nat.find_min' hQ (by rw [ringAt_reaches]; exact hi)
    have h2 : (i.val + 5 - r.val) % 6 < 6 := Nat.mod_lt _ (by decide)
    omega
  · intro j hj1 hjk hP
    have h3 : j - 1 < Nat.find hQ := by omega
    apply Nat.find_min hQ h3
    have h4 : j - 1 + 1 = j := by omega
    rw [h4]
    exact hP

theorem schedLoop_first (s : OS) (hr : RingLinked s.tcbs) : ∀ (n : Nat) (p : Fin 6),
    (∀ j, j < n → ¬ Runnable s (ringAt p j)) → Runnable s (ringAt p n) →
    schedLoop (n + 1) { s with RunPt := p } = some { s with RunPt := ringAt p n } := by
  intro n
  induction n with
  | zero =>
    intro p _ hrun
    rw [ringAt_zero] at hrun
    have h1 : ¬ ((s.tcbs p).sleep ≠ 0 ∨ (s.tcbs p).blocked ≠ none) := by
      rintro (h | h)
      · exact h hrun.1
      · exact h hrun.2
    simp only [schedLoop, ringAt_zero]
    rw [if_neg h1]
  | succ n ih =>
    intro p hnot hrun
    have h0 : ¬ Runnable s p := by
      have := hnot 0 (Nat.succ_pos n)
      rwa [ringAt_zero] at this
    have h1 : (s.tcbs p).sleep ≠ 0 ∨ (s.tcbs p).blocked ≠ none := by
      by_contra hc
      push_neg at hc
      exact h0 ⟨hc.1, hc.2⟩
    have h2 : schedLoop (n + 1 + 1) { s with RunPt := p }
        = schedLoop (n + 1) { s with RunPt := (s.tcbs p).next } := by
      conv_lhs => unfold schedLoop
      simp only
      rw [if_pos h1]
    rw [h2, hr p]
    have h3 := ih (ringAt p 1) (fun j hj => by
      rw [ringAt_ringAt, Nat.add_comm]
      exact hnot (j + 1) (Nat.succ_lt_succ hj)) (by
      rw [ringAt_ringAt, Nat.add_comm]
      exact hrun)
    rw [h3, ringAt_ringAt, Nat.add_comm]

theorem schedLoop_mono (n m : Nat) : ∀ (s s' : OS), schedLoop n s = some s' →
    schedLoop (n + m) s = some s' := by
  induction n with
  | zero => intro s s' h; simp [schedLoop] at h
  | succ n ih =>
    intro s s' h
    have e : n + 1 + m = (n + m) + 1 := by omega
    rw [e]
    unfold schedLoop at h ⊢
    by_cases hc : (s.tcbs s.RunPt).sleep ≠ 0 ∨ (s.tcbs s.RunPt).blocked ≠ none
    · rw [if_pos hc] at h ⊢
      exact ih _ _ h
    · rw [if_neg hc] at h ⊢
      exact h

/-- C1. In a kernel state whose thread ring is the one linked by
`OS_AddThreads` and holds a runnable thread, `Scheduler` returns after `k ≤ 6`
advances of the run pointer (fuel `k`, hence also fuel 6), leaves every thread
record untouched, and the new run pointer is the first runnable slot strictly
after the old one in ring order: it is runnable, the `k - 1` slots before it
are not, and it is the old run pointer only when no other thread is runnable. -/
theorem Scheduler_selects_first_runnable (s : OS) (hring : RingLinked s.tcbs)
    (hrun : ∃ i, Runnable s i) :
    ∃ k, 1 ≤ k ∧ k ≤ 6 ∧
      Scheduler k s = some { s with RunPt := ringAt s.RunPt k } ∧
      Scheduler 6 s = some { s with RunPt := ringAt s.RunPt k } ∧
      Runnable { s with RunPt := ringAt s.RunPt k } (ringAt s.RunPt k) ∧
      (∀ j, 1 ≤ j → j < k → ¬ Runnable s (ringAt s.RunPt j)) ∧
      (ringAt s.RunPt k = s.RunPt → ∀ i, i ≠ s.RunPt → ¬ Runnable s i) := by
  obtain ⟨k, hk1, hk6, hP, hmin⟩ := exists_first_after (Runnable s) s.RunPt hrun
  obtain ⟨n, rfl⟩ : ∃ n, k = n + 1 := ⟨k - 1, by omega⟩
  have hloop := schedLoop_first s hring n (ringAt s.RunPt 1)
    (fun j hj => by
      rw [ringAt_ringAt, Nat.add_comm]
      exact hmin (j + 1) (by omega) (by omega))
    (by rw [ringAt_ringAt, Nat.add_comm]; exact hP)
  rw [ringAt_ringAt, Nat.add_comm 1 n] at hloop
  have hk : Scheduler (n + 1) s = some { s with RunPt := ringAt s.RunPt (n + 1) } := by
    unfold Scheduler
    rw [hring s.RunPt]
    exact hloop
  refine ⟨n + 1, hk1, hk6, hk, ?_, hP, hmin, ?_⟩
  · have e : 6 = (n + 1) + (5 - n) := by omega
    unfold Scheduler at hk ⊢
    rw [e]
    exact schedLoop_mono _ _ _ _ hk
  · intro hback i hi hRi
    have hn : n + 1 = 6 := by
      by_contra hne
      have hlt : n + 1 < 6 := by omega
      have : (s.RunPt.val + (n + 1)) % 6 = s.RunPt.val := congrArg Fin.val hback
      have := s.RunPt.isLt
      omega
    have hreach := ringAt_reaches s.RunPt i
    have hlt : (i.val + 5 - s.RunPt.val) % 6 + 1 < 6 := by
      have hne : i.val ≠ s.RunPt.val := fun h => hi (Fin.ext h)
      have := s.RunPt.isLt
      have := i.isLt
      omega
    apply hmin ((i.val + 5 - s.RunPt.val) % 6 + 1) (by omega) (by omega)
    rw [hreach]
    exact hRi

/-- Witness of C1 on `demoSched`: thread 0 runs, 1 sleeps, 2 is blocked. -/
theorem Scheduler_selects_first_runnable_witness :
    RingLinked demoSched.tcbs ∧ (∃ i, Runnable demoSched i) ∧
    ∃ k, 1 ≤ k ∧ k ≤ 6 ∧
      Scheduler k demoSched = some { demoSched with RunPt := ringAt demoSched.RunPt k } ∧
      Scheduler 6 demoSched = some { demoSched with RunPt := ringAt demoSched.RunPt k } ∧
      Runnable { demoSched with RunPt := ringAt demoSched.RunPt k }
        (ringAt demoSched.RunPt k) ∧
      (∀ j, 1 ≤ j → j < k → ¬ Runnable demoSched (ringAt demoSched.RunPt j)) ∧
      (ringAt demoSched.RunPt k = demoSched.RunPt →
        ∀ i, i ≠ demoSched.RunPt → ¬ Runnable demoSched i) :=
  ⟨by decide, ⟨3, by decide⟩,
    Scheduler_selects_first_runnable demoSched (by decide) ⟨3, by decide⟩⟩

/-! ## Properties of the semaphore engine -/

theorem wrap32_range (x : Int) : -(2 ^ 31) ≤ wrap32 x ∧ wrap32 x < 2 ^ 31 := by
  unfold wrap32
  omega

theorem wrap32_of_range (x : Int) (h1 : -(2 ^ 31) ≤ x) (h2 : x < 2 ^ 31) : wrap32 x = x := by
  unfold wrap32
  omega

theorem wrap32_add_left (x y : Int) : wrap32 (wrap32 x + y) = wrap32 (x + y) := by
  unfold wrap32
  omega

theorem signalLoop_first (t : Fin 6 → tcb) (hr : RingLinked t) (p : SemPtr) :
    ∀ (n : Nat) (q : Fin 6),
    (∀ j, j < n → (t (ringAt q j)).blocked ≠ some p) → (t (ringAt q n)).blocked = some p →
    signalLoop t p (n + 1) q = some (ringAt q n) := by
  intro n
  induction n with
  | zero =>
    intro q _ hb
    rw [ringAt_zero] at hb
    simp [signalLoop, hb, ringAt_zero]
  | succ n ih =>
    intro q hnot hb
    have h0 : (t q).blocked ≠ some p := by
      have := hnot 0 (Nat.succ_pos n)
      rwa [ringAt_zero] at this
    have h2 : signalLoop t p (n + 1 + 1) q = signalLoop t p (n + 1) (t q).next := by
      conv_lhs => unfold signalLoop
      rw [if_pos h0]
    rw [h2, hr q]
    have h3 := ih (ringAt q 1) (fun j hj => by
      rw [ringAt_ringAt, Nat.add_comm]
      exact hnot (j + 1) (Nat.succ_lt_succ hj)) (by
      rw [ringAt_ringAt, Nat.add_comm]
      exact hb)
    rw [h3, ringAt_ringAt, Nat.add_comm]

theorem signalLoop_mono (t : Fin 6 → tcb) (p : SemPtr) (n m : Nat) :
    ∀ (q r : Fin 6), signalLoop t p n q = some r → signalLoop t p (n + m) q = some r := by
  induction n with
  | zero => intro q r h; simp [signalLoop] at h
  | succ n ih =>
    intro q r h
    have e : n + 1 + m = (n + m) + 1 := by omega
    rw [e]
    unfold signalLoop at h ⊢
    by_cases hc : (t q).blocked ≠ some p
    · rw [if_pos hc] at h ⊢
      exact ih _ _ h
    · rw [if_neg hc] at h ⊢
      exact h

/-- The search of `OS_Signal` on the `OS_AddThreads` ring: when some thread is
blocked on `p`, fuel `k ≤ 6` finds the first such thread after `r`. -/
theorem signalLoop_finds (t : Fin 6 → tcb) (hr : RingLinked t) (p : SemPtr) (r : Fin 6)
    (hex : ∃ i, (t i).blocked = some p) :
    ∃ k, 1 ≤ k ∧ k ≤ 6 ∧ signalLoop t p k (t r).next = some (ringAt r k) ∧
      signalLoop t p 6 (t r).next = some (ringAt r k) ∧
      (t (ringAt r k)).blocked = some p ∧
      ∀ j, 1 ≤ j → j < k → (t (ringAt r j)).blocked ≠ some p := by
  obtain ⟨k, hk1, hk6, hP, hmin⟩ := exists_first_after (fun i => (t i).blocked = some p) r hex
  obtain ⟨n, rfl⟩ : ∃ n, k = n + 1 := ⟨k - 1, by omega⟩
  have hloop := signalLoop_first t hr p n (ringAt r 1)
    (fun j hj => by
      rw [ringAt_ringAt, Nat.add_comm]
      exact hmin (j + 1) (by omega) (by omega))
    (by rw [ringAt_ringAt, Nat.add_comm]; exact hP)
  rw [ringAt_ringAt, Nat.add_comm 1 n, ← hr r] at hloop
  refine ⟨n + 1, hk1, hk6, hloop, ?_, hP, hmin⟩
  have h6 := signalLoop_mono t p (n + 1) (5 - n) _ _ hloop
  have e : (n + 1) + (5 - n) = 6 := by omega
  rw [e] at h6
  exact h6

theorem setSema_same (m : SemPtr → Int) (p : SemPtr) (v : Int) : setSema m p v p = v := by
  simp [setSema]

theorem setSema_other (m : SemPtr → Int) (p q : SemPtr) (v : Int) (h : q ≠ p) :
    setSema m p v q = m q := by
  simp [setSema, h]

theorem setBlocked_same (t : Fin 6 → tcb) (i : Fin 6) (b : Option SemPtr) :
    setBlocked t i b i = { t i with blocked := b } := by
  simp [setBlocked]

theorem setBlocked_other (t : Fin 6 → tcb) (i j : Fin 6) (b : Option SemPtr) (h : j ≠ i) :
    setBlocked t i b j = t j := by
  simp [setBlocked, h]

theorem setBlocked_next (t : Fin 6 → tcb) (i j : Fin 6) (b : Option SemPtr) :
    (setBlocked t i b j).next = (t j).next := by
  by_cases h : j = i
  · subst h; simp [setBlocked]
  · simp [setBlocked, h]

theorem setBlocked_sleep (t : Fin 6 → tcb) (i j : Fin 6) (b : Option SemPtr) :
    (setBlocked t i b j).sleep = (t j).sleep := by
  by_cases h : j = i
  · subst h; simp [setBlocked]
  · simp [setBlocked, h]

theorem setBlocked_ring (t : Fin 6 → tcb) (i : Fin 6) (b : Option SemPtr) (h : RingLinked t) :
    RingLinked (setBlocked t i b) := by
  intro j
  rw [setBlocked_next]
  exact h j

/-- C4. `OS_Wait p` stores the decremented counter; it raises a suspend
request exactly when that value is negative, and in that case the running
thread's `blocked` field becomes `p` and nothing else in the thread table
changes; when the value is not negative the thread table (hence the running
thread's `blocked` and `sleep` fields) and the suspend count are unchanged.  In
both cases every other thread's record, every `sleep` field and the run pointer
are as before. -/
theorem OS_Wait_blocks_iff_negative (s : OS) (p : SemPtr) :
    (OS_Wait p s).sema p = wrap32 (s.sema p - 1) ∧
    ((OS_Wait p s).suspends = s.suspends + 1 ↔ (OS_Wait p s).sema p < 0) ∧
    ((OS_Wait p s).sema p < 0 →
      (OS_Wait p s).tcbs = setBlocked s.tcbs s.RunPt (some p) ∧
      ((OS_Wait p s).tcbs s.RunPt).blocked = some p) ∧
    (¬ (OS_Wait p s).sema p < 0 →
      (OS_Wait p s).tcbs = s.tcbs ∧ (OS_Wait p s).suspends = s.suspends) ∧
    (∀ i, i ≠ s.RunPt → (OS_Wait p s).tcbs i = s.tcbs i) ∧
    (∀ i, ((OS_Wait p s).tcbs i).sleep = (s.tcbs i).sleep) ∧
    (∀ i, ((OS_Wait p s).tcbs i).next = (s.tcbs i).next) ∧
    (OS_Wait p s).RunPt = s.RunPt := by
  by_cases h : wrap32 (s.sema p - 1) < 0
  · have e : OS_Wait p s = OS_Suspend
        { s with sema := setSema s.sema p (wrap32 (s.sema p - 1)),
                 tcbs := setBlocked s.tcbs s.RunPt (some p) } := by
      unfold OS_Wait
      simp only [setSema_same]
      rw [if_pos h]
    rw [e]
    simp only [OS_Suspend, setSema_same]
    refine ⟨trivial, ⟨fun _ => h, fun _ => trivial⟩, fun _ => ⟨trivial, ?_⟩,
      fun hn => absurd h hn, ?_, ?_, ?_, trivial⟩
    · rw [setBlocked_same]
    · intro i hi; exact setBlocked_other _ _ _ _ hi
    · intro i; exact setBlocked_sleep _ _ _ _
    · intro i; exact setBlocked_next _ _ _ _
  · have e : OS_Wait p s = { s with sema := setSema s.sema p (wrap32 (s.sema p - 1)) } := by
      unfold OS_Wait
      simp only [setSema_same]
      rw [if_neg h]
    rw [e]
    simp only [setSema_same]
    refine ⟨trivial, ⟨fun hs => ?_, fun hn => absurd hn h⟩, fun hn => absurd hn h,
      fun _ => ⟨trivial, trivial⟩, fun _ _ => trivial, fun _ => trivial, fun _ => trivial,
      trivial⟩
    omega

/-- Witness of C4 on the mutex scenario: the first wait (counter 1) proceeds,
the second (counter 0) blocks thread 1. -/
theorem OS_Wait_blocks_iff_negative_witness :
    (OS_Wait semA mutex0).sema semA = 0 ∧ (OS_Wait semA mutex0).tcbs = mutex0.tcbs ∧
    (OS_Wait semA { mutex1 with RunPt := 1 }).sema semA = -1 ∧
    ((OS_Wait semA { mutex1 with RunPt := 1 }).tcbs 1).blocked = some semA ∧
    (OS_Wait semA { mutex1 with RunPt := 1 }).suspends = mutex1.suspends + 1 :=
  have h0 := OS_Wait_blocks_iff_negative mutex0 semA
  have h1 := OS_Wait_blocks_iff_negative { mutex1 with RunPt := 1 } semA
  have e0 : (OS_Wait semA mutex0).sema semA = 0 := by
    rw [h0.1]; decide
  have e1 : (OS_Wait semA { mutex1 with RunPt := 1 }).sema semA = -1 := by
    rw [h1.1]; decide
  ⟨e0, (h0.2.2.2.1 (by rw [e0]; decide)).1, e1, (h1.2.2.1 (by rw [e1]; decide)).2,
    h1.2.1.mpr (by rw [e1]; decide)⟩

/-- C5. On the `OS_AddThreads` ring with some thread blocked on `p`, an
`OS_Signal p` whose incremented counter is not positive returns after
examining `k ≤ 6` slots (fuel `k`, hence fuel 6): slot `k` after the run
pointer is the first in ring order whose `blocked` field is `p` (the running
thread is position 6), its `blocked` field is cleared, and every other record,
every `sleep` field and the run pointer are unchanged.  When the incremented
counter is positive the call returns with the thread table untouched. -/
theorem OS_Signal_wakes_first_waiter (s : OS) (p : SemPtr) (hring : RingLinked s.tcbs)
    (hex : ∃ i, (s.tcbs i).blocked = some p) :
    (wrap32 (s.sema p + 1) ≤ 0 →
      ∃ k s', 1 ≤ k ∧ k ≤ 6 ∧ OS_Signal k p s = some s' ∧ OS_Signal 6 p s = some s' ∧
        (s.tcbs (ringAt s.RunPt k)).blocked = some p ∧
        (∀ j, 1 ≤ j → j < k → (s.tcbs (ringAt s.RunPt j)).blocked ≠ some p) ∧
        s'.tcbs = setBlocked s.tcbs (ringAt s.RunPt k) none ∧
        (s'.tcbs (ringAt s.RunPt k)).blocked = none ∧
        (∀ i, i ≠ ringAt s.RunPt k → s'.tcbs i = s.tcbs i) ∧
        (∀ i, (s'.tcbs i).sleep = (s.tcbs i).sleep) ∧
        (∀ i, (s'.tcbs i).next = (s.tcbs i).next) ∧
        s'.RunPt = s.RunPt ∧ s'.sema p = wrap32 (s.sema p + 1)) ∧
    (0 < wrap32 (s.sema p + 1) →
      ∃ s', (∀ fuel, OS_Signal fuel p s = some s') ∧ s'.tcbs = s.tcbs ∧
        s'.RunPt = s.RunPt ∧ s'.sema p = wrap32 (s.sema p + 1)) := by
  constructor
  · intro hle
    obtain ⟨k, hk1, hk6, hfk, hf6, hb, hmin⟩ := signalLoop_finds s.tcbs hring p s.RunPt hex
    refine ⟨k, { s with sema := setSema s.sema p (wrap32 (s.sema p + 1)),
                        tcbs := setBlocked s.tcbs (ringAt s.RunPt k) none },
      hk1, hk6, ?_, ?_, hb, hmin, rfl, ?_, ?_, ?_, ?_, rfl, ?_⟩
    · unfold OS_Signal
      simp only [setSema_same]
      rw [if_pos hle, hfk]
    · unfold OS_Signal
      simp only [setSema_same]
      rw [if_pos hle, hf6]
    · simp only [setBlocked_same]
    · intro i hi
      exact setBlocked_other _ _ _ _ hi
    · intro i
      exact setBlocked_sleep _ _ _ _
    · intro i
      exact setBlocked_next _ _ _ _
    · simp only [setSema_same]
  · intro hpos
    refine ⟨{ s with sema := setSema s.sema p (wrap32 (s.sema p + 1)) }, ?_, rfl, rfl, ?_⟩
    · intro fuel
      unfold OS_Signal
      simp only [setSema_same]
      rw [if_neg (by omega)]
    · simp only [setSema_same]

/-- Witness of C5 on `demoWaiters`: thread 3 signals, threads 2 and 4 wait. -/
theorem OS_Signal_wakes_first_waiter_witness :
    RingLinked demoWaiters.tcbs ∧ (∃ i, (demoWaiters.tcbs i).blocked = some semA) ∧
    wrap32 (demoWaiters.sema semA + 1) ≤ 0 ∧
    ∃ k s', 1 ≤ k ∧ k ≤ 6 ∧ OS_Signal k semA demoWaiters = some s' ∧
        OS_Signal 6 semA demoWaiters = some s' ∧
        (demoWaiters.tcbs (ringAt demoWaiters.RunPt k)).blocked = some semA ∧
        (∀ j, 1 ≤ j → j < k →
          (demoWaiters.tcbs (ringAt demoWaiters.RunPt j)).blocked ≠ some semA) ∧
        s'.tcbs = setBlocked demoWaiters.tcbs (ringAt demoWaiters.RunPt k) none ∧
        (s'.tcbs (ringAt demoWaiters.RunPt k)).blocked = none ∧
        (∀ i, i ≠ ringAt demoWaiters.RunPt k → s'.tcbs i = demoWaiters.tcbs i) ∧
        (∀ i, (s'.tcbs i).sleep = (demoWaiters.tcbs i).sleep) ∧
        (∀ i, (s'.tcbs i).next = (demoWaiters.tcbs i).next) ∧
        s'.RunPt = demoWaiters.RunPt ∧
        s'.sema semA = wrap32 (demoWaiters.sema semA + 1) :=
  ⟨by decide, ⟨2, by decide⟩, by decide,
    (OS_Signal_wakes_first_waiter demoWaiters semA (by decide) ⟨2, by decide⟩).1 (by decide)⟩

/-- What `OS_Signal` returns: with a waiter on `p` and a counter that stays
`≤ 0`, fuel 6 suffices and one thread blocked on `p` is released; with a
positive counter only the counter changes. -/
theorem OS_Signal_returns (s : OS) (p : SemPtr) (hring : RingLinked s.tcbs)
    (hserved : wrap32 (s.sema p + 1) ≤ 0 → ∃ i, (s.tcbs i).blocked = some p) :
    (wrap32 (s.sema p + 1) ≤ 0 ∧ ∃ w, (s.tcbs w).blocked = some p ∧
      OS_Signal 6 p s = some { s with sema := setSema s.sema p (wrap32 (s.sema p + 1)),
                                      tcbs := setBlocked s.tcbs w none }) ∨
    (0 < wrap32 (s.sema p + 1) ∧
      OS_Signal 6 p s = some { s with sema := setSema s.sema p (wrap32 (s.sema p + 1)) }) := by
  by_cases hle : wrap32 (s.sema p + 1) ≤ 0
  · left
    obtain ⟨k, _, _, _, hf6, hb, _⟩ := signalLoop_finds s.tcbs hring p s.RunPt (hserved hle)
    refine ⟨hle, ringAt s.RunPt k, hb, ?_⟩
    unfold OS_Signal
    simp only [setSema_same]
    rw [if_pos hle, hf6]
  · right
    refine ⟨by omega, ?_⟩
    unfold OS_Signal
    simp only [setSema_same]
    rw [if_neg hle]

theorem OS_Wait_sema (s : OS) (p : SemPtr) : (OS_Wait p s).sema p = wrap32 (s.sema p - 1) := by
  unfold OS_Wait
  simp only [setSema_same]
  split <;> simp [OS_Suspend, setSema_same]

theorem OS_Wait_ring (s : OS) (p : SemPtr) (h : RingLinked s.tcbs) :
    RingLinked (OS_Wait p s).tcbs := by
  unfold OS_Wait
  simp only [setSema_same]
  split
  · exact setBlocked_ring _ _ _ h
  · exact h

theorem semRun_counter (p : SemPtr) : ∀ (cs : List SemCall) (s : OS),
    RingLinked s.tcbs → -(2 ^ 31) ≤ s.sema p → s.sema p < 2 ^ 31 → SignalsServed p cs s →
    ∃ s', semRun p cs s = some s' ∧
      s'.sema p = wrap32 (s.sema p + (signals cs : Int) - (waits cs : Int)) := by
  intro cs
  induction cs with
  | nil =>
    intro s _ h1 h2 _
    exact ⟨s, rfl, by simp [signals, waits, wrap32_of_range _ h1 h2]⟩
  | cons c cs ih =>
    intro s hring h1 h2 hs
    cases c with
    | wait t =>
      have hr := wrap32_range (s.sema p - 1)
      have e1 : (OS_Wait p { s with RunPt := t }).sema p = wrap32 (s.sema p - 1) :=
        OS_Wait_sema _ p
      obtain ⟨s', hrun, hval⟩ := ih (OS_Wait p { s with RunPt := t })
        (OS_Wait_ring { s with RunPt := t } p hring) (by rw [e1]; exact hr.1)
        (by rw [e1]; exact hr.2) hs
      refine ⟨s', hrun, ?_⟩
      rw [hval, e1]
      simp only [signals, waits]
      push_cast
      unfold wrap32
      omega
    | signal t =>
      have hr := wrap32_range (s.sema p + 1)
      have key : ∃ s1, OS_Signal 6 p { s with RunPt := t } = some s1 ∧ RingLinked s1.tcbs ∧
          s1.sema p = wrap32 (s.sema p + 1) := by
        obtain ⟨_, w, _, hsig⟩ | ⟨_, hsig⟩ :=
          OS_Signal_returns { s with RunPt := t } p hring hs.1
        · exact ⟨_, hsig, setBlocked_ring _ w none hring, setSema_same _ _ _⟩
        · exact ⟨_, hsig, hring, setSema_same _ _ _⟩
      obtain ⟨s1, hsig, hring1, e1⟩ := key
      obtain ⟨s', hrun, hval⟩ := ih s1 hring1 (by rw [e1]; exact hr.1)
        (by rw [e1]; exact hr.2) (hs.2 s1 hsig)
      refine ⟨s', ?_, ?_⟩
      · simp only [semRun, hsig, Option.some_bind]
        exact hrun
      · rw [hval, e1]
        simp only [signals, waits]
        push_cast
        unfold wrap32
        omega

/-- C3. `OS_InitSemaphore p v0` stores `v0` and changes nothing else.  After
it, any finite sequence of `OS_Wait p` and `OS_Signal p` calls, issued by any
threads of the `OS_AddThreads` ring and such that every `OS_Signal` leaving the
counter `≤ 0` finds some thread blocked on `p`, runs to completion (each
`OS_Signal` returns within 6 loop tests) and leaves the counter equal to
`v0 + signals - waits` reduced to 32-bit two's complement. -/
theorem semaphore_counter_is_v0_plus_signals_minus_waits (s0 : OS) (p : SemPtr) (v0 : Int)
    (hlo : -(2 ^ 31) ≤ v0) (hhi : v0 < 2 ^ 31) (hring : RingLinked s0.tcbs)
    (cs : List SemCall) (hserved : SignalsServed p cs (OS_InitSemaphore p v0 s0)) :
    (∃ s', semRun p cs (OS_InitSemaphore p v0 s0) = some s' ∧
      s'.sema p = wrap32 (v0 + (signals cs : Int) - (waits cs : Int))) ∧
    (OS_InitSemaphore p v0 s0).sema p = v0 ∧
    (∀ q, q ≠ p → (OS_InitSemaphore p v0 s0).sema q = s0.sema q) ∧
    OS_InitSemaphore p v0 s0 = { s0 with sema := (OS_InitSemaphore p v0 s0).sema } := by
  have hv : (OS_InitSemaphore p v0 s0).sema p = v0 := setSema_same _ _ _
  refine ⟨?_, hv, fun q hq => setSema_other _ _ _ _ hq, rfl⟩
  have h := semRun_counter p cs (OS_InitSemaphore p v0 s0) hring
    (by rw [hv]; exact hlo) (by rw [hv]; exact hhi) hserved
  rw [hv] at h
  exact h

/-- Witness of C3: the mutex scenario `init 1; A waits; B waits; A signals`. -/
theorem semaphore_counter_is_v0_plus_signals_minus_waits_witness :
    (∃ s', semRun semA [SemCall.wait 0, SemCall.wait 1, SemCall.signal 0]
        (OS_InitSemaphore semA 1 bootOS) = some s' ∧
      s'.sema semA = wrap32 (1 + (signals [SemCall.wait 0, SemCall.wait 1, SemCall.signal 0] : Int)
        - (waits [SemCall.wait 0, SemCall.wait 1, SemCall.signal 0] : Int))) ∧
    (OS_InitSemaphore semA 1 bootOS).sema semA = 1 ∧
    (∀ q, q ≠ semA → (OS_InitSemaphore semA 1 bootOS).sema q = bootOS.sema q) ∧
    OS_InitSemaphore semA 1 bootOS
      = { bootOS with sema := (OS_InitSemaphore semA 1 bootOS).sema } :=
  semaphore_counter_is_v0_plus_signals_minus_waits bootOS semA 1 (by decide) (by decide)
    (by decide) [SemCall.wait 0, SemCall.wait 1, SemCall.signal 0]
    ⟨fun _ => ⟨1, by decide⟩, fun _ _ => trivial⟩

theorem blockedCount_block (t : Fin 6 → tcb) (i : Fin 6) (p : SemPtr)
    (h : (t i).blocked ≠ some p) :
    blockedCount (setBlocked t i (some p)) p = blockedCount t p + 1 := by
  unfold blockedCount
  have e : Finset.univ.filter (fun j => (setBlocked t i (some p) j).blocked = some p)
      = insert i (Finset.univ.filter (fun j => (t j).blocked = some p)) := by
    ext j
    by_cases hj : j = i
    · subst hj
      simp [setBlocked_same]
    · simp [setBlocked_other _ _ _ _ hj, hj]
  rw [e, Finset.card_insert_of_not_mem]
  simp [h]

theorem blockedCount_release (t : Fin 6 → tcb) (w : Fin 6) (p : SemPtr)
    (h : (t w).blocked = some p) :
    blockedCount (setBlocked t w none) p + 1 = blockedCount t p := by
  unfold blockedCount
  have e : Finset.univ.filter (fun j => (setBlocked t w none j).blocked = some p)
      = (Finset.univ.filter (fun j => (t j).blocked = some p)).erase w := by
    ext j
    by_cases hj : j = w
    · subst hj
      simp [setBlocked_same]
    · simp [setBlocked_other _ _ _ _ hj, hj]
  have hmem : w ∈ Finset.univ.filter (fun j => (t j).blocked = some p) := by
    simp [h]
  rw [e, Finset.card_erase_of_mem hmem]
  have hpos : 0 < (Finset.univ.filter (fun j => (t j).blocked = some p)).card :=
    Finset.card_pos.mpr ⟨w, hmem⟩
  omega

theorem blockedCount_le (t : Fin 6 → tcb) (p : SemPtr) : blockedCount t p ≤ 6 := by
  unfold blockedCount
  have h := Finset.card_filter_le (Finset.univ : Finset (Fin 6))
    (fun j => (t j).blocked = some p)
  simpa using h

theorem blockedCount_pos (t : Fin 6 → tcb) (p : SemPtr) (h : 0 < blockedCount t p) :
    ∃ i, (t i).blocked = some p := by
  unfold blockedCount at h
  obtain ⟨i, hi⟩ := Finset.card_pos.mp h
  exact ⟨i, by simpa using hi⟩

theorem signalLoop_none (t : Fin 6 → tcb) (p : SemPtr) (h : ∀ i, (t i).blocked ≠ some p) :
    ∀ (fuel : Nat) (q : Fin 6), signalLoop t p fuel q = none := by
  intro fuel
  induction fuel with
  | zero => intro q; rfl
  | succ n ih =>
    intro q
    unfold signalLoop
    rw [if_pos (h q)]
    exact ih _

/-- C6 (as amended). The semaphore invariant holds after `OS_InitSemaphore p v0`
with `0 ≤ v0` when no thread is blocked; it is preserved by `OS_Wait p` issued
by a running thread that is not blocked, and by `OS_Signal p` (which then
returns within 6 loop tests) provided the counter is below `2^31 - 1`, so that
the 32-bit increment does not wrap.  The counter is an `int32_t` throughout. -/
theorem SemaInv_init_wait_signal (s : OS) (p : SemPtr) :
    (∀ v0 : Int, 0 ≤ v0 → (∀ i, (s.tcbs i).blocked = none) →
      SemaInv (OS_InitSemaphore p v0 s) p) ∧
    (SemaInv s p → s.sema p < 2 ^ 31 → (s.tcbs s.RunPt).blocked = none →
      SemaInv (OS_Wait p s) p ∧ (OS_Wait p s).sema p < 2 ^ 31) ∧
    (SemaInv s p → RingLinked s.tcbs → s.sema p < 2 ^ 31 - 1 →
      ∃ s', OS_Signal 6 p s = some s' ∧ SemaInv s' p ∧ s'.sema p < 2 ^ 31) := by
  refine ⟨?_, ?_, ?_⟩
  · intro v0 hv hnone
    have hc : blockedCount s.tcbs p = 0 := by
      unfold blockedCount
      simp [hnone]
    have hv' : (OS_InitSemaphore p v0 s).sema p = v0 := setSema_same _ _ _
    constructor
    · intro hneg
      rw [hv'] at hneg
      omega
    · intro _
      exact hc
  · intro hinv hhi hrun
    have hle := blockedCount_le s.tcbs p
    have hval := OS_Wait_sema s p
    have hlo : -6 ≤ s.sema p := by
      by_contra hc
      have := hinv.1 (by omega)
      omega
    have hw : wrap32 (s.sema p - 1) = s.sema p - 1 := wrap32_of_range _ (by omega) (by omega)
    refine ⟨?_, by rw [hval, hw]; omega⟩
    by_cases hneg : wrap32 (s.sema p - 1) < 0
    · have e : (OS_Wait p s).tcbs = setBlocked s.tcbs s.RunPt (some p) := by
        unfold OS_Wait
        simp only [setSema_same]
        rw [if_pos hneg]
        rfl
      have hcnt := blockedCount_block s.tcbs s.RunPt p (by rw [hrun]; simp)
      constructor
      · intro _
        rw [e, hcnt, hval, hw]
        by_cases h0 : s.sema p < 0
        · have := hinv.1 h0
          push_cast
          omega
        · have := hinv.2 (by omega)
          push_cast
          omega
      · intro hge
        rw [hval] at hge
        omega
    · have e : (OS_Wait p s).tcbs = s.tcbs := by
        unfold OS_Wait
        simp only [setSema_same]
        rw [if_neg hneg]
      constructor
      · intro hlt
        rw [hval] at hlt
        exact absurd hlt hneg
      · intro _
        rw [e]
        exact hinv.2 (by omega)
  · intro hinv hring hhi
    have hle := blockedCount_le s.tcbs p
    have hlo : -6 ≤ s.sema p := by
      by_contra hc
      have := hinv.1 (by omega)
      omega
    have hw : wrap32 (s.sema p + 1) = s.sema p + 1 := wrap32_of_range _ (by omega) (by omega)
    have hserved : wrap32 (s.sema p + 1) ≤ 0 → ∃ i, (s.tcbs i).blocked = some p := by
      intro h
      apply blockedCount_pos
      have := hinv.1 (by omega)
      omega
    obtain ⟨hc, w, hb, hsig⟩ | ⟨hc, hsig⟩ := OS_Signal_returns s p hring hserved
    · refine ⟨_, hsig, ⟨?_, ?_⟩, ?_⟩
      · intro _
        simp only [setSema_same]
        have h1 := blockedCount_release s.tcbs w p hb
        have h2 := hinv.1 (by omega)
        rw [hw]
        omega
      · intro hge
        simp only [setSema_same] at hge
        have h1 := blockedCount_release s.tcbs w p hb
        have h2 := hinv.1 (by omega)
        show blockedCount (setBlocked s.tcbs w none) p = 0
        omega
      · simp only [setSema_same]
        omega
    · refine ⟨_, hsig, ⟨?_, ?_⟩, ?_⟩
      · intro hneg
        simp only [setSema_same] at hneg
        omega
      · intro _
        exact hinv.2 (by omega)
      · simp only [setSema_same]
        omega

/-- Witness of C6: `init 1; A waits (0, proceeds); B waits (-1, B blocked);
A signals (0, B released)`, the invariant holding after every step. -/
theorem SemaInv_init_wait_signal_witness :
    (mutex0.sema semA = 1 ∧ SemaInv mutex0 semA) ∧
    (mutex1.sema semA = 0 ∧ (mutex1.tcbs 0).blocked = none ∧ SemaInv mutex1 semA) ∧
    (mutex2.sema semA = -1 ∧ (mutex2.tcbs 1).blocked = some semA ∧ SemaInv mutex2 semA) ∧
    (∃ s', mutex3 = some s' ∧ SemaInv s' semA ∧ s'.sema semA < 2 ^ 31) ∧
    mutex3.map (fun s' => (s'.sema semA, (s'.tcbs 1).blocked)) = some (0, none) :=
  have h0 : SemaInv mutex0 semA :=
    (SemaInv_init_wait_signal bootOS semA).1 1 (by decide) (by decide)
  have h1 := (SemaInv_init_wait_signal mutex0 semA).2.1 h0 (by decide) (by decide)
  have h2 := (SemaInv_init_wait_signal { mutex1 with RunPt := 1 } semA).2.1 h1.1
    (by decide) (by decide)
  have h3 := (SemaInv_init_wait_signal { mutex2 with RunPt := 0 } semA).2.2 h2.1
    (by decide) (by decide)
  ⟨⟨by decide, h0⟩, ⟨by decide, by decide, h1.1⟩, ⟨by decide, by decide, h2.1⟩, h3, by decide⟩

/-- Counterexample to C6 as stated: after `OS_InitSemaphore semA (2^31 - 1)`
with every thread unblocked the invariant holds, but `OS_Signal semA` wraps
the counter to `-2^31`, finds no thread to release and returns for no fuel, so
no state satisfying the invariant follows. -/
theorem SemaInv_not_preserved_at_int32_max :
    overflowSem = OS_InitSemaphore semA (2 ^ 31 - 1) bootOS ∧
    (∀ i, (bootOS.tcbs i).blocked = none) ∧
    SemaInv overflowSem semA ∧ RingLinked overflowSem.tcbs ∧
    (overflowSem.tcbs overflowSem.RunPt).blocked = none ∧
    wrap32 (overflowSem.sema semA + 1) = -(2 ^ 31) ∧
    blockedCount overflowSem.tcbs semA = 0 ∧
    ¬ ∃ fuel s', OS_Signal fuel semA overflowSem = some s' := by
  refine ⟨rfl, by decide, by decide, by decide, by decide, by decide, by decide, ?_⟩
  rintro ⟨fuel, s', h⟩
  have hnone : ∀ i, (overflowSem.tcbs i).blocked ≠ some semA := by decide
  have hle : wrap32 (overflowSem.sema semA + 1) ≤ 0 := by decide
  unfold OS_Signal at h
  simp only [setSema_same] at h
  rw [if_pos hle, signalLoop_none _ _ hnone] at h
  exact Option.noConfusion h

/-! ## Properties of the tick dispatcher -/

theorem schedLoop_exit : ∀ (fuel : Nat) (s s' : OS), schedLoop fuel s = some s' →
    s'.tcbs = s.tcbs ∧ (s'.tcbs s'.RunPt).sleep = 0 ∧ (s'.tcbs s'.RunPt).blocked = none := by
  intro fuel
  induction fuel with
  | zero => intro s s' h; simp [schedLoop] at h
  | succ n ih =>
    intro s s' h
    unfold schedLoop at h
    by_cases hc : (s.tcbs s.RunPt).sleep ≠ 0 ∨ (s.tcbs s.RunPt).blocked ≠ none
    · rw [if_pos hc] at h
      exact ih { s with RunPt := (s.tcbs s.RunPt).next } s' h
    · rw [if_neg hc] at h
      have e : s = s' := Option.some.inj h
      subst e
      push_neg at hc
      exact ⟨rfl, hc.1, hc.2⟩

/-- The thread selected by `Scheduler` is neither sleeping nor blocked, and the
thread table is not modified. -/
theorem Scheduler_exit (fuel : Nat) (s s' : OS) (h : Scheduler fuel s = some s') :
    s'.tcbs = s.tcbs ∧ (s'.tcbs s'.RunPt).sleep = 0 ∧ (s'.tcbs s'.RunPt).blocked = none :=
  schedLoop_exit fuel { s with RunPt := (s.tcbs s.RunPt).next } s' h

theorem sleepLoop_fold (l : List (Fin 6)) : ∀ (s : OS), l.Nodup →
    l.foldl (fun s i =>
      if (s.tcbs i).sleep ≠ 0 then { s with tcbs := setSleep s.tcbs i ((s.tcbs i).sleep - 1) }
      else s) s
    = { s with tcbs := fun j =>
          if j ∈ l then { s.tcbs j with sleep := (s.tcbs j).sleep - 1 } else s.tcbs j } := by
  induction l with
  | nil => intro s _; simp
  | cons i l ih =>
    intro s hnd
    have hi : i ∉ l := (List.nodup_cons.mp hnd).1
    have hstep : (if (s.tcbs i).sleep ≠ 0
          then { s with tcbs := setSleep s.tcbs i ((s.tcbs i).sleep - 1) } else s)
        = { s with tcbs := fun j =>
              if j = i then { s.tcbs i with sleep := (s.tcbs i).sleep - 1 } else s.tcbs j } := by
      by_cases h0 : (s.tcbs i).sleep ≠ 0
      · rw [if_pos h0]
        rfl
      · rw [if_neg h0]
        push_neg at h0
        have : s.tcbs = fun j =>
            if j = i then { s.tcbs i with sleep := (s.tcbs i).sleep - 1 } else s.tcbs j := by
          funext j
          by_cases hj : j = i
          · subst hj
            rw [if_pos rfl, h0]
            cases hx : s.tcbs j
            rw [hx] at h0
            simp only at h0
            simp [h0]
          · simp [hj]
        rw [← this]
    rw [List.foldl_cons, hstep, ih _ (List.nodup_cons.mp hnd).2]
    congr 1
    funext j
    by_cases hj : j = i
    · subst hj
      simp [hi]
    · by_cases hjl : j ∈ l
      · simp [hj, hjl]
      · simp [hj, hjl]

/-- The first loop of the dispatcher decrements every sleep counter that is not
zero and touches nothing else. -/
theorem sleepLoop_eq (s : OS) :
    sleepLoop s = { s with tcbs := fun j => { s.tcbs j with sleep := (s.tcbs j).sleep - 1 } } := by
  unfold sleepLoop
  rw [sleepLoop_fold _ s (List.nodup_finRange 6)]
  congr 1
  funext j
  simp

/-- The second loop of the dispatcher keeps every property of the kernel state
that the event threads keep, and returns, when the registered periods and task
pointers are not zero. -/
theorem periodicLoop_keeps (code : Nat → OS → OS) (P : OS → Prop)
    (hP : ∀ f s, P s → P (code f s))
    (hreg : ∀ s, P s → ∀ i, (s.periodic_thread i).period ≠ 0 ∧ (s.periodic_thread i).task ≠ 0) :
    ∀ (l : List (Fin 2)) (r : OS × List (Fin 2)), P r.1 →
      ∃ r', periodicLoop code l r = some r' ∧ P r'.1 := by
  intro l
  induction l with
  | nil => intro r hr; exact ⟨r, rfl, hr⟩
  | cons i l ih =>
    rintro ⟨s, log⟩ hr
    have h := hreg s hr i
    unfold periodicLoop
    rw [if_neg h.1]
    by_cases hd : s.counter % (s.periodic_thread i).period = 0
    · rw [if_pos hd, if_neg h.2]
      exact ih _ (hP _ _ hr)
    · rw [if_neg hd]
      exact ih _ hr

/-- One invocation of the dispatcher, two tasks being registered and the event
threads keeping their contract: it returns, the registration stays, every
sleep counter is decremented unless it is zero, and the `blocked` fields are
those left by the event threads that ran. -/
theorem runperiodicevents_tick (code : Nat → OS → OS) (hc : TaskContract code) (s : OS)
    (hreg : TwoRegistered s) :
    ∃ r, runperiodicevents code s = some r ∧ TwoRegistered r.1 ∧
      (∀ i, (r.1.tcbs i).sleep = (s.tcbs i).sleep - 1) ∧
      ((∀ f st i, ((code f st).tcbs i).blocked = (st.tcbs i).blocked) →
        ∀ i, (r.1.tcbs i).blocked = (s.tcbs i).blocked) := by
  obtain ⟨h0, t0, h1, t1, hm⟩ := hreg
  have hmax : ¬ s.max_period = 0 := by omega
  unfold runperiodicevents
  rw [if_neg hmax]
  simp only [sleepLoop_eq]
  have key := periodicLoop_keeps code
    (fun st => st.periodic_thread = s.periodic_thread ∧ st.max_period = s.max_period ∧
      (∀ i, (st.tcbs i).sleep = (s.tcbs i).sleep - 1) ∧
      ((∀ f st i, ((code f st).tcbs i).blocked = (st.tcbs i).blocked) →
        ∀ i, (st.tcbs i).blocked = (s.tcbs i).blocked))
    (by
      rintro f st ⟨hp, hmp, hsl, hbl⟩
      obtain ⟨c1, c2, c3, _⟩ := hc f st
      refine ⟨by rw [c2, hp], by rw [c3, hmp], fun i => by rw [c1, hsl], fun hb i => ?_⟩
      rw [hb, hbl hb])
    (by
      rintro st ⟨hp, _, _, _⟩ i
      rw [hp]
      fin_cases i
      · exact ⟨by simp only [Fin.zero_eta]; omega, by simpa using t0⟩
      · exact ⟨by simp only [Fin.mk_one]; omega, by simpa using t1⟩)
    [0, 1]
    ({ s with counter := (s.counter + 1) % 2 ^ 32 % s.max_period,
              tcbs := fun j => { s.tcbs j with sleep := (s.tcbs j).sleep - 1 } }, [])
    ⟨rfl, rfl, fun _ => rfl, fun _ _ => rfl⟩
  obtain ⟨r, hr, hp, hmp, hsl, hbl⟩ := key
  refine ⟨r, hr, ?_, hsl, hbl⟩
  unfold TwoRegistered
  rw [hp, hmp]
  exact ⟨h0, t0, h1, t1, hm⟩

theorem ticks_countdown (code : Nat → OS → OS) (hc : TaskContract code) :
    ∀ (k : Nat) (s : OS), TwoRegistered s →
    ∃ sk, ticks code k s = some sk ∧ TwoRegistered sk ∧
      ∀ i, (sk.tcbs i).sleep = (s.tcbs i).sleep - k := by
  intro k
  induction k with
  | zero => intro s hreg; exact ⟨s, rfl, hreg, fun _ => rfl⟩
  | succ k ih =>
    intro s hreg
    obtain ⟨r, hr, hreg1, hsl, _⟩ := runperiodicevents_tick code hc s hreg
    obtain ⟨sk, hk, hregk, hslk⟩ := ih r.1 hreg1
    refine ⟨sk, ?_, hregk, fun i => ?_⟩
    · simp only [ticks, hr, Option.some_bind]
      exact hk
    · rw [hslk, hsl]
      omega

theorem OS_Signal_frame (fuel : Nat) (p : SemPtr) (s s' : OS)
    (h : OS_Signal fuel p s = some s') :
    (∀ i, (s'.tcbs i).sleep = (s.tcbs i).sleep) ∧ s'.periodic_thread = s.periodic_thread ∧
    s'.max_period = s.max_period ∧ s'.counter = s.counter := by
  unfold OS_Signal at h
  simp only [setSema_same] at h
  by_cases hle : wrap32 (s.sema p + 1) ≤ 0
  · rw [if_pos hle] at h
    cases hl : signalLoop s.tcbs p fuel (s.tcbs s.RunPt).next with
    | none => rw [hl] at h; exact Option.noConfusion h
    | some pt =>
      rw [hl] at h
      have e := Option.some.inj h
      subst e
      exact ⟨fun i => setBlocked_sleep _ _ _ _, rfl, rfl, rfl⟩
  · rw [if_neg hle] at h
    have e := Option.some.inj h
    subst e
    exact ⟨fun _ => rfl, rfl, rfl, rfl⟩

/-- The event threads of the scenarios keep the contract. -/
theorem demoCode_contract : TaskContract demoCode := by
  intro f s
  unfold demoCode
  by_cases hf : f = 1
  · rw [if_pos hf]
    cases h : OS_Signal 6 semA s with
    | none => exact ⟨fun _ => rfl, rfl, rfl, rfl⟩
    | some s' => exact OS_Signal_frame 6 semA s s' h
  · rw [if_neg hf]
    exact ⟨fun _ => rfl, rfl, rfl, rfl⟩

/-- C7 (as amended). Two periodic tasks with periods at least 1 are registered
and the event threads keep their contract.  When the running thread calls
`OS_Sleep n` its sleep counter is `n`; after `k ≤ n` invocations of
`runperiodicevents` (each of which returns) it is `n - k`: not zero for
`k < n`, so no `Scheduler` call selects the thread, and zero for `k = n`, so
the thread is runnable again unless it is blocked.  One invocation lowers every
nonzero sleep counter by exactly one and leaves the zero ones at zero; the
`blocked` fields are unchanged provided the event threads invoked do not
change them. -/
theorem sleep_countdown_reaches_zero_after_n_ticks (code : Nat → OS → OS)
    (hc : TaskContract code) (s : OS) (hreg : TwoRegistered s) (n : Nat) :
    ((OS_Sleep n s).tcbs s.RunPt).sleep = n ∧
    (∀ k, k ≤ n → ∃ sk, ticks code k (OS_Sleep n s) = some sk ∧
      (sk.tcbs s.RunPt).sleep = n - k ∧
      (k < n → (sk.tcbs s.RunPt).sleep ≠ 0 ∧ ¬ Runnable sk s.RunPt ∧
        ∀ fuel s', Scheduler fuel sk = some s' → s'.RunPt ≠ s.RunPt) ∧
      (k = n → (sk.tcbs s.RunPt).sleep = 0 ∧
        ((sk.tcbs s.RunPt).blocked = none → Runnable sk s.RunPt))) ∧
    (∃ r, runperiodicevents code s = some r ∧
      (∀ i, (s.tcbs i).sleep ≠ 0 → (r.1.tcbs i).sleep + 1 = (s.tcbs i).sleep) ∧
      (∀ i, (s.tcbs i).sleep = 0 → (r.1.tcbs i).sleep = 0) ∧
      ((∀ f st i, ((code f st).tcbs i).blocked = (st.tcbs i).blocked) →
        ∀ i, (r.1.tcbs i).blocked = (s.tcbs i).blocked)) := by
  have hsl : ((OS_Sleep n s).tcbs s.RunPt).sleep = n := by
    simp [OS_Sleep, OS_Suspend, setSleep]
  refine ⟨hsl, ?_, ?_⟩
  · intro k hk
    obtain ⟨sk, hticks, _, hval⟩ := ticks_countdown code hc k (OS_Sleep n s) hreg
    have hv : (sk.tcbs s.RunPt).sleep = n - k := by rw [hval, hsl]
    refine ⟨sk, hticks, hv, ?_, ?_⟩
    · intro hlt
      have hne : (sk.tcbs s.RunPt).sleep ≠ 0 := by omega
      refine ⟨hne, fun hrun => hne hrun.1, ?_⟩
      intro fuel s' hsch heq
      obtain ⟨htc, hz, _⟩ := Scheduler_exit fuel sk s' hsch
      rw [heq, htc] at hz
      exact hne hz
    · intro hkn
      have hz : (sk.tcbs s.RunPt).sleep = 0 := by omega
      exact ⟨hz, fun hb => ⟨hz, hb⟩⟩
  · obtain ⟨r, hr, _, hdec, hbl⟩ := runperiodicevents_tick code hc s hreg
    refine ⟨r, hr, ?_, ?_, hbl⟩
    · intro i hi
      rw [hdec]
      omega
    · intro i hi
      rw [hdec, hi]

/-- Witness of C7: thread 0 calls `OS_Sleep 5` at tick 0 on `demoPeriodic`. -/
theorem sleep_countdown_reaches_zero_after_n_ticks_witness :
    TaskContract demoCode ∧ TwoRegistered demoPeriodic ∧
    ((OS_Sleep 5 demoPeriodic).tcbs 0).sleep = 5 ∧
    (ticks demoCode 4 (OS_Sleep 5 demoPeriodic)).map (fun sk => (sk.tcbs 0).sleep) = some 1 ∧
    (ticks demoCode 5 (OS_Sleep 5 demoPeriodic)).map (fun sk => (sk.tcbs 0).sleep) = some 0 ∧
    (∀ k, k ≤ 5 → ∃ sk, ticks demoCode k (OS_Sleep 5 demoPeriodic) = some sk ∧
      (sk.tcbs demoPeriodic.RunPt).sleep = 5 - k ∧
      (k < 5 → (sk.tcbs demoPeriodic.RunPt).sleep ≠ 0 ∧ ¬ Runnable sk demoPeriodic.RunPt ∧
        ∀ fuel s', Scheduler fuel sk = some s' → s'.RunPt ≠ demoPeriodic.RunPt) ∧
      (k = 5 → (sk.tcbs demoPeriodic.RunPt).sleep = 0 ∧
        ((sk.tcbs demoPeriodic.RunPt).blocked = none → Runnable sk demoPeriodic.RunPt))) :=
  ⟨demoCode_contract, by decide, by decide, by decide, by decide,
    (sleep_countdown_reaches_zero_after_n_ticks demoCode demoCode_contract demoPeriodic
      (by decide) 5).2.1⟩

/-- Counterexample to C7 as stated: two tasks are registered on `demoTick`, the
first one signals `semA`, on which thread 2 is blocked.  The event threads keep
their contract, yet one invocation of `runperiodicevents` runs the first task
and thread 2 is no longer blocked afterwards. -/
theorem tick_with_signalling_task_clears_blocked :
    TaskContract demoCode ∧ TwoRegistered demoTick ∧
    (demoTick.tcbs 2).blocked = some semA ∧
    (runperiodicevents demoCode demoTick).map (fun r => ((r.1.tcbs 2).blocked, r.2))
      = some (none, [0]) :=
  ⟨demoCode_contract, by decide, by decide, by decide⟩

/-! ## Properties of the FIFO -/

/-- A put into a queue that is not full and has no reader waiting: the item is
stored at `PutI`, `PutI` advances circularly and `CurrentSize` goes up by one. -/
theorem OS_FIFO_Put_room (fuel : Nat) (x : Nat) (s : OS)
    (h0 : 0 ≤ s.sema SemPtr.CurrentSize) (h1 : s.sema SemPtr.CurrentSize < 10) :
    OS_FIFO_Put fuel x s = some
      ({ s with Fifo := fun j => if j = s.PutI then x else s.Fifo j,
                PutI := (s.PutI + 1) % 10,
                sema := setSema s.sema SemPtr.CurrentSize (s.sema SemPtr.CurrentSize + 1) }, 0) := by
  have hne : ¬ s.sema SemPtr.CurrentSize = (FIFOSIZE : Int) := by
    simp only [FIFOSIZE]; push_cast; omega
  have hw : wrap32 (s.sema SemPtr.CurrentSize + 1) = s.sema SemPtr.CurrentSize + 1 :=
    wrap32_of_range _ (by omega) (by omega)
  unfold OS_FIFO_Put
  rw [if_neg hne]
  unfold OS_Signal
  simp only [setSema_same, hw]
  rw [if_neg (by omega)]
  rfl

/-- A put into a full queue only counts the lost item. -/
theorem OS_FIFO_Put_full (fuel : Nat) (x : Nat) (s : OS)
    (h : s.sema SemPtr.CurrentSize = 10) :
    OS_FIFO_Put fuel x s = some ({ s with LostData := (s.LostData + 1) % 2 ^ 32 }, -1) := by
  have he : s.sema SemPtr.CurrentSize = (FIFOSIZE : Int) := by
    simp only [FIFOSIZE]; push_cast; exact h
  unfold OS_FIFO_Put
  rw [if_pos he]

/-- The state after `n` puts from `OS_FIFO_Init`, no get in between. -/
theorem putsRun_state (s0 : OS) : ∀ (xs : List Nat), ∃ sn,
    putsRun xs (OS_FIFO_Init s0) = some sn ∧
    sn.sema SemPtr.CurrentSize = (min xs.length 10 : Nat) ∧
    sn.PutI = min xs.length 10 % 10 ∧ sn.GetI = 0 ∧
    sn.LostData = (xs.length - 10) % 2 ^ 32 ∧
    (∀ j, j < min xs.length 10 → xs[j]? = some (sn.Fifo j)) := by
  have gen : ∀ (xs : List Nat) (pre : List Nat) (s : OS),
      s.sema SemPtr.CurrentSize = (min pre.length 10 : Nat) →
      s.PutI = min pre.length 10 % 10 → s.GetI = 0 →
      s.LostData = (pre.length - 10) % 2 ^ 32 →
      (∀ j, j < min pre.length 10 → pre[j]? = some (s.Fifo j)) →
      ∃ sn, putsRun xs s = some sn ∧
        sn.sema SemPtr.CurrentSize = (min (pre ++ xs).length 10 : Nat) ∧
        sn.PutI = min (pre ++ xs).length 10 % 10 ∧ sn.GetI = 0 ∧
        sn.LostData = ((pre ++ xs).length - 10) % 2 ^ 32 ∧
        (∀ j, j < min (pre ++ xs).length 10 → (pre ++ xs)[j]? = some (sn.Fifo j)) := by
    intro xs
    induction xs with
    | nil =>
      intro pre s h1 h2 h3 h4 h5
      simp only [List.append_nil]
      exact ⟨s, rfl, h1, h2, h3, h4, h5⟩
    | cons x xs ih =>
      intro pre s h1 h2 h3 h4 h5
      have hl : (pre ++ [x]).length = pre.length + 1 := by simp
      have happ : pre ++ x :: xs = (pre ++ [x]) ++ xs := by simp
      by_cases hfull : pre.length < 10
      · have hmin : min pre.length 10 = pre.length := by omega
        rw [hmin] at h1 h2 h5
        have hput := OS_FIFO_Put_room 6 x s (by rw [h1]; omega) (by rw [h1]; omega)
        have hP : s.PutI = pre.length := by rw [h2]; omega
        have hm1 : min (pre.length + 1) 10 = pre.length + 1 := by omega
        obtain ⟨sn, hrun, hres⟩ := ih (pre ++ [x])
          { s with Fifo := fun j => if j = s.PutI then x else s.Fifo j,
                   PutI := (s.PutI + 1) % 10,
                   sema := setSema s.sema SemPtr.CurrentSize (s.sema SemPtr.CurrentSize + 1) }
          (by
            simp only [setSema_same, h1, hl, hm1]
            push_cast
            rfl)
          (show (s.PutI + 1) % 10 = min (pre ++ [x]).length 10 % 10 by
            rw [hl, hP, hm1])
          h3
          (show s.LostData = ((pre ++ [x]).length - 10) % 2 ^ 32 by
            rw [h4, hl]
            have a1 : pre.length - 10 = 0 := by omega
            have a2 : pre.length + 1 - 10 = 0 := by omega
            rw [a1, a2])
          (by
            intro j hj
            rw [hl] at hj
            show (pre ++ [x])[j]? = some (if j = s.PutI then x else s.Fifo j)
            by_cases hjp : j = pre.length
            · rw [hP, if_pos hjp, hjp]
              simp
            · rw [hP, if_neg hjp, List.getElem?_append_left (by omega)]
              exact h5 j (by omega))
        refine ⟨sn, ?_, ?_⟩
        · simp only [putsRun, hput, Option.some_bind]
          exact hrun
        · rw [happ]
          exact hres
      · have hmin : min pre.length 10 = 10 := by omega
        rw [hmin] at h1 h2 h5
        have hput := OS_FIFO_Put_full 6 x s (by rw [h1]; rfl)
        have hmin2 : min (pre ++ [x]).length 10 = 10 := by rw [hl]; omega
        obtain ⟨sn, hrun, hres⟩ := ih (pre ++ [x]) { s with LostData := (s.LostData + 1) % 2 ^ 32 }
          (by rw [hmin2]; exact h1) (by rw [hmin2]; exact h2) h3
          (show (s.LostData + 1) % 2 ^ 32 = ((pre ++ [x]).length - 10) % 2 ^ 32 by
            rw [h4, hl]
            have a2 : pre.length + 1 - 10 = (pre.length - 10) + 1 := by omega
            rw [a2]
            omega)
          (by
            intro j hj
            rw [hmin2] at hj
            rw [List.getElem?_append_left (by omega)]
            exact h5 j hj)
        refine ⟨sn, ?_, ?_⟩
        · simp only [putsRun, hput, Option.some_bind]
          exact hrun
        · rw [happ]
          exact hres
  intro xs
  have h := gen xs [] (OS_FIFO_Init s0) (by simp [OS_FIFO_Init, OS_InitSemaphore, setSema])
    rfl rfl rfl (by intro j hj; simp at hj)
  simpa using h

/-- C8. Let `sn` be the state after `OS_FIFO_Init` and `OS_FIFO_Put` of the
items `xs`, no get in between; it exists (every put returns).  If fewer than 10
puts were made, the next put returns 0, stores its item at the put index,
advances the put index by one modulo 10, raises `CurrentSize` by one and
leaves the other slots, `GetI` and `LostData` unchanged.  From the tenth put on,
the next put returns -1 and the state after it is `sn` with `LostData`
incremented (as a `uint32_t`): buffer, indices and `CurrentSize` are unchanged.
The buffer holds the first ten items. -/
theorem FIFO_put_accepts_ten_then_rejects (s0 : OS) (xs : List Nat) (x : Nat) :
    ∃ sn, putsRun xs (OS_FIFO_Init s0) = some sn ∧
      (∀ j, j < min xs.length 10 → xs[j]? = some (sn.Fifo j)) ∧
      (xs.length < 10 →
        sn.PutI = xs.length ∧ sn.sema SemPtr.CurrentSize = xs.length ∧ sn.LostData = 0 ∧
        ∃ s', OS_FIFO_Put 6 x sn = some (s', 0) ∧
          s'.Fifo sn.PutI = x ∧ (∀ j, j ≠ sn.PutI → s'.Fifo j = sn.Fifo j) ∧
          s'.PutI = (sn.PutI + 1) % 10 ∧
          s'.sema SemPtr.CurrentSize = sn.sema SemPtr.CurrentSize + 1 ∧
          s'.GetI = sn.GetI ∧ s'.LostData = sn.LostData) ∧
      (10 ≤ xs.length →
        sn.sema SemPtr.CurrentSize = 10 ∧ sn.PutI = 0 ∧
        sn.LostData = (xs.length - 10) % 2 ^ 32 ∧
        ∃ s', OS_FIFO_Put 6 x sn = some (s', -1) ∧
          s' = { sn with LostData := (sn.LostData + 1) % 2 ^ 32 } ∧
          s'.LostData = (xs.length - 10 + 1) % 2 ^ 32 ∧
          s'.Fifo = sn.Fifo ∧ s'.PutI = sn.PutI ∧ s'.GetI = sn.GetI ∧ s'.sema = sn.sema) := by
  obtain ⟨sn, hrun, hcs, hput, hget, hlost, hbuf⟩ := putsRun_state s0 xs
  refine ⟨sn, hrun, hbuf, ?_, ?_⟩
  · intro hlt
    have hmin : min xs.length 10 = xs.length := by omega
    rw [hmin] at hcs hput
    have hP : sn.PutI = xs.length := by rw [hput]; omega
    have hL : sn.LostData = 0 := by
      rw [hlost]
      have : xs.length - 10 = 0 := by omega
      rw [this]
      rfl
    refine ⟨hP, hcs, hL, _, OS_FIFO_Put_room 6 x sn (by rw [hcs]; omega) (by rw [hcs]; omega),
      ?_, ?_, rfl, ?_, rfl, rfl⟩
    · simp
    · intro j hj
      simp [hj]
    · simp only [setSema_same]
  · intro hge
    have hmin : min xs.length 10 = 10 := by omega
    rw [hmin] at hcs hput
    have hcs10 : sn.sema SemPtr.CurrentSize = 10 := by rw [hcs]; rfl
    refine ⟨hcs10, hput, hlost, _, OS_FIFO_Put_full 6 x sn hcs10, rfl, ?_, rfl, rfl, rfl, rfl⟩
    show (sn.LostData + 1) % 2 ^ 32 = (xs.length - 10 + 1) % 2 ^ 32
    rw [hlost]
    omega

/-- Witness of C8: after three puts the fourth is accepted, after eleven puts
the twelfth is rejected. -/
theorem FIFO_put_accepts_ten_then_rejects_witness :
    (∃ sn s', putsRun [7, 8, 9] (OS_FIFO_Init bootOS) = some sn ∧
      OS_FIFO_Put 6 4 sn = some (s', 0) ∧ s'.Fifo 3 = 4 ∧ s'.PutI = 4 ∧
      s'.sema SemPtr.CurrentSize = 4) ∧
    (∃ sn s', putsRun [0, 1, 2, 3, 4, 5, 6, 7, 8, 9, 10] (OS_FIFO_Init bootOS) = some sn ∧
      OS_FIFO_Put 6 11 sn = some (s', -1) ∧ sn.LostData = 1 ∧ s'.LostData = 2 ∧
      s'.Fifo = sn.Fifo ∧ s'.PutI = sn.PutI ∧ s'.GetI = sn.GetI ∧ s'.sema = sn.sema) := by
  constructor
  · obtain ⟨sn, hrun, _, h, _⟩ := FIFO_put_accepts_ten_then_rejects bootOS [7, 8, 9] 4
    obtain ⟨hP, hcs, _, s', hput, hf, _, hp, hc, _, _⟩ := h (by decide)
    refine ⟨sn, s', hrun, hput, ?_, ?_, ?_⟩
    · rw [← hf, hP]; rfl
    · rw [hp, hP]; rfl
    · rw [hc, hcs]; rfl
  · obtain ⟨sn, hrun, _, _, h⟩ :=
      FIFO_put_accepts_ten_then_rejects bootOS [0, 1, 2, 3, 4, 5, 6, 7, 8, 9, 10] 11
    obtain ⟨_, _, hl, s', hput, _, hl', hf, hp, hg, hs⟩ := h (by decide)
    exact ⟨sn, s', hrun, hput, by rw [hl]; rfl, by rw [hl']; rfl, hf, hp, hg, hs⟩

/-- A get from a queue that is not empty does not block: it returns the item
at `GetI`, advances `GetI` circularly and lowers `CurrentSize` by one. -/
theorem OS_FIFO_Get_nonempty (s : OS) (h0 : 0 < s.sema SemPtr.CurrentSize)
    (h1 : s.sema SemPtr.CurrentSize ≤ 10) :
    OS_FIFO_Get s =
      ({ s with sema := setSema s.sema SemPtr.CurrentSize (s.sema SemPtr.CurrentSize - 1),
                GetI := (s.GetI + 1) % 10 }, some (s.Fifo s.GetI)) := by
  have hw : wrap32 (s.sema SemPtr.CurrentSize - 1) = s.sema SemPtr.CurrentSize - 1 :=
    wrap32_of_range _ (by omega) (by omega)
  have hn : ¬ wrap32 (s.sema SemPtr.CurrentSize - 1) < 0 := by rw [hw]; omega
  have e : OS_Wait SemPtr.CurrentSize s
      = { s with sema := setSema s.sema SemPtr.CurrentSize (s.sema SemPtr.CurrentSize - 1) } := by
    unfold OS_Wait
    simp only [setSema_same]
    rw [if_neg hn, hw]
  unfold OS_FIFO_Get
  simp only [e, setSema_same]
  rw [if_neg (by omega)]
  rfl

theorem FifoHolds_put (s : OS) (q : List Nat) (x : Nat) (h : FifoHolds s q)
    (hlt : q.length < 10) :
    FifoHolds { s with Fifo := fun j => if j = s.PutI then x else s.Fifo j,
                       PutI := (s.PutI + 1) % 10,
                       sema := setSema s.sema SemPtr.CurrentSize
                         (s.sema SemPtr.CurrentSize + 1) } (q ++ [x]) := by
  obtain ⟨hc, _, hg, hp, hb⟩ := h
  have hl : (q ++ [x]).length = q.length + 1 := by simp
  refine ⟨?_, by rw [hl]; omega, hg, ?_, ?_⟩
  · simp only [setSema_same, hc, hl]
    push_cast
    rfl
  · show (s.PutI + 1) % 10 = (s.GetI + (q ++ [x]).length) % 10
    rw [hl, hp]
    omega
  · intro j hj
    rw [hl] at hj
    show (q ++ [x])[j]? = some (if (s.GetI + j) % 10 = s.PutI then x else s.Fifo ((s.GetI + j) % 10))
    by_cases hjq : j = q.length
    · rw [if_pos (by rw [hp, hjq]), hjq]
      simp
    · have hne : ¬ (s.GetI + j) % 10 = s.PutI := by
        rw [hp]
        omega
      rw [if_neg hne, List.getElem?_append_left (by omega)]
      exact hb j (by omega)

theorem FifoHolds_get (s : OS) (d : Nat) (q : List Nat) (h : FifoHolds s (d :: q)) :
    s.Fifo s.GetI = d ∧
    FifoHolds { s with sema := setSema s.sema SemPtr.CurrentSize
                         (s.sema SemPtr.CurrentSize - 1),
                       GetI := (s.GetI + 1) % 10 } q := by
  obtain ⟨hc, hle, hg, hp, hb⟩ := h
  have hl : (d :: q).length = q.length + 1 := by simp
  rw [hl] at hc hle hp
  constructor
  · have h0 := hb 0 (by simp)
    have e : (s.GetI + 0) % 10 = s.GetI := by omega
    rw [e] at h0
    simpa using h0.symm
  · refine ⟨?_, by omega, Nat.mod_lt _ (by decide), ?_, ?_⟩
    · simp only [setSema_same, hc]
      push_cast
      omega
    · show s.PutI = ((s.GetI + 1) % 10 + q.length) % 10
      rw [hp]
      omega
    · intro j hj
      show q[j]? = some (s.Fifo (((s.GetI + 1) % 10 + j) % 10))
      have e : ((s.GetI + 1) % 10 + j) % 10 = (s.GetI + (j + 1)) % 10 := by omega
      rw [e, ← hb (j + 1) (by rw [hl]; omega)]
      simp

theorem fifoRun_order : ∀ (cs : List FifoCall) (s : OS) (q : List Nat),
    FifoHolds s q → GetsNonEmpty cs s →
    ∃ a g, fifoRun cs s = some (a, g) ∧ ∃ rest, q ++ a = g ++ rest := by
  intro cs
  induction cs with
  | nil => intro s q _ _; exact ⟨[], [], rfl, q, by simp⟩
  | cons c cs ih =>
    intro s q hq hne
    cases c with
    | put x =>
      by_cases hfull : q.length < 10
      · have hput := OS_FIFO_Put_room 6 x s (by rw [hq.1]; omega) (by rw [hq.1]; omega)
        obtain ⟨a, g, hrun, rest, hrest⟩ := ih _ (q ++ [x]) (FifoHolds_put s q x hq hfull)
          (hne _ hput)
        refine ⟨x :: a, g, ?_, rest, ?_⟩
        · simp only [fifoRun, hput, hrun, Option.map_some', if_true]
        · rw [← hrest]
          simp
      · have h10 : q.length = 10 := by have := hq.2.1; omega
        have hput := OS_FIFO_Put_full 6 x s (by rw [hq.1, h10]; rfl)
        obtain ⟨a, g, hrun, rest, hrest⟩ := ih { s with LostData := (s.LostData + 1) % 2 ^ 32 } q
          hq (hne _ hput)
        refine ⟨a, g, ?_, rest, hrest⟩
        simp only [fifoRun, hput, hrun, Option.map_some']
        rfl
    | get =>
      obtain ⟨hpos, hne'⟩ := hne
      cases q with
      | nil =>
        have := hq.1
        simp at this
        omega
      | cons d q =>
        have hget := OS_FIFO_Get_nonempty s hpos (by rw [hq.1]; have := hq.2.1; omega)
        obtain ⟨hd, hq'⟩ := FifoHolds_get s d q hq
        rw [hget] at hne'
        obtain ⟨a, g, hrun, rest, hrest⟩ := ih _ q hq' hne'
        refine ⟨a, d :: g, ?_, rest, ?_⟩
        · simp only [fifoRun, hget, hrun, Option.map_some', hd]
        · simp [hrest]

/-- C9. After `OS_FIFO_Init`, for every sequence of `OS_FIFO_Put` and
`OS_FIFO_Get` calls in which each get is issued while the queue is not empty:
all calls return, and the items returned by the gets are, in order, the first
items whose put succeeded, so the `k`-th get returns the item of the `k`-th
successful put. -/
theorem FIFO_gets_return_accepted_puts_in_order (s0 : OS) (cs : List FifoCall)
    (hne : GetsNonEmpty cs (OS_FIFO_Init s0)) :
    ∃ a g, fifoRun cs (OS_FIFO_Init s0) = some (a, g) ∧
      (∃ rest, a = g ++ rest) ∧ g.length ≤ a.length ∧
      ∀ k, k < g.length → g[k]? = a[k]? := by
  have hinit : FifoHolds (OS_FIFO_Init s0) [] := by
    refine ⟨?_, by simp, ?_, ?_, ?_⟩
    · simp [OS_FIFO_Init, OS_InitSemaphore, setSema]
    · show (0 : Nat) < 10
      decide
    · rfl
    · intro j hj
      simp at hj
  obtain ⟨a, g, hrun, rest, hrest⟩ := fifoRun_order cs (OS_FIFO_Init s0) [] hinit hne
  rw [List.nil_append] at hrest
  refine ⟨a, g, hrun, ⟨rest, hrest⟩, ?_, ?_⟩
  · rw [hrest]
    simp
  · intro k hk
    rw [hrest, List.getElem?_append_left hk]

/-- Witness of C9: two puts, a get, a third put and two more gets. -/
theorem FIFO_gets_return_accepted_puts_in_order_witness :
    GetsNonEmpty [FifoCall.put 5, FifoCall.put 6, FifoCall.get, FifoCall.put 7, FifoCall.get,
      FifoCall.get] (OS_FIFO_Init bootOS) ∧
    fifoRun [FifoCall.put 5, FifoCall.put 6, FifoCall.get, FifoCall.put 7, FifoCall.get,
      FifoCall.get] (OS_FIFO_Init bootOS) = some ([5, 6, 7], [5, 6, 7]) ∧
    ∃ a g, fifoRun [FifoCall.put 5, FifoCall.put 6, FifoCall.get, FifoCall.put 7, FifoCall.get,
      FifoCall.get] (OS_FIFO_Init bootOS) = some (a, g) ∧
      (∃ rest, a = g ++ rest) ∧ g.length ≤ a.length ∧
      ∀ k, k < g.length → g[k]? = a[k]? :=
  have h : GetsNonEmpty [FifoCall.put 5, FifoCall.put 6, FifoCall.get, FifoCall.put 7,
      FifoCall.get, FifoCall.get] (OS_FIFO_Init bootOS) := by
    intro r1 h1
    have e1 := Option.some.inj ((OS_FIFO_Put_room 6 5 (OS_FIFO_Init bootOS) (by decide)
      (by decide)).symm.trans h1)
    subst e1
    intro r2 h2
    have e2 := Option.some.inj ((OS_FIFO_Put_room 6 6 _ (by decide) (by decide)).symm.trans h2)
    subst e2
    refine ⟨by decide, ?_⟩
    intro r3 h3
    have e3 := Option.some.inj ((OS_FIFO_Put_room 6 7 _ (by decide) (by decide)).symm.trans h3)
    subst e3
    exact ⟨by decide, by decide, trivial⟩
  ⟨h, by decide, FIFO_gets_return_accepted_puts_in_order bootOS _ h⟩

theorem OS_AddThreads_ring (s0 : OS) : RingLinked (OS_AddThreads s0).1.tcbs := by
  intro i
  fin_cases i <;> rfl

theorem OS_AddThreads_runnable (s0 : OS) (p i : Fin 6) :
    Runnable { (OS_AddThreads s0).1 with RunPt := p } i :=
  ⟨rfl, rfl⟩

theorem Scheduler_all_runnable (s : OS) (hring : RingLinked s.tcbs)
    (hall : ∀ i, Runnable s i) (f : Nat) :
    Scheduler (f + 1) s = some { s with RunPt := ringAt s.RunPt 1 } := by
  have h := schedLoop_first s hring 0 (ringAt s.RunPt 1) (fun j hj => absurd hj (Nat.not_lt_zero j))
    (hall _)
  rw [ringAt_zero] at h
  have h2 := schedLoop_mono 1 f _ _ h
  unfold Scheduler
  rw [hring s.RunPt, Nat.add_comm f 1]
  exact h2

theorem schedulerRun_all_runnable (f : Nat) : ∀ (n : Nat) (s : OS), RingLinked s.tcbs →
    (∀ i, Runnable s i) →
    schedulerRun (f + 1) n s = some { s with RunPt := ringAt s.RunPt n } := by
  intro n
  induction n with
  | zero =>
    intro s _ _
    simp [schedulerRun, ringAt_zero]
  | succ n ih =>
    intro s hring hall
    unfold schedulerRun
    rw [Scheduler_all_runnable s hring hall f]
    simp only [Option.some_bind]
    rw [ih { s with RunPt := ringAt s.RunPt 1 } hring hall]
    simp only [ringAt_ringAt, Nat.add_comm 1 n]

/-- C2. On the ring built by `OS_AddThreads`, all six threads runnable, with
the run pointer at any slot `i`: `n` consecutive `Scheduler` calls leave the
run pointer at slot `(i + n) mod 6` and change nothing else, so the first six
calls select slots `i+1, ..., i+6` in ring order; the sixth is back at `i`, and
every slot is selected by exactly one of the six calls. -/
theorem round_robin_visits_ring_once (s0 : OS) (i : Fin 6) :
    (∀ n, schedulerRun 6 n { (OS_AddThreads s0).1 with RunPt := i }
        = some { (OS_AddThreads s0).1 with RunPt := ringAt i n }) ∧
    (∀ n, (ringAt i n).val = (i.val + n) % 6) ∧
    ringAt i 6 = i ∧
    (∀ j : Fin 6, ∃! n, 1 ≤ n ∧ n ≤ 6 ∧ ringAt i n = j) := by
  refine ⟨?_, fun n => rfl, ringAt_six i, ?_⟩
  · intro n
    exact schedulerRun_all_runnable 5 n { (OS_AddThreads s0).1 with RunPt := i }
      (OS_AddThreads_ring s0) (OS_AddThreads_runnable s0 i)
  · intro j
    refine ⟨(j.val + 5 - i.val) % 6 + 1, ⟨by omega, ?_, ringAt_reaches i j⟩, ?_⟩
    · have := Nat.mod_lt (j.val + 5 - i.val) (show 0 < 6 by decide)
      omega
    · rintro m ⟨hm1, hm6, hm⟩
      have h1 : (i.val + m) % 6 = j.val := congrArg Fin.val hm
      have := i.isLt
      have := j.isLt
      omega

/-! ## Properties of the periodic tasks -/

theorem addTwo_registered (f1 p1 f2 p2 : Nat) (s0 : OS)
    (hi : s0.periodic_thread_index = 0) (hm : s0.max_period = 0) :
    ∃ s, addTwo f1 p1 f2 p2 s0 = some s ∧ s.max_period = max p1 p2 ∧
      s.periodic_thread 0 = { task := f1, period := p1 } ∧
      s.periodic_thread 1 = { task := f2, period := p2 } ∧
      s.counter = s0.counter ∧ s.tcbs = s0.tcbs := by
  unfold addTwo OS_AddPeriodicEventThread
  by_cases h1 : p1 > 0
  · by_cases h2 : p2 > p1
    · simp [hi, hm, h1, h2]
      omega
    · simp [hi, hm, h1, h2]
      omega
  · have e1 : p1 = 0 := by omega
    by_cases h2 : p2 > 0
    · simp [hi, hm, e1, h2]
    · have e2 : p2 = 0 := by omega
      simp [hi, hm, e1, e2]


theorem runSlots_keeps (code : Nat → OS → OS) (hc : TaskContract code) :
    ∀ (l : List (Fin 2)) (s : OS),
      (runSlots code l s).periodic_thread = s.periodic_thread ∧
      (runSlots code l s).max_period = s.max_period ∧
      (runSlots code l s).counter = s.counter ∧
      ∀ i, ((runSlots code l s).tcbs i).sleep = (s.tcbs i).sleep := by
  intro l
  induction l with
  | nil => intro s; exact ⟨rfl, rfl, rfl, fun _ => rfl⟩
  | cons i l ih =>
    intro s
    obtain ⟨c1, c2, c3, c4⟩ := hc (s.periodic_thread i).task s
    obtain ⟨h1, h2, h3, h4⟩ := ih (code (s.periodic_thread i).task s)
    unfold runSlots
    exact ⟨by rw [h1, c2], by rw [h2, c3], by rw [h3, c4], fun j => by rw [h4, c1]⟩

/-- One invocation of the dispatcher with two registered tasks: the counter
advances modulo `max_period`, the sleep counters are decremented, then the
tasks due at the new counter are called in table order. -/
theorem runperiodicevents_due (code : Nat → OS → OS) (hc : TaskContract code) (s : OS)
    (hreg : TwoRegistered s) :
    runperiodicevents code s
      = some (runSlots code (dueSlots s ((s.counter + 1) % 2 ^ 32 % s.max_period))
                (sleepLoop { s with counter := (s.counter + 1) % 2 ^ 32 % s.max_period }),
              dueSlots s ((s.counter + 1) % 2 ^ 32 % s.max_period)) := by
  obtain ⟨h0, t0, h1, t1, hm⟩ := hreg
  have hmax : ¬ s.max_period = 0 := by omega
  have hp0 : ¬ (s.periodic_thread 0).period = 0 := by omega
  have hp1 : ¬ (s.periodic_thread 1).period = 0 := by omega
  unfold runperiodicevents
  rw [if_neg hmax]
  simp only [sleepLoop_eq]
  generalize (s.counter + 1) % 2 ^ 32 % s.max_period = c
  unfold dueSlots
  by_cases d0 : c % (s.periodic_thread 0).period = 0
  · obtain ⟨_, c2, _, c4⟩ := hc (s.periodic_thread 0).task
      { s with counter := c, tcbs := fun j => { s.tcbs j with sleep := (s.tcbs j).sleep - 1 } }
    by_cases d1 : c % (s.periodic_thread 1).period = 0
    · simp [periodicLoop, runSlots, hp0, hp1, d0, d1, t0, t1, c2, c4]
    · simp [periodicLoop, runSlots, hp0, hp1, d0, d1, t0, t1, c2, c4]
  · by_cases d1 : c % (s.periodic_thread 1).period = 0
    · simp [periodicLoop, runSlots, hp0, hp1, d0, d1, t0, t1]
    · simp [periodicLoop, runSlots, hp0, hp1, d0, d1, t0, t1]


/-- After `t` invocations of the dispatcher, started with the counter at 0, the
counter is `t` modulo `max_period` and the registration is as before. -/
theorem ticks_counter (code : Nat → OS → OS) (hc : TaskContract code) (s : OS)
    (hreg : TwoRegistered s) (h32 : s.max_period < 2 ^ 32) (h0 : s.counter = 0) :
    ∀ t, ∃ st, ticks code t s = some st ∧ TwoRegistered st ∧
      st.periodic_thread = s.periodic_thread ∧ st.max_period = s.max_period ∧
      st.counter = t % s.max_period := by
  have hM : 1 ≤ s.max_period := hreg.2.2.2.2
  have key : ∀ t (s1 : OS), TwoRegistered s1 → s1.periodic_thread = s.periodic_thread →
      s1.max_period = s.max_period → ∀ c, s1.counter = c % s.max_period →
      ∃ st, ticks code t s1 = some st ∧ TwoRegistered st ∧
        st.periodic_thread = s.periodic_thread ∧ st.max_period = s.max_period ∧
        st.counter = (c + t) % s.max_period := by
    intro t
    induction t with
    | zero => intro s1 hr hp hm c hcnt; exact ⟨s1, rfl, hr, hp, hm, hcnt⟩
    | succ t ih =>
      intro s1 hr hp hm c hcnt
      have hrun := runperiodicevents_due code hc s1 hr
      obtain ⟨k1, k2, k3, _⟩ := runSlots_keeps code hc
        (dueSlots s1 ((s1.counter + 1) % 2 ^ 32 % s1.max_period))
        (sleepLoop { s1 with counter := (s1.counter + 1) % 2 ^ 32 % s1.max_period })
      rw [sleepLoop_eq] at k1 k2 k3
      have hlt : c % s.max_period < s.max_period := Nat.mod_lt _ (by omega)
      have hcn : (s1.counter + 1) % 2 ^ 32 % s1.max_period = (c + 1) % s.max_period := by
        rw [hcnt, hm, Nat.mod_eq_of_lt (by omega : c % s.max_period + 1 < 2 ^ 32),
          Nat.mod_add_mod]
      have hr' : TwoRegistered (runSlots code
          (dueSlots s1 ((s1.counter + 1) % 2 ^ 32 % s1.max_period))
          (sleepLoop { s1 with counter := (s1.counter + 1) % 2 ^ 32 % s1.max_period })) := by
        unfold TwoRegistered
        rw [sleepLoop_eq, k1, k2]
        exact hr
      obtain ⟨st, h1, h2, h3, h4, h5⟩ := ih _ hr' (by rw [sleepLoop_eq, k1]; exact hp)
        (by rw [sleepLoop_eq, k2]; exact hm) (c + 1) (by rw [sleepLoop_eq, k3]; exact hcn)
      refine ⟨st, ?_, h2, h3, h4, by rw [h5]; congr 1; omega⟩
      unfold ticks
      rw [hrun]
      exact h1
  intro t
  obtain ⟨st, h1, h2, h3, h4, h5⟩ := key t s hreg rfl rfl 0 (by rw [h0, Nat.zero_mod])
  exact ⟨st, h1, h2, h3, h4, by rw [h5, Nat.zero_add]⟩


/-- C22. Two periodic tasks with periods `p1, p2 ≥ 1` are registered on a
kernel whose periodic table is empty and whose tick counter is 0; the event
threads keep their contract.  Then `max_period = max p1 p2 = M`, and the `t`-th
invocation of `runperiodicevents` (`t ≥ 1`) returns and invokes task `i` exactly
when `(t mod M) mod p_i = 0`; for a period that divides `M` this is exactly when
the period divides `t`.  When both are due they are invoked in registration
order, and the tasks run on the state in which every sleep counter of that tick
has already been decremented. -/
theorem periodic_task_runs_on_counter_multiples (code : Nat → OS → OS)
    (hc : TaskContract code) (s0 : OS) (f1 p1 f2 p2 : Nat)
    (hi : s0.periodic_thread_index = 0) (hm : s0.max_period = 0) (hc0 : s0.counter = 0)
    (hf1 : f1 ≠ 0) (hf2 : f2 ≠ 0) (hp1 : 1 ≤ p1) (hp2 : 1 ≤ p2)
    (h1 : p1 < 2 ^ 32) (h2 : p2 < 2 ^ 32) :
    ∃ s, addTwo f1 p1 f2 p2 s0 = some s ∧ s.max_period = max p1 p2 ∧
      ∀ t, 1 ≤ t → ∃ st r, ticks code (t - 1) s = some st ∧
        runperiodicevents code st = some r ∧
        (0 ∈ r.2 ↔ t % max p1 p2 % p1 = 0) ∧
        (1 ∈ r.2 ↔ t % max p1 p2 % p2 = 0) ∧
        (p1 ∣ max p1 p2 → (0 ∈ r.2 ↔ p1 ∣ t)) ∧
        (p2 ∣ max p1 p2 → (1 ∈ r.2 ↔ p2 ∣ t)) ∧
        (0 ∈ r.2 → 1 ∈ r.2 → r.2 = [0, 1]) ∧
        r.1 = runSlots code r.2 (sleepLoop { st with counter := t % max p1 p2 }) ∧
        ∀ i, ((sleepLoop { st with counter := t % max p1 p2 }).tcbs i).sleep
          = (st.tcbs i).sleep - 1 := by
  obtain ⟨s, hs, hmax, hs0, hs1, hcnt, _⟩ := addTwo_registered f1 p1 f2 p2 s0 hi hm
  have hM : 1 ≤ max p1 p2 := le_trans hp1 (le_max_left _ _)
  have hM32 : max p1 p2 < 2 ^ 32 := max_lt h1 h2
  have hreg : TwoRegistered s := by
    unfold TwoRegistered
    rw [hs0, hs1, hmax]
    exact ⟨hp1, hf1, hp2, hf2, hM⟩
  refine ⟨s, hs, hmax, ?_⟩
  intro t ht
  obtain ⟨st, hst, hrst, hpt, hmp, hct⟩ := ticks_counter code hc s hreg (by rw [hmax]; exact hM32)
    (by rw [hcnt, hc0]) (t - 1)
  have hrun := runperiodicevents_due code hc st hrst
  have hlt : (t - 1) % max p1 p2 < max p1 p2 := Nat.mod_lt _ (by omega)
  have hcn : (st.counter + 1) % 2 ^ 32 % st.max_period = t % max p1 p2 := by
    rw [hct, hmp, hmax, Nat.mod_eq_of_lt (by omega : (t - 1) % max p1 p2 + 1 < 2 ^ 32),
      Nat.mod_add_mod]
    congr 1
    omega
  rw [hcn] at hrun
  have e0 : (st.periodic_thread 0).period = p1 := by rw [hpt, hs0]
  have e1 : (st.periodic_thread 1).period = p2 := by rw [hpt, hs1]
  have m0 : (0 : Fin 2) ∈ dueSlots st (t % max p1 p2) ↔ t % max p1 p2 % p1 = 0 := by
    simp [dueSlots, e0, e1]
  have m1 : (1 : Fin 2) ∈ dueSlots st (t % max p1 p2) ↔ t % max p1 p2 % p2 = 0 := by
    simp [dueSlots, e0, e1]
  refine ⟨st, _, hst, hrun, m0, m1, ?_, ?_, ?_, rfl, ?_⟩
  · intro hd
    rw [m0, Nat.mod_mod_of_dvd _ hd]
    exact Nat.dvd_iff_mod_eq_zero.symm
  · intro hd
    rw [m1, Nat.mod_mod_of_dvd _ hd]
    exact Nat.dvd_iff_mod_eq_zero.symm
  · intro a0 a1
    have b0 := m0.mp a0
    have b1 := m1.mp a1
    simp [dueSlots, e0, e1, b0, b1]
  · intro i
    rw [sleepLoop_eq]


set_option maxRecDepth 100000 in
theorem periodic_task_runs_on_counter_multiples_witness :
    TaskContract demoCode ∧ addTwo 1 2 2 3 bootOS = some oddPeriodic ∧
    ((ticks demoCode 1 oddPeriodic).bind (runperiodicevents demoCode)).map Prod.snd
      = some [0] ∧
    ((ticks demoCode 2 oddPeriodic).bind (runperiodicevents demoCode)).map Prod.snd
      = some [0, 1] ∧
    ((ticks demoCode 3 oddPeriodic).bind (runperiodicevents demoCode)).map Prod.snd
      = some [] ∧
    ∃ s, addTwo 1 2 2 3 bootOS = some s ∧ s.max_period = max 2 3 ∧
      ∀ t, 1 ≤ t → ∃ st r, ticks demoCode (t - 1) s = some st ∧
        runperiodicevents demoCode st = some r ∧
        (0 ∈ r.2 ↔ t % max 2 3 % 2 = 0) ∧
        (1 ∈ r.2 ↔ t % max 2 3 % 3 = 0) ∧
        (2 ∣ max 2 3 → (0 ∈ r.2 ↔ 2 ∣ t)) ∧
        (3 ∣ max 2 3 → (1 ∈ r.2 ↔ 3 ∣ t)) ∧
        (0 ∈ r.2 → 1 ∈ r.2 → r.2 = [0, 1]) ∧
        r.1 = runSlots demoCode r.2 (sleepLoop { st with counter := t % max 2 3 }) ∧
        ∀ i, ((sleepLoop { st with counter := t % max 2 3 }).tcbs i).sleep
          = (st.tcbs i).sleep - 1 :=
  ⟨demoCode_contract, by rfl, by decide, by decide, by decide,
    periodic_task_runs_on_counter_multiples demoCode demoCode_contract bootOS 1 2 2 3
      (by rfl) (by rfl) (by rfl) (by decide) (by decide) (by decide) (by decide)
      (by decide) (by decide)⟩

/-- C23 (as amended). Two periodic tasks with periods at least 1 are
registered on a kernel whose periodic table is empty, and the event threads
keep their contract.  Then every invocation of `runperiodicevents` returns:
`max_period` and both periods are not zero, so no modulo has a zero divisor;
every sleep counter is one less, or still zero; and every slot invoked holds
the non-null function registered in it. -/
theorem dispatcher_with_two_tasks_never_divides_by_zero (code : Nat → OS → OS)
    (hc : TaskContract code) (s0 : OS) (f1 p1 f2 p2 : Nat)
    (hi : s0.periodic_thread_index = 0) (hm : s0.max_period = 0)
    (hf1 : f1 ≠ 0) (hf2 : f2 ≠ 0) (hp1 : 1 ≤ p1) (hp2 : 1 ≤ p2) :
    ∃ s, addTwo f1 p1 f2 p2 s0 = some s ∧
      ∀ k, ∃ sk r, ticks code k s = some sk ∧ runperiodicevents code sk = some r ∧
        sk.max_period ≠ 0 ∧ (∀ i, (sk.periodic_thread i).period ≠ 0) ∧
        (∀ i, (r.1.tcbs i).sleep = (sk.tcbs i).sleep - 1) ∧
        ∀ i, i ∈ r.2 → (sk.periodic_thread i).task ≠ 0 ∧
          (sk.periodic_thread i).task = (if i = 0 then f1 else f2) := by
  obtain ⟨s, hs, hmax, hs0, hs1, _, _⟩ := addTwo_registered f1 p1 f2 p2 s0 hi hm
  have hM : 1 ≤ max p1 p2 := le_trans hp1 (le_max_left _ _)
  have hreg : TwoRegistered s := by
    unfold TwoRegistered
    rw [hs0, hs1, hmax]
    exact ⟨hp1, hf1, hp2, hf2, hM⟩
  refine ⟨s, hs, ?_⟩
  have key : ∀ k (s1 : OS), TwoRegistered s1 → s1.periodic_thread = s.periodic_thread →
      ∃ sk, ticks code k s1 = some sk ∧ TwoRegistered sk ∧
        sk.periodic_thread = s.periodic_thread := by
    intro k
    induction k with
    | zero => intro s1 hr hp; exact ⟨s1, rfl, hr, hp⟩
    | succ k ih =>
      intro s1 hr hp
      have hrun := runperiodicevents_due code hc s1 hr
      obtain ⟨k1, k2, _, _⟩ := runSlots_keeps code hc
        (dueSlots s1 ((s1.counter + 1) % 2 ^ 32 % s1.max_period))
        (sleepLoop { s1 with counter := (s1.counter + 1) % 2 ^ 32 % s1.max_period })
      rw [sleepLoop_eq] at k1 k2
      have hr' : TwoRegistered (runSlots code
          (dueSlots s1 ((s1.counter + 1) % 2 ^ 32 % s1.max_period))
          (sleepLoop { s1 with counter := (s1.counter + 1) % 2 ^ 32 % s1.max_period })) := by
        unfold TwoRegistered
        rw [sleepLoop_eq, k1, k2]
        exact hr
      obtain ⟨sk, h1, h2, h3⟩ := ih _ hr' (by rw [sleepLoop_eq, k1]; exact hp)
      refine ⟨sk, ?_, h2, h3⟩
      unfold ticks
      rw [hrun]
      exact h1
  intro k
  obtain ⟨sk, hsk, hrk, hpk⟩ := key k s hreg rfl
  have hrun := runperiodicevents_due code hc sk hrk
  obtain ⟨_, _, _, k4⟩ := runSlots_keeps code hc
    (dueSlots sk ((sk.counter + 1) % 2 ^ 32 % sk.max_period))
    (sleepLoop { sk with counter := (sk.counter + 1) % 2 ^ 32 % sk.max_period })
  obtain ⟨q0, _, q1, _, qm⟩ := hrk
  refine ⟨sk, _, hsk, hrun, by omega, ?_, ?_, ?_⟩
  · intro i
    fin_cases i
    · simp only [Fin.zero_eta]; omega
    · simp only [Fin.mk_one]; omega
  · intro i
    rw [k4 i, sleepLoop_eq]
  · intro i _
    rw [hpk]
    fin_cases i
    · simp only [Fin.zero_eta, hs0]
      exact ⟨hf1, by simp⟩
    · simp only [Fin.mk_one, hs1]
      exact ⟨hf2, by simp⟩

set_option maxRecDepth 100000 in
theorem dispatcher_with_two_tasks_never_divides_by_zero_witness :
    TaskContract demoCode ∧ addTwo 1 1 2 2 bootOS = some demoPeriodic ∧
    ∃ s, addTwo 1 1 2 2 bootOS = some s ∧
      ∀ k, ∃ sk r, ticks demoCode k s = some sk ∧ runperiodicevents demoCode sk = some r ∧
        sk.max_period ≠ 0 ∧ (∀ i, (sk.periodic_thread i).period ≠ 0) ∧
        (∀ i, (r.1.tcbs i).sleep = (sk.tcbs i).sleep - 1) ∧
        ∀ i, i ∈ r.2 → (sk.periodic_thread i).task ≠ 0 ∧
          (sk.periodic_thread i).task = (if i = 0 then 1 else 2) :=
  ⟨demoCode_contract, by rfl,
    dispatcher_with_two_tasks_never_divides_by_zero demoCode demoCode_contract bootOS 1 1 2 2
      (by rfl) (by rfl) (by decide) (by decide) (by decide) (by decide)⟩

/-- C23 (as stated) fails for fewer than two tasks.  With none registered
`max_period` is 0 and the first statement of `runperiodicevents` takes the
counter modulo 0.  With one task registered `max_period` is 1, but the loop
still visits slot 1, whose period is 0 and whose task pointer is null, and takes
the counter modulo 0. -/
theorem dispatcher_with_fewer_tasks_divides_by_zero :
    (bootOS.periodic_thread_index = 0 ∧ bootOS.max_period = 0 ∧
      (runperiodicevents demoCode bootOS).isSome = false) ∧
    ((OS_AddPeriodicEventThread 1 1 bootOS).map Prod.snd = some 1 ∧
      onePeriodic.periodic_thread_index = 1 ∧ onePeriodic.max_period = 1 ∧
      onePeriodic.periodic_thread 0 = { task := 1, period := 1 } ∧
      onePeriodic.periodic_thread 1 = { task := 0, period := 0 } ∧
      (runperiodicevents demoCode onePeriodic).isSome = false) :=
  ⟨⟨by decide, by decide, by decide⟩,
    ⟨by decide, by decide, by decide, by decide, by decide, by decide⟩⟩

end RTOS


namespace EFile

/-! ## Properties of the disk driver -/

theorem packWord_value (buff : Nat → Nat) (i : Nat) (h0 : buff i < 256) (h1 : buff (i + 1) < 256)
    (h2 : buff (i + 2) < 256) (h3 : buff (i + 3) < 256) :
    packWord buff i = buff i + 256 * buff (i + 1) + 65536 * buff (i + 2)
      + 16777216 * buff (i + 3) := by
  unfold packWord
  simp only
  omega

/-- Byte `r` of the word packed from four bytes is the `r`-th of these bytes. -/
theorem packWord_byte (buff : Nat → Nat) (i r : Nat) (hr : r < 4) (h0 : buff i < 256)
    (h1 : buff (i + 1) < 256) (h2 : buff (i + 2) < 256) (h3 : buff (i + 3) < 256) :
    packWord buff i / 256 ^ r % 256 = buff (i + r) := by
  rw [packWord_value buff i h0 h1 h2 h3]
  have hcases : r = 0 ∨ r = 1 ∨ r = 2 ∨ r = 3 := by omega
  rcases hcases with h | h | h | h <;> subst h <;> norm_num <;> omega

theorem packed_getD (buff : Nat → Nat) (k : Nat) (hk : k < 128) :
    ((List.range 128).map (fun k => packWord buff (4 * k))).getD k 0 = packWord buff (4 * k) := by
  rw [List.getD_eq_getElem?_getD, List.getElem?_map, List.getElem?_range hk]
  rfl

/-- Reading back, byte by byte, what `storeWords` has programmed from the
packed buffer gives the buffer. -/
theorem storeWords_packed_read (m : Nat → Nat) (buff : Nat → Nat) (addr i : Nat) (hi : i < 512)
    (hb : ∀ j, j < 512 → buff j < 256) :
    (storeWords m ((List.range 128).map (fun k => packWord buff (4 * k))) addr 128).1 (addr + i)
      = buff i := by
  have hin : addr ≤ addr + i ∧ addr + i < addr + 4 * 128 := by omega
  have e1 : addr + i - addr = i := by omega
  simp only [storeWords]
  rw [if_pos hin, e1, packed_getD buff (i / 4) (by omega),
    packWord_byte buff (4 * (i / 4)) (i % 4) (Nat.mod_lt _ (by decide))
      (hb _ (by omega)) (hb _ (by omega)) (hb _ (by omega)) (hb _ (by omega))]
  congr 1
  omega

theorem storeWords_outside (m : Nat → Nat) (source : List Nat) (addr count a : Nat)
    (h : a < addr ∨ addr + 4 * count ≤ a) :
    (storeWords m source addr count).1 a = m a := by
  simp only [storeWords]
  rw [if_neg (by omega)]

theorem eDisk_ReadSector_ok (hw : Platform) (m buff : Nat → Nat) (sector : Nat)
    (hs : hw.EDISK_ADDR_MIN + 512 * sector ≤ hw.EDISK_ADDR_MAX)
    (h32 : hw.EDISK_ADDR_MAX < 2 ^ 32) :
    eDisk_ReadSector hw m buff sector =
      (DRESULT.RES_OK,
        fun i => if i < 512 then m (hw.EDISK_ADDR_MIN + 512 * sector + i) else buff i) := by
  have e : (hw.EDISK_ADDR_MIN + 512 * sector) % 2 ^ 32 = hw.EDISK_ADDR_MIN + 512 * sector :=
    Nat.mod_eq_of_lt (by omega)
  unfold eDisk_ReadSector
  simp only [e]
  rw [if_neg (by omega)]

theorem eDisk_WriteSector_ideal (hw : Platform) (hid : IdealFlash hw) (m buff : Nat → Nat)
    (sector : Nat) (hs : hw.EDISK_ADDR_MIN + 512 * sector ≤ hw.EDISK_ADDR_MAX)
    (h32 : hw.EDISK_ADDR_MAX < 2 ^ 32) :
    eDisk_WriteSector hw m buff sector =
      (DRESULT.RES_OK,
        (storeWords m ((List.range 128).map (fun k => packWord buff (4 * k)))
          (hw.EDISK_ADDR_MIN + 512 * sector) 128).1) := by
  have e : (hw.EDISK_ADDR_MIN + 512 * sector) % 2 ^ 32 = hw.EDISK_ADDR_MIN + 512 * sector :=
    Nat.mod_eq_of_lt (by omega)
  unfold eDisk_WriteSector
  simp only [e, hid.1]
  rw [if_neg (by omega)]
  simp [storeWords]

theorem formatLoop_exit_now (hw : Platform) (k : Nat) (m : Nat → Nat) (a : Nat)
    (st : Option Int) (h : ¬ a < hw.EDISK_ADDR_MAX) :
    formatLoop hw (k + 1) m a st = some (m, st) := by
  unfold formatLoop
  rw [if_neg h]

/-- The erase sweep on an ideal flash: it finishes within `n + 1` tests when
`n` blocks reach `EDISK_ADDR_MAX`, every byte from `a` on whose block starts
below `EDISK_ADDR_MAX` reads 0xFF, and the status is 0 once a block was erased. -/
theorem formatLoop_ideal (hw : Platform) (hid : IdealFlash hw)
    (hmax : hw.EDISK_ADDR_MAX + 1024 ≤ 2 ^ 32) :
    ∀ (n : Nat) (m : Nat → Nat) (a : Nat) (st : Option Int),
      hw.EDISK_ADDR_MAX ≤ a + 1024 * n →
      ∃ m' st', formatLoop hw (n + 1) m a st = some (m', st') ∧
        (∀ x, a ≤ x → a + 1024 * ((x - a) / 1024) < hw.EDISK_ADDR_MAX → m' x = 255) ∧
        (a < hw.EDISK_ADDR_MAX → st' = some 0) := by
  intro n
  induction n with
  | zero =>
    intro m a st h
    refine ⟨m, st, ?_, ?_, ?_⟩
    · unfold formatLoop
      rw [if_neg (by omega)]
    · intro x hx hblock
      omega
    · intro hlt
      omega
  | succ n ih =>
    intro m a st h
    by_cases hlt : a < hw.EDISK_ADDR_MAX
    · have e : (a + 1024) % 2 ^ 32 = a + 1024 := Nat.mod_eq_of_lt (by omega)
      obtain ⟨m', st', hrun, herased, hst⟩ := ih (eraseBlock m a).1 (a + 1024) (some 0) (by omega)
      have hkeep : ∀ k (m1 : Nat → Nat) (a1 : Nat) (s1 : Option Int) (x : Nat),
          x < a1 → ∀ m2 s2, formatLoop hw k m1 a1 s1 = some (m2, s2) → m2 x = m1 x := by
        intro k
        induction k with
        | zero => intro m1 a1 s1 x _ m2 s2 hk; simp [formatLoop] at hk
        | succ k ihk =>
          intro m1 a1 s1 x hx m2 s2 hk
          unfold formatLoop at hk
          by_cases hc : a1 < hw.EDISK_ADDR_MAX
          · rw [if_pos hc] at hk
            have e1 : (a1 + 1024) % 2 ^ 32 = a1 + 1024 := Nat.mod_eq_of_lt (by omega)
            simp only [e1, hid.2] at hk
            rw [ihk _ _ _ x (by omega) m2 s2 hk]
            simp only [eraseBlock]
            rw [if_neg (by omega)]
          · rw [if_neg hc] at hk
            have := Option.some.inj hk
            rw [Prod.mk.injEq] at this
            rw [this.1]
      have hst0 : st' = some 0 := by
        by_cases h2 : a + 1024 < hw.EDISK_ADDR_MAX
        · exact hst h2
        · have hx := formatLoop_exit_now hw n (eraseBlock m a).1 (a + 1024) (some 0) h2
          rw [hx] at hrun
          have := Option.some.inj hrun
          rw [Prod.mk.injEq] at this
          exact this.2.symm
      refine ⟨m', some 0, ?_, ?_, ?_⟩
      · conv_lhs => unfold formatLoop
        rw [if_pos hlt]
        simp only [e, hid.2]
        have hs0 : (eraseBlock m a).2 = 0 := rfl
        rw [hs0, hrun, hst0]
      · intro x hx hblock
        by_cases hin : x < a + 1024
        · rw [hkeep _ _ _ _ x hin m' st' hrun]
          simp only [eraseBlock]
          rw [if_pos ⟨hx, hin⟩]
        · apply herased x (by omega)
          have : a + 1024 + 1024 * ((x - (a + 1024)) / 1024) = a + 1024 * ((x - a) / 1024) := by
            omega
          rw [this]
          exact hblock
      · intro _
        rfl
    · refine ⟨m, st, ?_, ?_, ?_⟩
      · unfold formatLoop
        rw [if_neg hlt]
      · intro x hx hblock
        omega
      · intro h'
        exact absurd h' hlt

/-! ## Properties of the file system -/

theorem OS_File_Format_erases (hw : Platform) (hid : IdealFlash hw) (hg : Geometry hw)
    (fs : FileSys) :
    ∃ m1, OS_File_Format (formatFuel hw) hw fs
        = some (0, { fs with disk := m1, bDirectoryLoaded := 0 }) ∧
      ∀ x, hw.EDISK_ADDR_MIN ≤ x → x < hw.EDISK_ADDR_MIN + 512 * 256 → m1 x = 255 := by
  obtain ⟨hg1, hg2⟩ := hg
  have e : hw.EDISK_ADDR_MIN % 2 ^ 32 = hw.EDISK_ADDR_MIN := Nat.mod_eq_of_lt (by omega)
  obtain ⟨m', st', hrun, herased, hst⟩ := formatLoop_ideal hw hid hg2
    ((hw.EDISK_ADDR_MAX - hw.EDISK_ADDR_MIN) / 1024 + 1) fs.disk hw.EDISK_ADDR_MIN none
    (by omega)
  have hst' := hst (by omega)
  subst hst'
  refine ⟨m', ?_, ?_⟩
  · unfold OS_File_Format eDisk_Format formatFuel
    rw [e, hrun]
    rfl
  · intro x hx1 hx2
    exact herased x hx1 (by omega)

theorem MountDirectory_loads (hw : Platform) (hg : Geometry hw) (fs : FileSys)
    (h0 : fs.bDirectoryLoaded = 0) :
    MountDirectory hw fs =
      { fs with
        Directory := fun i =>
          if i < 256 then fs.disk (hw.EDISK_ADDR_MIN + 512 * 255 + i) else fs.Directory i
        FAT := fun i =>
          if i < 256 then fs.disk (hw.EDISK_ADDR_MIN + 512 * 255 + (i + 256)) else fs.FAT i
        bDirectoryLoaded := 1 } := by
  obtain ⟨hg1, hg2⟩ := hg
  unfold MountDirectory
  rw [if_pos h0, eDisk_ReadSector_ok hw _ _ 255 hg1 (by omega)]
  dsimp only
  congr 1
  · funext i
    by_cases hi : i < 256
    · have : i < 512 := by omega
      simp [hi, this]
    · simp [hi]
  · funext i
    by_cases hi : i < 256
    · have : i + 256 < 512 := by omega
      simp [hi, this]
    · simp [hi]

theorem findfreesector_empty (fuel : Nat) (fs : FileSys) (h : fs.Directory 0 = 255) :
    findfreesector (fuel + 1) fs = some 0 := by
  unfold findfreesector findfreesectorLoop lastsector
  rw [h, if_pos rfl]
  rfl

theorem appendfat_new (fuel num n : Nat) (fs : FileSys) (h : fs.Directory num = 255) :
    appendfat fuel num n fs =
      some (0, { fs with Directory := fun j => if j = num then n else fs.Directory j }) := by
  unfold appendfat
  rw [if_pos h]

/-- C10. On a flash that erases to 0xFF and programs words little-endian, with
an address window holding the 256 sectors, for every buffer `b` of 512 bytes:
`OS_File_Format` returns 0, then `OS_File_New` returns 0, `OS_File_Append 0 b`
returns 0 and `OS_File_Flush` returns 0; after a power cycle (any RAM content,
`bDirectoryLoaded = 0`) and `MountDirectory`, `OS_File_Read 0 0` returns 0 and
the 512 bytes it delivers are those of `b`. -/
theorem format_new_append_flush_remount_read (hw : Platform) (hid : IdealFlash hw)
    (hg : Geometry hw) (fs0 ram : FileSys) (b out0 : Nat → Nat)
    (hb : ∀ i, i < 512 → b i < 256) :
    ∃ fs1 fs2 fs3 fs4 out,
      OS_File_Format (formatFuel hw) hw fs0 = some (0, fs1) ∧
      OS_File_New hw fs1 = (0, fs2) ∧
      OS_File_Append 256 hw 0 b fs2 = some (0, fs3) ∧
      OS_File_Flush hw fs3 = (0, fs4) ∧
      (powerCycle ram fs4).bDirectoryLoaded = 0 ∧
      OS_File_Read hw 0 0 out0 (MountDirectory hw (powerCycle ram fs4)) = (0, out) ∧
      ∀ i, i < 512 → out i = b i := by
  have hg' := hg
  obtain ⟨hg1, hg2⟩ := hg'
  have h32 : hw.EDISK_ADDR_MAX < 2 ^ 32 := by omega
  have hs0 : hw.EDISK_ADDR_MIN + 512 * 0 ≤ hw.EDISK_ADDR_MAX := by omega
  obtain ⟨m1, hfmt, herased⟩ := OS_File_Format_erases hw hid hg fs0
  -- mount of the erased disk
  have hmount := MountDirectory_loads hw hg { fs0 with disk := m1, bDirectoryLoaded := 0 } rfl
  obtain ⟨fs2, hfs2⟩ : ∃ fs2, fs2 = MountDirectory hw { fs0 with disk := m1, bDirectoryLoaded := 0 } :=
    ⟨_, rfl⟩
  have hD : ∀ i, i < 256 → fs2.Directory i = 255 := by
    intro i hi
    rw [hfs2, hmount]
    simp only [hi, if_true]
    exact herased _ (by omega) (by omega)
  have hF : ∀ i, i < 256 → fs2.FAT i = 255 := by
    intro i hi
    rw [hfs2, hmount]
    simp only [hi, if_true]
    exact herased _ (by omega) (by omega)
  have hL : fs2.bDirectoryLoaded = 1 := by rw [hfs2, hmount]
  have hdisk : fs2.disk = m1 := by rw [hfs2, hmount]
  have hnew : OS_File_New hw { fs0 with disk := m1, bDirectoryLoaded := 0 } = (0, fs2) := by
    unfold OS_File_New
    simp only [if_true, ← hfs2]
    unfold newLoop
    rw [if_pos (by decide), if_pos (hD 0 (by decide))]
  -- append to file 0
  obtain ⟨fs3, hfs3⟩ : ∃ fs3 : FileSys, fs3 =
      { fs2 with
        disk := (storeWords fs2.disk ((List.range 128).map (fun k => packWord b (4 * k)))
          (hw.EDISK_ADDR_MIN + 512 * 0) 128).1
        Directory := fun j => if j = 0 then 0 else fs2.Directory j } := ⟨_, rfl⟩
  have happ : OS_File_Append 256 hw 0 b fs2 = some (0, fs3) := by
    unfold OS_File_Append
    simp only [hL, one_ne_zero, if_false]
    rw [findfreesector_empty 255 fs2 (hD 0 (by decide))]
    simp only
    rw [if_neg (by decide), eDisk_WriteSector_ideal hw hid _ _ 0 hs0 h32]
    unfold appendfat
    rw [if_pos (hD 0 (by decide)), hfs3, hL]
  -- flush
  obtain ⟨fs4, hfs4⟩ : ∃ fs4 : FileSys, fs4 =
      { fs3 with
        disk := (storeWords fs3.disk ((List.range 128).map (fun k =>
          packWord (fun i => if i < 256 then fs3.Directory i else fs3.FAT (i - 256)) (4 * k)))
          (hw.EDISK_ADDR_MIN + 512 * 255) 128).1 } := ⟨_, rfl⟩
  have hflush : OS_File_Flush hw fs3 = (0, fs4) := by
    unfold OS_File_Flush
    simp only
    rw [eDisk_WriteSector_ideal hw hid _ _ 255 hg1 h32, hfs4]
    rfl
  -- the metadata image is made of bytes
  have hmeta : ∀ j, j < 512 →
      (fun i => if i < 256 then fs3.Directory i else fs3.FAT (i - 256)) j < 256 := by
    intro j hj
    simp only
    by_cases h1 : j < 256
    · rw [if_pos h1, hfs3]
      simp only
      by_cases h0 : j = 0
      · rw [if_pos h0]; decide
      · rw [if_neg h0, hD j h1]; decide
    · rw [if_neg h1, hfs3]
      simp only
      rw [hF (j - 256) (by omega)]
      decide
  -- remount after the power cycle
  have hre := MountDirectory_loads hw hg (powerCycle ram fs4) rfl
  have hread : ∀ i, i < 512 → fs4.disk (hw.EDISK_ADDR_MIN + 512 * 255 + i)
      = (fun i => if i < 256 then fs3.Directory i else fs3.FAT (i - 256)) i := by
    intro i hi
    rw [hfs4]
    exact storeWords_packed_read fs3.disk _ (hw.EDISK_ADDR_MIN + 512 * 255) i hi hmeta
  have hD5 : (MountDirectory hw (powerCycle ram fs4)).Directory 0 = 0 := by
    rw [hre]
    show (if 0 < 256 then fs4.disk (hw.EDISK_ADDR_MIN + 512 * 255 + 0) else ram.Directory 0) = 0
    have hD30 : fs3.Directory 0 = 0 := by rw [hfs3]; simp
    rw [if_pos (by decide), hread 0 (by decide)]
    simp only
    rw [if_pos (by decide)]
    exact hD30
  have hdisk5 : (MountDirectory hw (powerCycle ram fs4)).disk = fs4.disk := by
    rw [hre]
    rfl
  refine ⟨_, fs2, fs3, fs4,
    fun i => if i < 512 then (MountDirectory hw (powerCycle ram fs4)).disk
      (hw.EDISK_ADDR_MIN + 512 * 0 + i) else out0 i,
    hfmt, hnew, happ, hflush, rfl, ?_, ?_⟩
  · unfold OS_File_Read
    rw [hD5, if_neg (by decide)]
    simp only [readLoop]
    rw [eDisk_ReadSector_ok hw _ _ 0 hs0 h32]
    rfl
  · intro i hi
    have h1 : fs4.disk (hw.EDISK_ADDR_MIN + 512 * 0 + i) = b i := by
      rw [hfs4]
      show (storeWords fs3.disk _ (hw.EDISK_ADDR_MIN + 512 * 255) 128).1
        (hw.EDISK_ADDR_MIN + 512 * 0 + i) = b i
      rw [storeWords_outside _ _ _ _ _ (Or.inl (by omega)), hfs3]
      exact storeWords_packed_read fs2.disk b (hw.EDISK_ADDR_MIN + 512 * 0) i hi hb
    show (if i < 512 then (MountDirectory hw (powerCycle ram fs4)).disk
      (hw.EDISK_ADDR_MIN + 512 * 0 + i) else out0 i) = b i
    rw [if_pos hi, hdisk5, h1]

/-- Witness of C10: the buffer of 512 bytes 0xAA on the `tm4c` window. -/
theorem format_new_append_flush_remount_read_witness :
    IdealFlash tm4c ∧ Geometry tm4c ∧ (∀ i, i < 512 → bufAA i < 256) ∧
    ∃ fs1 fs2 fs3 fs4 out,
      OS_File_Format (formatFuel tm4c) tm4c resetFS = some (0, fs1) ∧
      OS_File_New tm4c fs1 = (0, fs2) ∧
      OS_File_Append 256 tm4c 0 bufAA fs2 = some (0, fs3) ∧
      OS_File_Flush tm4c fs3 = (0, fs4) ∧
      (powerCycle resetFS fs4).bDirectoryLoaded = 0 ∧
      OS_File_Read tm4c 0 0 (fun _ => 0) (MountDirectory tm4c (powerCycle resetFS fs4))
        = (0, out) ∧
      ∀ i, i < 512 → out i = bufAA i :=
  ⟨⟨rfl, rfl⟩, by decide, fun _ _ => by simp [bufAA],
    format_new_append_flush_remount_read tm4c ⟨rfl, rfl⟩ (by decide) resetFS resetFS bufAA
      (fun _ => 0) (fun _ _ => by simp [bufAA])⟩

theorem IdealFlash_programs (hw : Platform) (hid : IdealFlash hw) : ProgramsErased hw := by
  intro m source addr count
  rw [hid.1]
  refine ⟨rfl, ?_⟩
  intro a h1 h2 _
  simp only [storeWords]
  rw [if_pos ⟨h1, h2⟩]

theorem land_255 (x : Nat) (hx : x < 256) : 255 &&& x = x := by
  rw [Nat.land_comm]
  have h := Nat.and_pow_two_sub_one_eq_mod x 8
  have e : (2 : Nat) ^ 8 - 1 = 255 := by norm_num
  rw [e] at h
  rw [h]
  exact Nat.mod_eq_of_lt hx

theorem tm4cAnd_programs : ProgramsErased tm4cAnd := by
  intro m source addr count
  refine ⟨rfl, ?_⟩
  intro a h1 h2 h3
  show (andWords m source addr count).1 a = _
  simp only [andWords]
  rw [if_pos ⟨h1, h2⟩, h3]
  exact land_255 _ (Nat.mod_lt _ (by decide))

theorem metaImage_bytes (fs : FileSys) (hb : ByteTables fs) :
    ∀ j, j < 512 → metaImage fs j < 256 := by
  intro j hj
  unfold metaImage
  by_cases h : j < 256
  · rw [if_pos h]; exact (hb j h).1
  · rw [if_neg h]; exact (hb (j - 256) (by omega)).2

/-- What `eDisk_WriteSector` does on an in-range sector: the packed buffer goes
to the program primitive, whose count decides the result. -/
theorem eDisk_WriteSector_in_range (hw : Platform) (m buff : Nat → Nat) (sector : Nat)
    (hs : hw.EDISK_ADDR_MIN + 512 * sector ≤ hw.EDISK_ADDR_MAX)
    (h32 : hw.EDISK_ADDR_MAX < 2 ^ 32) :
    eDisk_WriteSector hw m buff sector =
      (if (hw.Flash_WriteArray m ((List.range 128).map (fun k => packWord buff (4 * k)))
            (hw.EDISK_ADDR_MIN + 512 * sector) 128).2 = 128
        then DRESULT.RES_OK else DRESULT.RES_ERROR,
       (hw.Flash_WriteArray m ((List.range 128).map (fun k => packWord buff (4 * k)))
            (hw.EDISK_ADDR_MIN + 512 * sector) 128).1) := by
  have e : (hw.EDISK_ADDR_MIN + 512 * sector) % 2 ^ 32 = hw.EDISK_ADDR_MIN + 512 * sector :=
    Nat.mod_eq_of_lt (by omega)
  unfold eDisk_WriteSector
  simp only [e]
  rw [if_neg (by omega)]
  split <;> rfl

theorem powerCycle_disk (ram fs : FileSys) : (powerCycle ram fs).disk = fs.disk := rfl

theorem OS_File_Flush_eq (hw : Platform) (fs : FileSys) :
    OS_File_Flush hw fs = ((eDisk_WriteSector hw fs.disk (metaImage fs) 255).1.code % 256,
      { fs with disk := (eDisk_WriteSector hw fs.disk (metaImage fs) 255).2 }) := rfl

theorem Mount_Directory_lt (hw : Platform) (hg : Geometry hw) (fs : FileSys)
    (h0 : fs.bDirectoryLoaded = 0) (i : Nat) (hi : i < 256) :
    (MountDirectory hw fs).Directory i = fs.disk (hw.EDISK_ADDR_MIN + 512 * 255 + i) := by
  rw [MountDirectory_loads hw hg fs h0]
  simp only
  rw [if_pos hi]

theorem Mount_Directory_ge (hw : Platform) (hg : Geometry hw) (fs : FileSys)
    (h0 : fs.bDirectoryLoaded = 0) (i : Nat) (hi : ¬ i < 256) :
    (MountDirectory hw fs).Directory i = fs.Directory i := by
  rw [MountDirectory_loads hw hg fs h0]
  simp only
  rw [if_neg hi]

theorem Mount_FAT_lt (hw : Platform) (hg : Geometry hw) (fs : FileSys)
    (h0 : fs.bDirectoryLoaded = 0) (i : Nat) (hi : i < 256) :
    (MountDirectory hw fs).FAT i = fs.disk (hw.EDISK_ADDR_MIN + 512 * 255 + (i + 256)) := by
  rw [MountDirectory_loads hw hg fs h0]
  simp only
  rw [if_pos hi]

theorem Mount_FAT_ge (hw : Platform) (hg : Geometry hw) (fs : FileSys)
    (h0 : fs.bDirectoryLoaded = 0) (i : Nat) (hi : ¬ i < 256) :
    (MountDirectory hw fs).FAT i = fs.FAT i := by
  rw [MountDirectory_loads hw hg fs h0]
  simp only
  rw [if_neg hi]

theorem Mount_loaded (hw : Platform) (hg : Geometry hw) (fs : FileSys)
    (h0 : fs.bDirectoryLoaded = 0) : (MountDirectory hw fs).bDirectoryLoaded = 1 := by
  rw [MountDirectory_loads hw hg fs h0]

/-- C11. On a flash whose program primitive writes every word and stores on
erased bytes, with the 256 sectors inside the address window, for every content
of `Directory` and `FAT` (bytes) and a medium whose sector 255 is erased:
`OS_File_Flush` returns 0 and hands to the program primitive, at the address of
sector 255, the packed image `Directory` followed by `FAT`, after which bytes
0..255 of sector 255 are `Directory[0..255]` and bytes 256..511 are
`FAT[0..255]`.  A later `MountDirectory` with `bDirectoryLoaded` cleared, from
any RAM content, gives back the same 256 entries of both tables and sets
`bDirectoryLoaded` to 1; starting from the RAM left by the flush the tables are
the same functions. -/
theorem flush_then_remount_reproduces_tables (hw : Platform) (hp : ProgramsErased hw)
    (hg : Geometry hw) (fs ram : FileSys) (hb : ByteTables fs)
    (herased : ∀ i, i < 512 → fs.disk (hw.EDISK_ADDR_MIN + 512 * 255 + i) = 255) :
    (OS_File_Flush hw fs).1 = 0 ∧
    (OS_File_Flush hw fs).2.disk
      = (hw.Flash_WriteArray fs.disk ((List.range 128).map (fun k => packWord (metaImage fs) (4 * k)))
          (hw.EDISK_ADDR_MIN + 512 * 255) 128).1 ∧
    (∀ i, i < 256 →
      (OS_File_Flush hw fs).2.disk (hw.EDISK_ADDR_MIN + 512 * 255 + i) = fs.Directory i ∧
      (OS_File_Flush hw fs).2.disk (hw.EDISK_ADDR_MIN + 512 * 255 + 256 + i) = fs.FAT i) ∧
    (∀ i, i < 256 →
      (MountDirectory hw (powerCycle ram (OS_File_Flush hw fs).2)).Directory i = fs.Directory i ∧
      (MountDirectory hw (powerCycle ram (OS_File_Flush hw fs).2)).FAT i = fs.FAT i) ∧
    (MountDirectory hw (powerCycle ram (OS_File_Flush hw fs).2)).bDirectoryLoaded = 1 ∧
    (MountDirectory hw { (OS_File_Flush hw fs).2 with bDirectoryLoaded := 0 }).Directory
      = fs.Directory ∧
    (MountDirectory hw { (OS_File_Flush hw fs).2 with bDirectoryLoaded := 0 }).FAT = fs.FAT := by
  have hg' := hg
  obtain ⟨hg1, hg2⟩ := hg'
  have h32 : hw.EDISK_ADDR_MAX < 2 ^ 32 := by omega
  have hw1 := eDisk_WriteSector_in_range hw fs.disk (metaImage fs) 255 hg1 h32
  obtain ⟨hcount, hbyte⟩ := hp fs.disk ((List.range 128).map (fun k => packWord (metaImage fs) (4 * k)))
    (hw.EDISK_ADDR_MIN + 512 * 255) 128
  have hflush : OS_File_Flush hw fs = (0, { fs with disk :=
      (hw.Flash_WriteArray fs.disk ((List.range 128).map (fun k => packWord (metaImage fs) (4 * k)))
          (hw.EDISK_ADDR_MIN + 512 * 255) 128).1 }) := by
    rw [OS_File_Flush_eq, hw1, if_pos (by rw [hcount]; rfl)]
    rfl
  have hdisk : (OS_File_Flush hw fs).2.disk =
      (hw.Flash_WriteArray fs.disk ((List.range 128).map (fun k => packWord (metaImage fs) (4 * k)))
          (hw.EDISK_ADDR_MIN + 512 * 255) 128).1 := by rw [hflush]
  have hD2 : (OS_File_Flush hw fs).2.Directory = fs.Directory := by rw [hflush]
  have hF2 : (OS_File_Flush hw fs).2.FAT = fs.FAT := by rw [hflush]
  have himg : ∀ i, i < 512 →
      (OS_File_Flush hw fs).2.disk (hw.EDISK_ADDR_MIN + 512 * 255 + i) = metaImage fs i := by
    intro i hi
    rw [hdisk, hbyte _ (by omega) (by omega) (herased i hi)]
    have e1 : hw.EDISK_ADDR_MIN + 512 * 255 + i - (hw.EDISK_ADDR_MIN + 512 * 255) = i := by omega
    rw [e1, packed_getD (metaImage fs) (i / 4) (by omega),
      packWord_byte (metaImage fs) (4 * (i / 4)) (i % 4) (Nat.mod_lt _ (by decide))
        (metaImage_bytes fs hb _ (by omega)) (metaImage_bytes fs hb _ (by omega))
        (metaImage_bytes fs hb _ (by omega)) (metaImage_bytes fs hb _ (by omega))]
    have e2 : 4 * (i / 4) + i % 4 = i := by omega
    rw [e2]
  have hdir : ∀ i, i < 256 →
      (OS_File_Flush hw fs).2.disk (hw.EDISK_ADDR_MIN + 512 * 255 + i) = fs.Directory i := by
    intro i hi
    rw [himg i (by omega)]
    simp [metaImage, hi]
  have hfat : ∀ i, i < 256 →
      (OS_File_Flush hw fs).2.disk (hw.EDISK_ADDR_MIN + 512 * 255 + (i + 256)) = fs.FAT i := by
    intro i hi
    rw [himg (i + 256) (by omega)]
    simp [metaImage]
  have hpc : ∀ i, (powerCycle ram (OS_File_Flush hw fs).2).disk i
      = (OS_File_Flush hw fs).2.disk i := fun i => congrFun (powerCycle_disk ram _) i
  refine ⟨by rw [hflush], hdisk, fun i hi => ⟨hdir i hi, ?_⟩, fun i hi => ⟨?_, ?_⟩, ?_, ?_, ?_⟩
  · have e : hw.EDISK_ADDR_MIN + 512 * 255 + 256 + i = hw.EDISK_ADDR_MIN + 512 * 255 + (i + 256) := by
      omega
    rw [e]
    exact hfat i hi
  · rw [Mount_Directory_lt hw hg _ rfl i hi, hpc, hdir i hi]
  · rw [Mount_FAT_lt hw hg _ rfl i hi, hpc, hfat i hi]
  · exact Mount_loaded hw hg _ rfl
  · funext i
    by_cases hi : i < 256
    · rw [Mount_Directory_lt hw hg _ rfl i hi]
      simp only
      rw [hdir i hi]
    · rw [Mount_Directory_ge hw hg _ rfl i hi]
      exact congrFun hD2 i
  · funext i
    by_cases hi : i < 256
    · rw [Mount_FAT_lt hw hg _ rfl i hi]
      simp only
      rw [hfat i hi]
    · rw [Mount_FAT_ge hw hg _ rfl i hi]
      exact congrFun hF2 i

/-- Witness of C11: one file starting at sector 0, on a blank medium whose
flash can only clear bits. -/
theorem flush_then_remount_reproduces_tables_witness :
    ProgramsErased tm4cAnd ∧ Geometry tm4cAnd ∧ ByteTables oneFileFS ∧
    (∀ i, i < 512 → oneFileFS.disk (tm4cAnd.EDISK_ADDR_MIN + 512 * 255 + i) = 255) ∧
    (OS_File_Flush tm4cAnd oneFileFS).1 = 0 ∧
    (∀ i, i < 256 →
      (MountDirectory tm4cAnd (powerCycle resetFS (OS_File_Flush tm4cAnd oneFileFS).2)).Directory i
        = oneFileFS.Directory i ∧
      (MountDirectory tm4cAnd (powerCycle resetFS (OS_File_Flush tm4cAnd oneFileFS).2)).FAT i
        = oneFileFS.FAT i) ∧
    (MountDirectory tm4cAnd
      (powerCycle resetFS (OS_File_Flush tm4cAnd oneFileFS).2)).bDirectoryLoaded = 1 :=
  have hb : ByteTables oneFileFS := by
    intro i _
    refine ⟨?_, ?_⟩
    · show (if i = 0 then 0 else 255) < 256
      split <;> decide
    · show 255 < 256
      decide
  have h := flush_then_remount_reproduces_tables tm4cAnd tm4cAnd_programs (by decide)
    oneFileFS resetFS hb (fun _ _ => rfl)
  ⟨tm4cAnd_programs, by decide, hb, fun _ _ => rfl, h.1, h.2.2.2.1, h.2.2.2.2.1⟩

/-- C19. For every sector and buffer, `eDisk_ReadSector` and
`eDisk_WriteSector` return `RES_PARERR` exactly when the computed 32-bit address
`EDISK_ADDR_MIN + 512 * sector` is greater than `EDISK_ADDR_MAX` (the plain sum
when it fits in 32 bits).  In that case the read returns the caller's buffer
unchanged and the write returns the medium unchanged whatever the buffer and
the flash primitives are, so neither is used.  Otherwise the read returns
`RES_OK` and the buffer whose first 512 bytes are the 512 bytes of the medium
at that address, the rest as before; a read has no other output. -/
theorem sector_out_of_range_is_parameter_error (hw : Platform) (m buff : Nat → Nat)
    (sector : Nat) :
    ((eDisk_ReadSector hw m buff sector).1 = DRESULT.RES_PARERR ↔
      (hw.EDISK_ADDR_MIN + 512 * sector) % 2 ^ 32 > hw.EDISK_ADDR_MAX) ∧
    ((eDisk_WriteSector hw m buff sector).1 = DRESULT.RES_PARERR ↔
      (hw.EDISK_ADDR_MIN + 512 * sector) % 2 ^ 32 > hw.EDISK_ADDR_MAX) ∧
    ((hw.EDISK_ADDR_MIN + 512 * sector) % 2 ^ 32 > hw.EDISK_ADDR_MAX →
      eDisk_ReadSector hw m buff sector = (DRESULT.RES_PARERR, buff) ∧
      ∀ wa er buff',
        eDisk_WriteSector { hw with Flash_WriteArray := wa, Flash_Erase := er } m buff' sector
          = (DRESULT.RES_PARERR, m)) ∧
    (¬ (hw.EDISK_ADDR_MIN + 512 * sector) % 2 ^ 32 > hw.EDISK_ADDR_MAX →
      eDisk_ReadSector hw m buff sector =
        (DRESULT.RES_OK, fun i =>
          if i < 512 then m ((hw.EDISK_ADDR_MIN + 512 * sector) % 2 ^ 32 + i) else buff i)) ∧
    (hw.EDISK_ADDR_MIN + 512 * sector < 2 ^ 32 →
      (hw.EDISK_ADDR_MIN + 512 * sector) % 2 ^ 32 = hw.EDISK_ADDR_MIN + 512 * sector) := by
  by_cases h : (hw.EDISK_ADDR_MIN + 512 * sector) % 2 ^ 32 > hw.EDISK_ADDR_MAX
  · have hr : eDisk_ReadSector hw m buff sector = (DRESULT.RES_PARERR, buff) := by
      unfold eDisk_ReadSector
      simp only
      rw [if_pos h]
    have hwr : ∀ wa er buff',
        eDisk_WriteSector { hw with Flash_WriteArray := wa, Flash_Erase := er } m buff' sector
          = (DRESULT.RES_PARERR, m) := by
      intro wa er buff'
      unfold eDisk_WriteSector
      simp only
      rw [if_pos h]
    have hw0 : eDisk_WriteSector hw m buff sector = (DRESULT.RES_PARERR, m) :=
      hwr hw.Flash_WriteArray hw.Flash_Erase buff
    refine ⟨?_, ?_, fun _ => ⟨hr, hwr⟩, fun hn => absurd h hn, fun hlt => Nat.mod_eq_of_lt hlt⟩
    · rw [hr]; exact ⟨fun _ => h, fun _ => rfl⟩
    · rw [hw0]; exact ⟨fun _ => h, fun _ => rfl⟩
  · have hr : eDisk_ReadSector hw m buff sector =
        (DRESULT.RES_OK, fun i =>
          if i < 512 then m ((hw.EDISK_ADDR_MIN + 512 * sector) % 2 ^ 32 + i) else buff i) := by
      unfold eDisk_ReadSector
      simp only
      rw [if_neg h]
    have hw0 : (eDisk_WriteSector hw m buff sector).1 ≠ DRESULT.RES_PARERR := by
      unfold eDisk_WriteSector
      simp only
      rw [if_neg h]
      split <;> simp
    refine ⟨?_, ?_, fun hp => absurd hp h, fun _ => hr, fun hlt => Nat.mod_eq_of_lt hlt⟩
    · rw [hr]
      exact ⟨fun hc => by simp at hc, fun hp => absurd hp h⟩
    · exact ⟨fun hc => absurd hc hw0, fun hp => absurd hp h⟩

/-- Witness of C19: sector 255 of `tm4c` is in range, sector 200 of the
128-sector window `halfDisk` is not. -/
theorem sector_out_of_range_is_parameter_error_witness :
    (eDisk_ReadSector tm4c freshFS.disk (fun _ => 0) 255).1 = DRESULT.RES_OK ∧
    (eDisk_ReadSector tm4c freshFS.disk (fun _ => 0) 255).2 3 = 255 ∧
    (halfDisk.EDISK_ADDR_MIN + 512 * 200) % 2 ^ 32 > halfDisk.EDISK_ADDR_MAX ∧
    eDisk_ReadSector halfDisk freshFS.disk bufAA 200 = (DRESULT.RES_PARERR, bufAA) ∧
    ∀ wa er buff',
      eDisk_WriteSector { halfDisk with Flash_WriteArray := wa, Flash_Erase := er }
        freshFS.disk buff' 200 = (DRESULT.RES_PARERR, freshFS.disk) :=
  have h1 := (sector_out_of_range_is_parameter_error tm4c freshFS.disk (fun _ => 0) 255).2.2.2.1
    (by decide)
  have h2 := (sector_out_of_range_is_parameter_error halfDisk freshFS.disk bufAA 200).2.2.1
    (by decide)
  ⟨by rw [h1], by rw [h1]; rfl, by decide, h2.1, h2.2⟩

/-- C20. For every buffer of 512 bytes and every sector whose address is in
range, `eDisk_WriteSector` hands to the flash program primitive a list of
exactly 128 words, at address `EDISK_ADDR_MIN + 512 * sector`, with count 128;
word `k` is `buff[4k] + 2^8 buff[4k+1] + 2^16 buff[4k+2] + 2^24 buff[4k+3]`;
the medium returned is the one the primitive leaves; the result is `RES_OK`
exactly when the primitive reports 128 words and `RES_ERROR` exactly when it
does not.  When the primitive stores words little-endian, reading the sector
back yields the buffer. -/
theorem write_sector_packs_little_endian (hw : Platform) (m buff : Nat → Nat) (sector : Nat)
    (hs : hw.EDISK_ADDR_MIN + 512 * sector ≤ hw.EDISK_ADDR_MAX)
    (h32 : hw.EDISK_ADDR_MAX < 2 ^ 32) (hb : ∀ i, i < 512 → buff i < 256) :
    ∃ words : List Nat, words.length = 128 ∧
      (∀ k, k < 128 → words[k]? = some (buff (4 * k) + 2 ^ 8 * buff (4 * k + 1)
        + 2 ^ 16 * buff (4 * k + 2) + 2 ^ 24 * buff (4 * k + 3))) ∧
      (eDisk_WriteSector hw m buff sector).2
        = (hw.Flash_WriteArray m words (hw.EDISK_ADDR_MIN + 512 * sector) 128).1 ∧
      ((eDisk_WriteSector hw m buff sector).1 = DRESULT.RES_OK ↔
        (hw.Flash_WriteArray m words (hw.EDISK_ADDR_MIN + 512 * sector) 128).2 = 128) ∧
      ((eDisk_WriteSector hw m buff sector).1 = DRESULT.RES_ERROR ↔
        (hw.Flash_WriteArray m words (hw.EDISK_ADDR_MIN + 512 * sector) 128).2 ≠ 128) ∧
      (hw.Flash_WriteArray = storeWords → ∀ out,
        eDisk_ReadSector hw (eDisk_WriteSector hw m buff sector).2 out sector
          = (DRESULT.RES_OK, fun i => if i < 512 then buff i else out i)) := by
  have hwr := eDisk_WriteSector_in_range hw m buff sector hs h32
  refine ⟨(List.range 128).map (fun k => packWord buff (4 * k)), by simp, ?_, ?_, ?_, ?_, ?_⟩
  · intro k hk
    rw [List.getElem?_map, List.getElem?_range hk]
    simp only [Option.map_some']
    rw [packWord_value buff (4 * k) (hb _ (by omega)) (hb _ (by omega)) (hb _ (by omega))
      (hb _ (by omega))]
    norm_num
  · rw [hwr]
  · rw [hwr]
    by_cases hc : (hw.Flash_WriteArray m ((List.range 128).map (fun k => packWord buff (4 * k)))
        (hw.EDISK_ADDR_MIN + 512 * sector) 128).2 = 128
    · rw [if_pos hc]
      exact ⟨fun _ => hc, fun _ => rfl⟩
    · rw [if_neg hc]
      exact ⟨fun h => DRESULT.noConfusion h, fun h => absurd h hc⟩
  · rw [hwr]
    by_cases hc : (hw.Flash_WriteArray m ((List.range 128).map (fun k => packWord buff (4 * k)))
        (hw.EDISK_ADDR_MIN + 512 * sector) 128).2 = 128
    · rw [if_pos hc]
      exact ⟨fun h => DRESULT.noConfusion h, fun h => absurd hc h⟩
    · rw [if_neg hc]
      exact ⟨fun _ => hc, fun _ => rfl⟩
  · intro hst out
    rw [hwr, eDisk_ReadSector_ok hw _ _ sector hs h32]
    simp only [hst]
    congr 1
    funext i
    by_cases hi : i < 512
    · rw [if_pos hi, if_pos hi]
      exact storeWords_packed_read m buff _ i hi hb
    · rw [if_neg hi, if_neg hi]

/-- Witness of C20: the buffer of bytes 0xAA written to sector 3 of `tm4c`. -/
theorem write_sector_packs_little_endian_witness :
    tm4c.EDISK_ADDR_MIN + 512 * 3 ≤ tm4c.EDISK_ADDR_MAX ∧ tm4c.EDISK_ADDR_MAX < 2 ^ 32 ∧
    (∀ i, i < 512 → bufAA i < 256) ∧
    ∃ words : List Nat, words.length = 128 ∧
      (∀ k, k < 128 → words[k]? = some (bufAA (4 * k) + 2 ^ 8 * bufAA (4 * k + 1)
        + 2 ^ 16 * bufAA (4 * k + 2) + 2 ^ 24 * bufAA (4 * k + 3))) ∧
      (eDisk_WriteSector tm4c freshFS.disk bufAA 3).2
        = (tm4c.Flash_WriteArray freshFS.disk words (tm4c.EDISK_ADDR_MIN + 512 * 3) 128).1 ∧
      ((eDisk_WriteSector tm4c freshFS.disk bufAA 3).1 = DRESULT.RES_OK ↔
        (tm4c.Flash_WriteArray freshFS.disk words (tm4c.EDISK_ADDR_MIN + 512 * 3) 128).2 = 128) ∧
      ((eDisk_WriteSector tm4c freshFS.disk bufAA 3).1 = DRESULT.RES_ERROR ↔
        (tm4c.Flash_WriteArray freshFS.disk words (tm4c.EDISK_ADDR_MIN + 512 * 3) 128).2 ≠ 128) ∧
      (tm4c.Flash_WriteArray = storeWords → ∀ out,
        eDisk_ReadSector tm4c (eDisk_WriteSector tm4c freshFS.disk bufAA 3).2 out 3
          = (DRESULT.RES_OK, fun i => if i < 512 then bufAA i else out i)) :=
  ⟨by decide, by decide, fun _ _ => by simp [bufAA],
    write_sector_packs_little_endian tm4c freshFS.disk bufAA 3 (by decide) (by decide)
      (fun _ _ => by simp [bufAA])⟩

/-- The loop of `OS_File_New` started at `index` returns the first index from
`index` up to 254 whose directory entry is 255, or 255 when there is none. -/
theorem newLoop_spec (D : Nat → Nat) : ∀ (n index : Nat), index ≤ 255 → 256 ≤ index + n →
    (newLoop D n index = 255 ∧ ∀ i, index ≤ i → i ≤ 254 → D i ≠ 255) ∨
    (index ≤ newLoop D n index ∧ newLoop D n index ≤ 254 ∧ D (newLoop D n index) = 255 ∧
      ∀ i, index ≤ i → i < newLoop D n index → D i ≠ 255) := by
  intro n
  induction n with
  | zero => intro index h1 h2; omega
  | succ n ih =>
    intro index h1 h2
    unfold newLoop
    by_cases h255 : index ≠ 255
    · rw [if_pos h255]
      by_cases hD : D index = 255
      · rw [if_pos hD]
        right
        exact ⟨le_refl _, by omega, hD, fun i hi1 hi2 => by omega⟩
      · rw [if_neg hD]
        have e : (index + 1) % 256 = index + 1 := Nat.mod_eq_of_lt (by omega)
        rw [e]
        rcases ih (index + 1) (by omega) (by omega) with ⟨hr, hall⟩ | ⟨hr1, hr2, hr3, hall⟩
        · left
          refine ⟨hr, fun i hi1 hi2 => ?_⟩
          by_cases hi : i = index
          · rw [hi]; exact hD
          · exact hall i (by omega) hi2
        · right
          refine ⟨by omega, hr2, hr3, fun i hi1 hi2 => ?_⟩
          by_cases hi : i = index
          · rw [hi]; exact hD
          · exact hall i (by omega) hi2
    · rw [if_neg h255]
      left
      exact ⟨rfl, fun i hi1 hi2 => by omega⟩

/-- C18. On a mounted file system `OS_File_New` leaves the state as it is,
returns the least index `i ≤ 254` with `Directory[i] = 255`, and returns 255
exactly when no index up to 254 has `Directory[i] = 255`, whatever
`Directory[255]` is; a second call returns the same result. -/
theorem OS_File_New_returns_first_free_slot (hw : Platform) (fs : FileSys)
    (hm : fs.bDirectoryLoaded ≠ 0) :
    (OS_File_New hw fs).2 = fs ∧
    (∀ i, i ≤ 254 → fs.Directory i = 255 → (∀ j, j < i → fs.Directory j ≠ 255) →
      (OS_File_New hw fs).1 = i) ∧
    ((OS_File_New hw fs).1 = 255 ↔ ∀ i, i ≤ 254 → fs.Directory i ≠ 255) ∧
    OS_File_New hw (OS_File_New hw fs).2 = OS_File_New hw fs := by
  have e : OS_File_New hw fs = (newLoop fs.Directory 256 0, fs) := by
    unfold OS_File_New
    simp only [if_neg hm]
  have hspec := newLoop_spec fs.Directory 256 0 (by omega) (by omega)
  rw [e]
  refine ⟨rfl, ?_, ?_, e⟩
  · intro i hi hD hmin
    show newLoop fs.Directory 256 0 = i
    rcases hspec with ⟨_, hall⟩ | ⟨_, hr2, hr3, hall⟩
    · exact absurd hD (hall i (Nat.zero_le _) hi)
    · by_contra hne
      rcases Nat.lt_or_gt_of_ne hne with hlt | hgt
      · exact hmin _ hlt hr3
      · exact hall i (Nat.zero_le _) hgt hD
  · show newLoop fs.Directory 256 0 = 255 ↔ _
    rcases hspec with ⟨hr, hall⟩ | ⟨_, hr2, hr3, _⟩
    · exact ⟨fun _ i hi => hall i (Nat.zero_le _) hi, fun _ => hr⟩
    · exact ⟨fun h => by omega, fun h => absurd hr3 (h _ hr2)⟩

/-- Witness of C18: with one file in slot 0 the first free slot is 1. -/
theorem OS_File_New_returns_first_free_slot_witness :
    oneFileFS.bDirectoryLoaded ≠ 0 ∧ (OS_File_New tm4c oneFileFS).1 = 1 ∧
    (OS_File_New tm4c oneFileFS).2 = oneFileFS ∧
    OS_File_New tm4c (OS_File_New tm4c oneFileFS).2 = OS_File_New tm4c oneFileFS :=
  have h := OS_File_New_returns_first_free_slot tm4c oneFileFS (by decide)
  ⟨by decide, h.2.1 1 (by decide) (by decide) (fun j hj => by
      have : j = 0 := by omega
      subst this
      decide), h.1, h.2.2.2⟩

/-- The loop of `OS_File_Size`: the count at the first end marker, capped at 255. -/
theorem sizeLoop_spec (FAT : Nat → Nat) : ∀ (n size s : Nat), 256 ≤ n + size → size ≤ 255 →
    (∀ j, size + j < 255 → FAT (FAT^[j] s) = 255 → (∀ j', j' < j → FAT (FAT^[j'] s) ≠ 255) →
      sizeLoop FAT n size s = size + j + 1) ∧
    ((∀ j, size + j < 255 → FAT (FAT^[j] s) ≠ 255) → sizeLoop FAT n size s = 255) := by
  intro n
  induction n with
  | zero => intro size s h1 h2; omega
  | succ n ih =>
    intro size s h1 h2
    unfold sizeLoop
    by_cases hlt : size < 255
    · rw [if_pos hlt]
      have e : (size + 1) % 256 = size + 1 := Nat.mod_eq_of_lt (by omega)
      by_cases hF : FAT s = 255
      · rw [if_pos hF, e]
        constructor
        · intro j _ _ hmin
          have hj : j = 0 := by
            by_contra hne
            exact hmin 0 (Nat.pos_of_ne_zero hne) hF
          rw [hj]
        · intro hall
          exact absurd hF (hall 0 (by omega))
      · rw [if_neg hF, e]
        obtain ⟨ih1, ih2⟩ := ih (size + 1) (FAT s) (by omega) (by omega)
        constructor
        · intro j hj hend hmin
          cases j with
          | zero => exact absurd hend hF
          | succ j0 =>
            rw [Function.iterate_succ_apply] at hend
            have := ih1 j0 (by omega) hend (fun j' hj' => by
              have := hmin (j' + 1) (by omega)
              rwa [Function.iterate_succ_apply] at this)
            rw [this]
            omega
        · intro hall
          apply ih2
          intro j hj
          have := hall (j + 1) (by omega)
          rwa [Function.iterate_succ_apply] at this
    · rw [if_neg hlt]
      constructor
      · intro j hj; omega
      · intro _; rfl

/-- `OS_File_Size` on a file whose chain meets its first end marker after `j`
links. -/
theorem OS_File_Size_end (num : Nat) (fs : FileSys) (hD : fs.Directory num ≠ 255) (j : Nat)
    (hend : fs.FAT (fs.FAT^[j] (fs.Directory num)) = 255)
    (hmin : ∀ j', j' < j → fs.FAT (fs.FAT^[j'] (fs.Directory num)) ≠ 255) :
    OS_File_Size num fs = min (j + 1) 255 := by
  unfold OS_File_Size
  rw [if_neg hD]
  obtain ⟨h1, h2⟩ := sizeLoop_spec fs.FAT 256 0 (fs.Directory num) (by omega) (by omega)
  by_cases hj : j < 255
  · rw [h1 j (by omega) hend hmin]
    omega
  · rw [h2 (fun j' hj' => hmin j' (by omega))]
    omega

theorem OS_File_Size_no_end (num : Nat) (fs : FileSys) (hD : fs.Directory num ≠ 255)
    (hall : ∀ j, j < 255 → fs.FAT (fs.FAT^[j] (fs.Directory num)) ≠ 255) :
    OS_File_Size num fs = 255 := by
  unfold OS_File_Size
  rw [if_neg hD]
  exact (sizeLoop_spec fs.FAT 256 0 (fs.Directory num) (by omega) (by omega)).2
    (fun j hj => hall j (by omega))

/-- C17. `OS_File_Size` is a total function of `Directory` and `FAT`, with no
other output.  It returns 0 when `Directory[num] = 255`.  Otherwise, when the
first sector of the chain whose FAT entry is 255 is reached after `j` links
(the chain has `L = j + 1` sectors up to it) it returns `min L 255`, and when
no sector of the chain has FAT entry 255 it returns 255. -/
theorem OS_File_Size_counts_chain_capped (num : Nat) (fs : FileSys) :
    (fs.Directory num = 255 → OS_File_Size num fs = 0) ∧
    (fs.Directory num ≠ 255 → ∀ j, fs.FAT (fs.FAT^[j] (fs.Directory num)) = 255 →
      (∀ j', j' < j → fs.FAT (fs.FAT^[j'] (fs.Directory num)) ≠ 255) →
      OS_File_Size num fs = min (j + 1) 255) ∧
    (fs.Directory num ≠ 255 → (∀ j, fs.FAT (fs.FAT^[j] (fs.Directory num)) ≠ 255) →
      OS_File_Size num fs = 255) ∧
    OS_File_Size num fs ≤ 255 := by
  refine ⟨fun h => ?_, fun hD j hend hmin => OS_File_Size_end num fs hD j hend hmin,
    fun hD hall => OS_File_Size_no_end num fs hD (fun j _ => hall j), ?_⟩
  · unfold OS_File_Size
    rw [if_pos h]
  · by_cases hD : fs.Directory num = 255
    · unfold OS_File_Size
      rw [if_pos hD]
      omega
    · by_cases hex : ∃ j, fs.FAT (fs.FAT^[j] (fs.Directory num)) = 255
      · classical
        rw [OS_File_Size_end num fs hD (Nat.find hex) (Nat.find_spec hex)
          (fun j' hj' => Nat.find_min hex hj')]
        omega
      · push_neg at hex
        rw [OS_File_Size_no_end num fs hD (fun j _ => hex j)]

/-- Witness of C17: a file of one sector has size 1, a file whose only sector
links to itself has size 255. -/
theorem OS_File_Size_counts_chain_capped_witness :
    OS_File_Size 0 oneFileFS = 1 ∧ OS_File_Size 0 cyclicFS = 255 ∧
    OS_File_Size 1 oneFileFS = 0 :=
  have h1 := (OS_File_Size_counts_chain_capped 0 oneFileFS).2.1 (by decide) 0 (by decide)
    (fun j' hj' => absurd hj' (Nat.not_lt_zero j'))
  have hcyc : ∀ j, cyclicFS.FAT^[j] (cyclicFS.Directory 0) = 0 := by
    intro j
    induction j with
    | zero => rfl
    | succ j ih => rw [Function.iterate_succ_apply', ih]; rfl
  have h2 := (OS_File_Size_counts_chain_capped 0 cyclicFS).2.2.1 (by decide)
    (fun j => by rw [hcyc j]; decide)
  ⟨h1, h2, (OS_File_Size_counts_chain_capped 1 oneFileFS).1 (by decide)⟩

theorem readLoop_some (FAT : Nat → Nat) : ∀ (k s : Nat),
    (∀ j, j < k → FAT (FAT^[j] s) ≠ 255) → readLoop FAT k s = some (FAT^[k] s) := by
  intro k
  induction k with
  | zero => intro s _; rfl
  | succ k ih =>
    intro s hall
    unfold readLoop
    have h0 : FAT s ≠ 255 := hall 0 (by omega)
    rw [if_neg h0, Function.iterate_succ_apply]
    apply ih
    intro j hj
    have := hall (j + 1) (by omega)
    rwa [Function.iterate_succ_apply] at this

theorem readLoop_none (FAT : Nat → Nat) : ∀ (k s j : Nat), j < k → FAT (FAT^[j] s) = 255 →
    readLoop FAT k s = none := by
  intro k
  induction k with
  | zero => intro s j hj; omega
  | succ k ih =>
    intro s j hj hend
    unfold readLoop
    by_cases hF : FAT s = 255
    · rw [if_pos hF]
    · rw [if_neg hF]
      cases j with
      | zero => exact absurd hend hF
      | succ j0 =>
        rw [Function.iterate_succ_apply] at hend
        exact ih (FAT s) j0 (by omega) hend

/-- For `k ≤ 254`: the file has at most `k` sectors exactly when it does not
exist or its chain meets an end marker within `k` links. -/
theorem OS_File_Size_le_iff (num : Nat) (fs : FileSys) (k : Nat) (hk : k ≤ 254) :
    OS_File_Size num fs ≤ k ↔
      fs.Directory num = 255 ∨ ∃ j, j < k ∧ fs.FAT (fs.FAT^[j] (fs.Directory num)) = 255 := by
  by_cases hD : fs.Directory num = 255
  · have : OS_File_Size num fs = 0 := by unfold OS_File_Size; rw [if_pos hD]
    rw [this]
    exact ⟨fun _ => Or.inl hD, fun _ => Nat.zero_le _⟩
  · by_cases hex : ∃ j, fs.FAT (fs.FAT^[j] (fs.Directory num)) = 255
    · classical
      have hs := OS_File_Size_end num fs hD (Nat.find hex) (Nat.find_spec hex)
        (fun j' hj' => Nat.find_min hex hj')
      rw [hs]
      constructor
      · intro hle
        right
        exact ⟨Nat.find hex, by omega, Nat.find_spec hex⟩
      · rintro (h | ⟨j, hj, hend⟩)
        · exact absurd h hD
        · have := Nat.find_min' hex hend
          omega
    · push_neg at hex
      rw [OS_File_Size_no_end num fs hD (fun j _ => hex j)]
      constructor
      · intro hle; omega
      · rintro (h | ⟨j, _, hend⟩)
        · exact absurd h hD
        · exact absurd hend (hex j)

theorem DRESULT_code_ne_255 (r : DRESULT) : r.code % 256 ≠ 255 := by
  cases r <;> decide

/-- C16. For every state of the mirror, file `num` and logical index
`k ≤ 254`: `OS_File_Read` returns 255 exactly when `k ≥ OS_File_Size num`, and
then it returns the caller's buffer untouched without a disk read; otherwise
its result and buffer are those of `eDisk_ReadSector` on the sector reached by
following `k` FAT links from `Directory[num]`, which, the sector being inside
the address window, is result 0 and the 512 bytes of that sector. -/
theorem OS_File_Read_fails_iff_beyond_size (hw : Platform) (fs : FileSys) (num k : Nat)
    (buf : Nat → Nat) (hk : k ≤ 254) :
    ((OS_File_Read hw num k buf fs).1 = 255 ↔ OS_File_Size num fs ≤ k) ∧
    (OS_File_Size num fs ≤ k → OS_File_Read hw num k buf fs = (255, buf)) ∧
    (k < OS_File_Size num fs →
      OS_File_Read hw num k buf fs =
        ((eDisk_ReadSector hw fs.disk buf (fs.FAT^[k] (fs.Directory num))).1.code % 256,
         (eDisk_ReadSector hw fs.disk buf (fs.FAT^[k] (fs.Directory num))).2)) ∧
    (k < OS_File_Size num fs →
      hw.EDISK_ADDR_MIN + 512 * (fs.FAT^[k] (fs.Directory num)) ≤ hw.EDISK_ADDR_MAX →
      hw.EDISK_ADDR_MAX < 2 ^ 32 →
      OS_File_Read hw num k buf fs =
        (0, fun i => if i < 512 then
          fs.disk (hw.EDISK_ADDR_MIN + 512 * (fs.FAT^[k] (fs.Directory num)) + i) else buf i)) := by
  have hiff := OS_File_Size_le_iff num fs k hk
  have hfail : OS_File_Size num fs ≤ k → OS_File_Read hw num k buf fs = (255, buf) := by
    intro hle
    unfold OS_File_Read
    rcases hiff.mp hle with hD | ⟨j, hj, hend⟩
    · rw [if_pos hD]
    · by_cases hD : fs.Directory num = 255
      · rw [if_pos hD]
      · rw [if_neg hD, readLoop_none fs.FAT k _ j hj hend]
  have hok : k < OS_File_Size num fs →
      OS_File_Read hw num k buf fs =
        ((eDisk_ReadSector hw fs.disk buf (fs.FAT^[k] (fs.Directory num))).1.code % 256,
         (eDisk_ReadSector hw fs.disk buf (fs.FAT^[k] (fs.Directory num))).2) := by
    intro hlt
    have hn : ¬ (fs.Directory num = 255 ∨
        ∃ j, j < k ∧ fs.FAT (fs.FAT^[j] (fs.Directory num)) = 255) := by
      intro h
      have := hiff.mpr h
      omega
    push_neg at hn
    unfold OS_File_Read
    rw [if_neg hn.1, readLoop_some fs.FAT k _ hn.2]
  refine ⟨⟨fun h255 => ?_, fun hle => by rw [hfail hle]⟩, hfail, hok, ?_⟩
  · by_contra hnle
    rw [hok (by omega)] at h255
    exact DRESULT_code_ne_255 _ h255
  · intro hlt hs h32
    rw [hok hlt, eDisk_ReadSector_ok hw _ _ _ hs h32]
    rfl

/-- Witness of C16: file 0 of `oneFileFS` has one sector; index 0 is read,
index 1 is refused. -/
theorem OS_File_Read_fails_iff_beyond_size_witness :
    (1 : Nat) ≤ 254 ∧ OS_File_Size 0 oneFileFS = 1 ∧
    OS_File_Read tm4c 0 1 bufAA oneFileFS = (255, bufAA) ∧
    (OS_File_Read tm4c 0 0 bufAA oneFileFS).1 = 0 ∧
    (OS_File_Read tm4c 0 0 bufAA oneFileFS).2 7 = 255 :=
  have hs : OS_File_Size 0 oneFileFS = 1 := by decide
  have h1 := (OS_File_Read_fails_iff_beyond_size tm4c oneFileFS 0 1 bufAA (by decide)).2.1
    (by rw [hs])
  have h0 := (OS_File_Read_fails_iff_beyond_size tm4c oneFileFS 0 0 bufAA (by decide)).2.2.2
    (by rw [hs]; decide) (by decide) (by decide)
  ⟨by decide, hs, h1, by rw [h0], by rw [h0]; rfl⟩

set_option maxRecDepth 100000 in
/-- C12 (evaluation at the failing input). `rebootFS` is the state after a
power cycle of a medium that holds one file of one sector: RAM tables zeroed,
`bDirectoryLoaded = 0`.  `OS_File_New` and `OS_File_Append` mount first and
leave `bDirectoryLoaded = 1`.  `OS_File_Size` does not depend on the medium at
all and answers 255 from the stale tables where the mounted tables give 1;
`OS_File_Read` of file 1, which the medium does not hold, answers 0 from the
stale tables where the mounted tables give 255. -/
theorem size_and_read_do_not_mount :
    rebootFS.bDirectoryLoaded = 0 ∧
    (OS_File_New tm4c rebootFS).1 = 1 ∧ (OS_File_New tm4c rebootFS).2.bDirectoryLoaded = 1 ∧
    (OS_File_Append 256 tm4c 0 bufAA rebootFS).map (fun r => (r.1, r.2.bDirectoryLoaded))
      = some (0, 1) ∧
    (∀ num fs d, OS_File_Size num { fs with disk := d } = OS_File_Size num fs) ∧
    OS_File_Size 0 rebootFS = 255 ∧ OS_File_Size 0 (MountDirectory tm4c rebootFS) = 1 ∧
    (OS_File_Read tm4c 1 0 (fun _ => 0) rebootFS).1 = 0 ∧
    (OS_File_Read tm4c 1 0 (fun _ => 0) (MountDirectory tm4c rebootFS)).1 = 255 :=
  ⟨by decide, by decide, by decide, by decide, fun _ _ _ => rfl, by decide, by decide,
    by decide, by decide⟩

/-- C13 (evaluation at the failing input). On `brokenFlash`, whose program
primitive reports 0 words and whose erase reports failure, `OS_File_Flush`
returns 1 and `OS_File_Format` returns 1, the code of `RES_ERROR`, not 255;
`OS_File_Append` returns 0 and links sector 0 to file 0 although nothing was
written.  On the 128-sector window `halfDisk`, `OS_File_Read` of a file that
starts at sector 200 returns 4, the code of `RES_PARERR`. -/
theorem block_store_failures_are_not_reported_as_255 :
    (eDisk_WriteSector brokenFlash freshFS.disk (metaImage freshFS) 255).1 = DRESULT.RES_ERROR ∧
    (OS_File_Flush brokenFlash freshFS).1 = 1 ∧
    (OS_File_Format (formatFuel brokenFlash) brokenFlash freshFS).map Prod.fst = some 1 ∧
    (eDisk_WriteSector brokenFlash freshFS.disk bufAA 0).1 = DRESULT.RES_ERROR ∧
    (OS_File_Append 256 brokenFlash 0 bufAA freshFS).map
      (fun r => (r.1, r.2.Directory 0, r.2.disk brokenFlash.EDISK_ADDR_MIN)) = some (0, 0, 255) ∧
    (eDisk_ReadSector halfDisk farFS.disk bufAA 200).1 = DRESULT.RES_PARERR ∧
    (OS_File_Read halfDisk 0 0 bufAA farFS).1 = 4 :=
  ⟨by decide, by decide, by decide, by decide, by decide, by decide, by decide⟩

/-! ## Allocation invariant of the file tables -/

/-! ### Chains of an allocated store -/

theorem iterate_before {FAT : Nat → Nat} {a j : Nat}
    (h : ∀ j', j' < j + 1 → FAT (FAT^[j'] a) ≠ 255) : ∀ j', j' < j → FAT (FAT^[j'] a) ≠ 255 :=
  fun j' hj' => h j' (by omega)

/-- Along a chain of an allocated store the sector numbers grow and stay below
the number of sectors in use. -/
theorem Allocated.chain_bounds {fs : FileSys} {k n : Nat} (h : Allocated fs k n) :
    ∀ (j a : Nat), a < n → (∀ j', j' < j → fs.FAT (fs.FAT^[j'] a) ≠ 255) →
    a + j ≤ fs.FAT^[j] a ∧ fs.FAT^[j] a < n := by
  intro j
  induction j with
  | zero => intro a ha _; exact ⟨le_refl _, ha⟩
  | succ j ih =>
    intro a ha hno
    obtain ⟨h1, h2⟩ := ih a ha (iterate_before hno)
    rw [Function.iterate_succ_apply']
    rcases h.fat_used _ h2 with h255 | ⟨h3, h4⟩
    · exact absurd h255 (hno j (by omega))
    · exact ⟨by omega, h4⟩

/-- Every chain of an allocated store has a first end marker. -/
theorem Allocated.chain_end {fs : FileSys} {k n : Nat} (h : Allocated fs k n) (a : Nat)
    (ha : a < n) :
    ∃ j, fs.FAT (fs.FAT^[j] a) = 255 ∧ (∀ j', j' < j → fs.FAT (fs.FAT^[j'] a) ≠ 255) ∧
      a + j ≤ fs.FAT^[j] a ∧ fs.FAT^[j] a < n := by
  classical
  by_cases hex : ∃ j, fs.FAT (fs.FAT^[j] a) = 255
  · have hmin : ∀ j', j' < Nat.find hex → fs.FAT (fs.FAT^[j'] a) ≠ 255 :=
      fun j' hj' => Nat.find_min hex hj'
    obtain ⟨h1, h2⟩ := h.chain_bounds (Nat.find hex) a ha hmin
    exact ⟨Nat.find hex, Nat.find_spec hex, hmin, h1, h2⟩
  · push_neg at hex
    obtain ⟨h1, h2⟩ := h.chain_bounds n a ha (fun j' _ => hex j')
    omega

theorem lastsectorLoop_end (FAT : Nat → Nat) : ∀ (j fuel a : Nat), j < fuel →
    FAT (FAT^[j] a) = 255 → (∀ j', j' < j → FAT (FAT^[j'] a) ≠ 255) →
    lastsectorLoop FAT fuel a = some (FAT^[j] a) := by
  intro j
  induction j with
  | zero =>
    intro fuel a hf hend _
    obtain ⟨f, rfl⟩ : ∃ f, fuel = f + 1 := ⟨fuel - 1, by omega⟩
    unfold lastsectorLoop
    have h0 : FAT a = 255 := hend
    rw [if_pos h0]
    rfl
  | succ j ih =>
    intro fuel a hf hend hno
    obtain ⟨f, rfl⟩ : ∃ f, fuel = f + 1 := ⟨fuel - 1, by omega⟩
    unfold lastsectorLoop
    have h0 : FAT a ≠ 255 := hno 0 (by omega)
    rw [if_neg h0, Function.iterate_succ_apply]
    apply ih f (FAT a) (by omega)
    · rwa [Function.iterate_succ_apply] at hend
    · intro j' hj'
      have := hno (j' + 1) (by omega)
      rwa [Function.iterate_succ_apply] at this

theorem appendfatLoop_end (n : Nat) (fs : FileSys) : ∀ (j fuel a : Nat), j < fuel →
    fs.FAT (fs.FAT^[j] a) = 255 → (∀ j', j' < j → fs.FAT (fs.FAT^[j'] a) ≠ 255) →
    appendfatLoop n fuel fs a
      = some { fs with FAT := fun x => if x = fs.FAT^[j] a then n else fs.FAT x } := by
  intro j
  induction j with
  | zero =>
    intro fuel a hf hend _
    obtain ⟨f, rfl⟩ : ∃ f, fuel = f + 1 := ⟨fuel - 1, by omega⟩
    unfold appendfatLoop
    have h0 : fs.FAT a = 255 := hend
    rw [if_pos h0]
    rfl
  | succ j ih =>
    intro fuel a hf hend hno
    obtain ⟨f, rfl⟩ : ∃ f, fuel = f + 1 := ⟨fuel - 1, by omega⟩
    unfold appendfatLoop
    have h0 : fs.FAT a ≠ 255 := hno 0 (by omega)
    rw [if_neg h0]
    have := ih f (fs.FAT a) (by omega)
      (by rwa [Function.iterate_succ_apply] at hend)
      (fun j' hj' => by
        have := hno (j' + 1) (by omega)
        rwa [Function.iterate_succ_apply] at this)
    rw [this, Function.iterate_succ_apply]

/-- The chain list computed by `chainFrom` when the first end is met after `j`
links. -/
theorem chainFrom_end (FAT : Nat → Nat) : ∀ (j fuel a : Nat), j < fuel →
    FAT (FAT^[j] a) = 255 → (∀ j', j' < j → FAT (FAT^[j'] a) ≠ 255) →
    chainFrom FAT fuel a = some ((List.range (j + 1)).map (fun t => FAT^[t] a)) := by
  intro j
  induction j with
  | zero =>
    intro fuel a hf hend _
    obtain ⟨f, rfl⟩ : ∃ f, fuel = f + 1 := ⟨fuel - 1, by omega⟩
    unfold chainFrom
    have h0 : FAT a = 255 := hend
    rw [if_pos h0]
    rfl
  | succ j ih =>
    intro fuel a hf hend hno
    obtain ⟨f, rfl⟩ : ∃ f, fuel = f + 1 := ⟨fuel - 1, by omega⟩
    unfold chainFrom
    have h0 : FAT a ≠ 255 := hno 0 (by omega)
    rw [if_neg h0]
    have := ih f (FAT a) (by omega)
      (by rwa [Function.iterate_succ_apply] at hend)
      (fun j' hj' => by
        have := hno (j' + 1) (by omega)
        rwa [Function.iterate_succ_apply] at this)
    rw [this]
    simp only [Option.map_some']
    congr 1
    rw [List.range_succ_eq_map (j + 1), List.map_cons, List.map_map]
    rfl

/-- No sector lies on the chains of two files of an allocated store. -/
theorem Allocated.owner_unique {fs : FileSys} {k n : Nat} (h : Allocated fs k n) :
    ∀ (j j' i i' : Nat), i < k → i' < k →
    (∀ t, t < j → fs.FAT (fs.FAT^[t] (fs.Directory i)) ≠ 255) →
    (∀ t, t < j' → fs.FAT (fs.FAT^[t] (fs.Directory i')) ≠ 255) →
    fs.FAT^[j] (fs.Directory i) = fs.FAT^[j'] (fs.Directory i') → i = i' := by
  intro j
  induction j with
  | zero =>
    intro j' i i' hi hi' _ hno' heq
    cases j' with
    | zero => exact h.dir_inj i i' hi hi' heq
    | succ t' =>
      rw [Function.iterate_succ_apply'] at heq
      have hb := (h.chain_bounds t' _ (h.dir_used i' hi') (iterate_before hno')).2
      exact absurd heq.symm (h.dir_fat i _ hi hb)
  | succ t ih =>
    intro j' i i' hi hi' hno hno' heq
    cases j' with
    | zero =>
      rw [Function.iterate_succ_apply'] at heq
      have hb := (h.chain_bounds t _ (h.dir_used i hi) (iterate_before hno)).2
      exact absurd heq (h.dir_fat i' _ hi' hb)
    | succ t' =>
      rw [Function.iterate_succ_apply', Function.iterate_succ_apply'] at heq
      have hb := (h.chain_bounds t _ (h.dir_used i hi) (iterate_before hno)).2
      have hb' := (h.chain_bounds t' _ (h.dir_used i' hi') (iterate_before hno')).2
      have := h.fat_inj _ _ hb hb' (hno t (by omega)) heq
      exact ih t' i i' hi hi' (iterate_before hno) (iterate_before hno') this

theorem Allocated.chain_lt {fs : FileSys} {k n : Nat} (h : Allocated fs k n) (a : Nat)
    (ha : a < n) (j : Nat) (hno : ∀ j', j' < j → fs.FAT (fs.FAT^[j'] a) ≠ 255) :
    ∀ t' t, t < t' → t' ≤ j → fs.FAT^[t] a < fs.FAT^[t'] a := by
  intro t'
  induction t' with
  | zero => intro t ht; omega
  | succ t' ih =>
    intro t ht htj
    have hb := (h.chain_bounds t' a ha (fun j' hj' => hno j' (by omega))).2
    have hstep : fs.FAT^[t'] a < fs.FAT^[t' + 1] a := by
      rw [Function.iterate_succ_apply']
      rcases h.fat_used _ hb with h255 | ⟨h3, _⟩
      · exact absurd h255 (hno t' (by omega))
      · exact h3
    by_cases htt : t = t'
    · rw [htt]; exact hstep
    · exact lt_trans (ih t (by omega) (by omega)) hstep

theorem Allocated.file_lt {fs : FileSys} {k n : Nat} (h : Allocated fs k n) (i : Nat)
    (hi : i ≤ 254) (hD : fs.Directory i ≠ 255) : i < k := by
  by_contra hc
  exact hD (h.dir_free i (by omega) (by omega))

/-- The tables of an allocated store form a forest of simple chains. -/
theorem Allocated.forest {fs : FileSys} {k n : Nat} (h : Allocated fs k n) : Forest fs := by
  have hn := h.hn
  have chain : ∀ i, i < k → ∃ j, j < 256 ∧
      fs.FAT (fs.FAT^[j] (fs.Directory i)) = 255 ∧
      (∀ j', j' < j → fs.FAT (fs.FAT^[j'] (fs.Directory i)) ≠ 255) ∧
      chainFrom fs.FAT 256 (fs.Directory i)
        = some ((List.range (j + 1)).map (fun t => fs.FAT^[t] (fs.Directory i))) := by
    intro i hi
    obtain ⟨j, hend, hno, hb1, hb2⟩ := h.chain_end _ (h.dir_used i hi)
    exact ⟨j, by omega, hend, hno, chainFrom_end fs.FAT j 256 _ (by omega) hend hno⟩
  refine ⟨?_, ?_, ?_⟩
  · intro i hi hD
    have hik := h.file_lt i hi hD
    obtain ⟨j, _, _, hno, hch⟩ := chain i hik
    refine ⟨_, hch, ?_⟩
    apply List.Nodup.map_on _ (List.nodup_range _)
    intro x hx y hy hxy
    rw [List.mem_range] at hx hy
    by_contra hne
    rcases Nat.lt_or_gt_of_ne hne with hlt | hgt
    · have := h.chain_lt _ (h.dir_used i hik) j hno y x hlt (by omega)
      omega
    · have := h.chain_lt _ (h.dir_used i hik) j hno x y hgt (by omega)
      omega
  · intro i i' l l' hi hi' hne hD hD' hl hl' x hx hx'
    have hik := h.file_lt i hi hD
    have hik' := h.file_lt i' hi' hD'
    obtain ⟨j, _, _, hno, hch⟩ := chain i hik
    obtain ⟨j', _, _, hno', hch'⟩ := chain i' hik'
    rw [hch] at hl
    rw [hch'] at hl'
    rw [← Option.some.inj hl, List.mem_map] at hx
    rw [← Option.some.inj hl', List.mem_map] at hx'
    obtain ⟨t, ht, hxt⟩ := hx
    obtain ⟨t', ht', hxt'⟩ := hx'
    rw [List.mem_range] at ht ht'
    exact hne (h.owner_unique t t' i i' hik hik' (fun s hs => hno s (by omega))
      (fun s hs => hno' s (by omega)) (hxt.trans hxt'.symm))
  · intro j j' hj hj' hne h255 heq
    have hjn : j < n := by
      by_contra hc
      exact h255 (h.fat_free j (by omega) hj)
    have hjn' : j' < n := by
      by_contra hc
      exact h255 (heq.trans (h.fat_free j' (by omega) hj'))
    exact hne (h.fat_inj j j' hjn hjn' h255 heq)

/-- `lastsector` on a file of an allocated store: the end of its chain. -/
theorem Allocated.lastsector_file {fs : FileSys} {k n : Nat} (h : Allocated fs k n) (i : Nat)
    (hi : i < k) :
    ∃ j, lastsector 256 fs (fs.Directory i) = some (fs.FAT^[j] (fs.Directory i)) ∧
      fs.FAT^[j] (fs.Directory i) < n ∧ fs.FAT (fs.FAT^[j] (fs.Directory i)) = 255 ∧
      (∀ j', j' < j → fs.FAT (fs.FAT^[j'] (fs.Directory i)) ≠ 255) := by
  have hn := h.hn
  have ha := h.dir_used i hi
  obtain ⟨j, hend, hno, hb1, hb2⟩ := h.chain_end _ ha
  refine ⟨j, ?_, hb2, hend, hno⟩
  unfold lastsector
  rw [if_neg (by omega)]
  exact lastsectorLoop_end fs.FAT j 256 _ (by omega) hend hno

theorem wrap16_small (x : Int) (h1 : -1 ≤ x) (h2 : x < 256) : wrap16 x = x := by
  unfold wrap16
  omega

theorem Allocated.findfreesectorLoop_spec {fs : FileSys} {k n : Nat} (h : Allocated fs k n) :
    ∀ (d index m : Nat) (free : Int), index + d = k → d < m → -1 ≤ free → free < n →
    ∃ F : Int, findfreesectorLoop 256 fs m free index = some ((F + 1) % 256).toNat ∧
      free ≤ F ∧ F < n ∧
      ∀ i, index ≤ i → i < k → ∀ last, lastsector 256 fs (fs.Directory i) = some last →
        (last : Int) ≤ F := by
  have hn := h.hn
  have hk := h.hk
  intro d
  induction d with
  | zero =>
    intro index m free hik hm h1 h2
    obtain ⟨m', rfl⟩ : ∃ m', m = m' + 1 := ⟨m - 1, by omega⟩
    have hD : fs.Directory index = 255 := h.dir_free index (by omega) (by omega)
    refine ⟨free, ?_, le_refl _, h2, fun i hi1 hi2 => by omega⟩
    unfold findfreesectorLoop lastsector
    rw [if_pos hD]
    simp only [if_true]
  | succ d ih =>
    intro index m free hik hm h1 h2
    obtain ⟨m', rfl⟩ : ∃ m', m = m' + 1 := ⟨m - 1, by omega⟩
    obtain ⟨j, hlast, hlt, _, _⟩ := h.lastsector_file index (by omega)
    have hne : ¬ fs.FAT^[j] (fs.Directory index) = 255 := by omega
    have e : (index + 1) % 256 = index + 1 := Nat.mod_eq_of_lt (by omega)
    have hw1 : wrap16 free = free := wrap16_small _ h1 (by omega)
    have hw2 : wrap16 ((fs.FAT^[j] (fs.Directory index) : Nat) : Int)
        = ((fs.FAT^[j] (fs.Directory index) : Nat) : Int) := wrap16_small _ (by omega) (by omega)
    have hstep : findfreesectorLoop 256 fs (m' + 1) free index
        = findfreesectorLoop 256 fs m'
            (max_int16 free ((fs.FAT^[j] (fs.Directory index) : Nat) : Int)) (index + 1) := by
      conv_lhs => unfold findfreesectorLoop
      rw [hlast]
      simp only
      rw [if_neg hne, e, hw1, hw2]
    have hmax1 : free ≤ max_int16 free ((fs.FAT^[j] (fs.Directory index) : Nat) : Int) := by
      unfold max_int16; split <;> omega
    have hmax2 : ((fs.FAT^[j] (fs.Directory index) : Nat) : Int)
        ≤ max_int16 free ((fs.FAT^[j] (fs.Directory index) : Nat) : Int) := by
      unfold max_int16; split <;> omega
    have hmax3 : max_int16 free ((fs.FAT^[j] (fs.Directory index) : Nat) : Int) < n := by
      unfold max_int16; split <;> omega
    obtain ⟨F, hF, hF1, hF2, hF3⟩ := ih (index + 1) m' _ (by omega) (by omega) (by omega) hmax3
    refine ⟨F, by rw [hstep, hF], by omega, hF2, ?_⟩
    intro i hi1 hi2 last hl
    by_cases hii : i = index
    · rw [hii, hlast] at hl
      have := Option.some.inj hl
      omega
    · exact hF3 i (by omega) hi2 last hl

/-- On an allocated store `findfreesector` returns the number of sectors in
use, which is 255 exactly when the disk is full. -/
theorem Allocated.findfreesector_eq {fs : FileSys} {k n : Nat} (h : Allocated fs k n) :
    findfreesector 256 fs = some n := by
  have hn := h.hn
  have hk := h.hk
  obtain ⟨F, hF, hF1, hF2, hF3⟩ := h.findfreesectorLoop_spec k 0 256 (-1) (by omega) (by omega)
    (le_refl _) (by omega)
  have hFn : F = (n : Int) - 1 := by
    by_cases hn0 : n = 0
    · omega
    · obtain ⟨i, hi, t, ht, hnot⟩ := h.covered (n - 1) (by omega)
      obtain ⟨j, hlast, _, hend, hno⟩ := h.lastsector_file i hi
      have h255 : fs.FAT (n - 1) = 255 := by
        rcases h.fat_used (n - 1) (by omega) with h1 | ⟨h1, h2⟩
        · exact h1
        · omega
      have htj : t = j := by
        by_contra hne
        rcases Nat.lt_or_gt_of_ne hne with hlt | hgt
        · exact hno t hlt (by rw [ht]; exact h255)
        · exact hnot j hgt hend
      have := hF3 i (Nat.zero_le _) hi _ hlast
      rw [← htj, ht] at this
      omega
  unfold findfreesector
  rw [hF, hFn]
  congr 1
  omega

/-- Storing a link in an end sector keeps the part of a chain that lies before
an end. -/
theorem iterate_store_end (FAT : Nat → Nat) (t v : Nat) (ht : FAT t = 255) (a : Nat) :
    ∀ j, (∀ j', j' < j → FAT (FAT^[j'] a) ≠ 255) →
    (fun x => if x = t then v else FAT x)^[j] a = FAT^[j] a := by
  intro j
  induction j with
  | zero => intro _; rfl
  | succ j ih =>
    intro hno
    rw [Function.iterate_succ_apply', Function.iterate_succ_apply', ih (iterate_before hno)]
    have hne : FAT^[j] a ≠ t := by
      intro hc
      exact hno j (by omega) (by rw [hc]; exact ht)
    simp only [if_neg hne]

theorem OS_File_Size_congr (o : Nat) (fs fs' : FileSys) (hD : fs'.Directory o = fs.Directory o)
    (hF : fs'.FAT = fs.FAT) : OS_File_Size o fs' = OS_File_Size o fs := by
  unfold OS_File_Size
  rw [hD, hF]

/-- The size of a file of an allocated store is the length of its chain. -/
theorem Allocated.size_file {fs : FileSys} {k n : Nat} (h : Allocated fs k n) (i j : Nat)
    (hi : i < k) (hend : fs.FAT (fs.FAT^[j] (fs.Directory i)) = 255)
    (hno : ∀ j', j' < j → fs.FAT (fs.FAT^[j'] (fs.Directory i)) ≠ 255) :
    OS_File_Size i fs = j + 1 := by
  have hn := h.hn
  have hb := h.chain_bounds j _ (h.dir_used i hi) hno
  have ha := h.dir_used i hi
  rw [OS_File_Size_end i fs (by omega) j hend hno]
  omega

/-- Creating file `k` in sector `n`. -/
theorem Allocated.add_file {fs : FileSys} {k n : Nat} (h : Allocated fs k n) (hn : n < 255)
    (hk : k < 255) (fs' : FileSys)
    (hD : fs'.Directory = fun j => if j = k then n else fs.Directory j)
    (hF : fs'.FAT = fs.FAT) (hL : fs'.bDirectoryLoaded = 1) :
    Allocated fs' (k + 1) (n + 1) ∧ OS_File_Size k fs' = OS_File_Size k fs + 1 ∧
    ∀ o, o ≠ k → OS_File_Size o fs' = OS_File_Size o fs := by
  have hDk : fs'.Directory k = n := by rw [hD]; simp
  have hDo : ∀ o, o ≠ k → fs'.Directory o = fs.Directory o := by
    intro o ho; rw [hD]; simp [ho]
  have hFn : fs.FAT n = 255 := h.fat_free n (le_refl _) (by omega)
  have hnew : Allocated fs' (k + 1) (n + 1) := by
    refine ⟨hL, by omega, by omega, ?_, ?_, ?_, ?_, ?_, ?_, ?_, ?_⟩
    · intro i hi
      by_cases hik : i = k
      · rw [hik, hDk]; omega
      · rw [hDo i hik]; have := h.dir_used i (by omega); omega
    · intro i hi1 hi2
      rw [hDo i (by omega)]
      exact h.dir_free i (by omega) hi2
    · intro j hj
      rw [hF]
      by_cases hjn : j = n
      · rw [hjn]; exact Or.inl hFn
      · rcases h.fat_used j (by omega) with h1 | ⟨h1, h2⟩
        · exact Or.inl h1
        · exact Or.inr ⟨h1, by omega⟩
    · intro j hj1 hj2
      rw [hF]
      exact h.fat_free j (by omega) hj2
    · intro i i' hi hi' heq
      by_cases hik : i = k
      · by_cases hik' : i' = k
        · rw [hik, hik']
        · rw [hik, hDk, hDo i' hik'] at heq
          have := h.dir_used i' (by omega)
          omega
      · by_cases hik' : i' = k
        · rw [hik', hDk, hDo i hik] at heq
          have := h.dir_used i (by omega)
          omega
        · rw [hDo i hik, hDo i' hik'] at heq
          exact h.dir_inj i i' (by omega) (by omega) heq
    · intro j j' hj hj' h255 heq
      rw [hF] at h255 heq
      have hjn : j < n := by
        by_contra hc
        have : j = n := by omega
        rw [this] at h255
        exact h255 hFn
      have hjn' : j' < n := by
        by_contra hc
        have : j' = n := by omega
        rw [this, hFn] at heq
        exact h255 heq
      exact h.fat_inj j j' hjn hjn' h255 heq
    · intro i j hi hj heq
      rw [hF] at heq
      by_cases hjn : j = n
      · rw [hjn, hFn] at heq
        by_cases hik : i = k
        · rw [hik, hDk] at heq; omega
        · rw [hDo i hik] at heq
          have := h.dir_used i (by omega)
          omega
      · by_cases hik : i = k
        · rw [hik, hDk] at heq
          rcases h.fat_used j (by omega) with h1 | ⟨_, h2⟩
          · omega
          · omega
        · rw [hDo i hik] at heq
          exact h.dir_fat i j (by omega) (by omega) heq
    · intro s hs
      by_cases hsn : s = n
      · exact ⟨k, by omega, 0, by rw [hsn, hF]; exact hDk, fun j' hj' => by omega⟩
      · obtain ⟨i, hi, t, ht, hnot⟩ := h.covered s (by omega)
        refine ⟨i, by omega, t, ?_, ?_⟩
        · rw [hF, hDo i (by omega)]; exact ht
        · rw [hF, hDo i (by omega)]; exact hnot
  refine ⟨hnew, ?_, fun o ho => OS_File_Size_congr o fs fs' (hDo o ho) hF⟩
  have h0 : OS_File_Size k fs = 0 := by
    unfold OS_File_Size
    rw [if_pos (h.dir_free k (le_refl _) (by omega))]
  have hend' : fs'.FAT (fs'.FAT^[0] (fs'.Directory k)) = 255 := by
    rw [Function.iterate_zero_apply, hDk, hF]
    exact hFn
  rw [h0, hnew.size_file k 0 (by omega) hend' (fun j' hj' => by omega)]

/-- Linking sector `n` to the end of the chain of an existing file. -/
theorem Allocated.extend_file {fs : FileSys} {k n : Nat} (h : Allocated fs k n) (hn : n < 255)
    (num : Nat) (hnum : num < k) (j : Nat)
    (hend : fs.FAT (fs.FAT^[j] (fs.Directory num)) = 255)
    (hno : ∀ j', j' < j → fs.FAT (fs.FAT^[j'] (fs.Directory num)) ≠ 255)
    (fs' : FileSys) (hD : fs'.Directory = fs.Directory)
    (hF : fs'.FAT = fun x => if x = fs.FAT^[j] (fs.Directory num) then n else fs.FAT x)
    (hL : fs'.bDirectoryLoaded = 1) :
    Allocated fs' k (n + 1) ∧ OS_File_Size num fs' = OS_File_Size num fs + 1 ∧
    ∀ o, o ≠ num → o < 256 → OS_File_Size o fs' = OS_File_Size o fs := by
  have hk := h.hk
  have htn : fs.FAT^[j] (fs.Directory num) < n :=
    (h.chain_bounds j _ (h.dir_used num hnum) hno).2
  generalize ht : fs.FAT^[j] (fs.Directory num) = t at hend hF htn
  have hFt : fs'.FAT t = n := by rw [hF]; simp
  have hFo : ∀ x, x ≠ t → fs'.FAT x = fs.FAT x := by
    intro x hx; rw [hF]; simp [hx]
  have hFn : fs.FAT n = 255 := h.fat_free n (le_refl _) (by omega)
  have hit : ∀ a j0, (∀ j', j' < j0 → fs.FAT (fs.FAT^[j'] a) ≠ 255) →
      fs'.FAT^[j0] a = fs.FAT^[j0] a := by
    intro a j0 hno0
    rw [hF]
    exact iterate_store_end fs.FAT t n hend a j0 hno0
  have hkeep : ∀ a j0, (∀ j', j' < j0 → fs.FAT (fs.FAT^[j'] a) ≠ 255) →
      ∀ j', j' < j0 → fs'.FAT (fs'.FAT^[j'] a) ≠ 255 := by
    intro a j0 hno0 j' hj'
    rw [hit a j' (fun s hs => hno0 s (by omega))]
    have hne : fs.FAT^[j'] a ≠ t := by
      intro hc
      exact hno0 j' hj' (by rw [hc]; exact hend)
    rw [hFo _ hne]
    exact hno0 j' hj'
  have hnew : Allocated fs' k (n + 1) := by
    refine ⟨hL, h.hk, by omega, ?_, ?_, ?_, ?_, ?_, ?_, ?_, ?_⟩
    · intro i hi
      rw [hD]; have := h.dir_used i hi; omega
    · intro i hi1 hi2
      rw [hD]; exact h.dir_free i hi1 hi2
    · intro x hx
      by_cases hxt : x = t
      · rw [hxt, hFt]; exact Or.inr ⟨htn, by omega⟩
      · rw [hFo x hxt]
        by_cases hxn : x = n
        · rw [hxn]; exact Or.inl hFn
        · rcases h.fat_used x (by omega) with h1 | ⟨h1, h2⟩
          · exact Or.inl h1
          · exact Or.inr ⟨h1, by omega⟩
    · intro x hx1 hx2
      rw [hFo x (by omega)]
      exact h.fat_free x (by omega) hx2
    · intro i i' hi hi' heq
      rw [hD] at heq
      exact h.dir_inj i i' hi hi' heq
    · intro x x' hx hx' h255 heq
      have hval : ∀ y, y < n + 1 → y ≠ t → fs'.FAT y = 255 ∨ fs'.FAT y < n := by
        intro y hy hyt
        rw [hFo y hyt]
        by_cases hyn : y = n
        · rw [hyn]; exact Or.inl hFn
        · rcases h.fat_used y (by omega) with h1 | ⟨_, h2⟩
          · exact Or.inl h1
          · exact Or.inr h2
      by_cases hxt : x = t
      · by_cases hxt' : x' = t
        · rw [hxt, hxt']
        · rw [hxt, hFt] at heq
          rcases hval x' hx' hxt' with h1 | h1 <;> omega
      · by_cases hxt' : x' = t
        · rw [hxt', hFt] at heq
          rcases hval x hx hxt with h1 | h1 <;> omega
        · rw [hFo x hxt] at h255 heq
          rw [hFo x' hxt'] at heq
          have hxn : x < n := by
            by_contra hc
            have : x = n := by omega
            rw [this] at h255
            exact h255 hFn
          have hxn' : x' < n := by
            by_contra hc
            have : x' = n := by omega
            rw [this, hFn] at heq
            exact h255 heq
          exact h.fat_inj x x' hxn hxn' h255 heq
    · intro i x hi hx heq
      rw [hD] at heq
      have hdi := h.dir_used i hi
      by_cases hxt : x = t
      · rw [hxt, hFt] at heq; omega
      · rw [hFo x hxt] at heq
        by_cases hxn : x = n
        · rw [hxn, hFn] at heq; omega
        · exact h.dir_fat i x hi (by omega) heq
    · intro s hs
      by_cases hsn : s = n
      · refine ⟨num, hnum, j + 1, ?_, ?_⟩
        · rw [Function.iterate_succ_apply', hD, hit _ j hno, ht, hFt, hsn]
        · intro j' hj'
          by_cases hjj : j' = j
          · rw [hjj, hD, hit _ j hno, ht, hFt]; omega
          · rw [hD]
            exact hkeep _ j hno j' (by omega)
      · obtain ⟨i, hi, t0, ht0, hnot⟩ := h.covered s (by omega)
        refine ⟨i, hi, t0, ?_, ?_⟩
        · rw [hD, hit _ t0 hnot]; exact ht0
        · rw [hD]; exact hkeep _ t0 hnot
  refine ⟨hnew, ?_, ?_⟩
  · rw [h.size_file num j hnum (by rw [ht]; exact hend) hno]
    apply hnew.size_file num (j + 1) hnum
    · rw [Function.iterate_succ_apply', hD, hit _ j hno, ht, hFt, hFo n (by omega)]
      exact hFn
    · intro j' hj'
      by_cases hjj : j' = j
      · rw [hjj, hD, hit _ j hno, ht, hFt]; omega
      · rw [hD]
        exact hkeep _ j hno j' (by omega)
  · intro o ho ho256
    by_cases hok : o < k
    · obtain ⟨jo, hendo, hnoo, _, _⟩ := h.chain_end _ (h.dir_used o hok)
      rw [h.size_file o jo hok hendo hnoo]
      apply hnew.size_file o jo hok
      · rw [hD, hit _ jo hnoo]
        have hne : fs.FAT^[jo] (fs.Directory o) ≠ t := by
          intro hc
          exact ho (h.owner_unique jo j o num hok hnum hnoo hno (hc.trans ht.symm))
        rw [hFo _ hne]
        exact hendo
      · rw [hD]
        exact hkeep _ jo hnoo
    · have hDo : fs.Directory o = 255 := h.dir_free o (by omega) ho256
      unfold OS_File_Size
      rw [hD, if_pos hDo, if_pos hDo]

/-- An allocated store has at least as many sectors in use as files. -/
theorem Allocated.files_le {fs : FileSys} {k n : Nat} (h : Allocated fs k n) : k ≤ n := by
  have hc : (Finset.range k).card ≤ (Finset.range n).card := by
    apply Finset.card_le_card_of_injOn fs.Directory
    · intro i hi
      simp only [Finset.coe_range, Set.mem_Iio, Finset.mem_range] at hi ⊢
      exact h.dir_used i hi
    · intro i hi i' hi' heq
      simp only [Finset.coe_range, Set.mem_Iio] at hi hi'
      exact h.dir_inj i i' hi hi' heq
  simpa using hc

/-- `OS_File_Append` on an allocated store, for a file in use or the first
free index. -/
theorem Allocated.append {fs : FileSys} {k n : Nat} (h : Allocated fs k n) (hw : Platform)
    (num : Nat) (buf : Nat → Nat) (hnum : num ≤ k) :
    (n = 255 ∧ OS_File_Append 256 hw num buf fs = some (255, fs)) ∨
    (n < 255 ∧ ∃ fs' k', OS_File_Append 256 hw num buf fs = some (0, fs') ∧
      Allocated fs' k' (n + 1) ∧ k ≤ k' ∧
      OS_File_Size num fs' = OS_File_Size num fs + 1 ∧
      ∀ o, o ≠ num → o < 256 → OS_File_Size o fs' = OS_File_Size o fs) := by
  have hl : fs.bDirectoryLoaded ≠ 0 := by rw [h.loaded]; decide
  have hn := h.hn
  have hkn := h.files_le
  unfold OS_File_Append
  simp only [if_neg hl, h.findfreesector_eq]
  by_cases hn255 : n = 255
  · exact Or.inl ⟨hn255, by rw [if_pos hn255]⟩
  · right
    refine ⟨by omega, ?_⟩
    rw [if_neg hn255]
    unfold appendfat
    by_cases hk : num = k
    · have hD : fs.Directory num = 255 := h.dir_free num (by omega) (by omega)
      simp only [if_pos hD]
      obtain ⟨h1, h2, h3⟩ := h.add_file (by omega) (by omega)
        { fs with disk := (eDisk_WriteSector hw fs.disk buf n).2,
                  Directory := fun j => if j = k then n else fs.Directory j }
        rfl rfl h.loaded
      subst hk
      exact ⟨_, num + 1, rfl, h1, by omega, h2, fun o ho _ => h3 o ho⟩
    · have hlt : num < k := by omega
      have hD : fs.Directory num ≠ 255 := by
        have := h.dir_used num hlt
        omega
      simp only [if_neg hD]
      obtain ⟨j, hend, hno, _, hjn⟩ := h.chain_end _ (h.dir_used num hlt)
      have hj : j < 256 := by
        have := (h.chain_bounds j _ (h.dir_used num hlt) hno).1
        omega
      have hloop := appendfatLoop_end n { fs with disk := (eDisk_WriteSector hw fs.disk buf n).2 }
        j 256 (fs.Directory num) hj hend hno
      obtain ⟨h1, h2, h3⟩ := h.extend_file (by omega) num hlt j hend hno
        { fs with disk := (eDisk_WriteSector hw fs.disk buf n).2,
                  FAT := fun x => if x = fs.FAT^[j] (fs.Directory num) then n else fs.FAT x }
        rfl rfl h.loaded
      refine ⟨_, k, ?_, h1, le_refl _, h2, h3⟩
      rw [hloop]
      rfl

theorem Fresh.starts_allocated {fs : FileSys} (h : Fresh fs) : Allocated fs 0 0 := by
  obtain ⟨hD, hF, hL⟩ := h
  refine ⟨hL, by omega, by omega, ?_, ?_, ?_, ?_, ?_, ?_, ?_, ?_⟩
  · intro i hi; omega
  · intro i _ hi; exact hD i hi
  · intro j hj; omega
  · intro j _ hj; exact hF j hj
  · intro i i' hi; omega
  · intro j j' hj; omega
  · intro i j hi; omega
  · intro s hs; omega

/-- `OS_File_New` on an allocated store returns at most the number of files in
use and leaves the store as it is. -/
theorem Allocated.new_file {fs : FileSys} {k n : Nat} (h : Allocated fs k n) (hw : Platform) :
    (OS_File_New hw fs).2 = fs ∧ (OS_File_New hw fs).1 ≤ k := by
  have hl : fs.bDirectoryLoaded ≠ 0 := by rw [h.loaded]; decide
  have hk := h.hk
  unfold OS_File_New
  simp only [if_neg hl, true_and]
  rcases newLoop_spec fs.Directory 256 0 (by omega) (by omega) with ⟨h1, h5⟩ | ⟨_, h2, h3, h4⟩
  · rw [h1]
    by_contra hne
    exact h5 k (by omega) (by omega) (h.dir_free k (le_refl _) (by omega))
  · generalize newLoop fs.Directory 256 0 = r at h2 h3 h4
    by_contra hne
    exact h4 k (by omega) (by omega) (h.dir_free k (le_refl _) (by omega))

/-- Every store reached from a fresh one by `OS_File_New` and appends to issued
identifiers is allocated, and the issued identifiers are in use or next free. -/
theorem Reached.stays_allocated {hw : Platform} {fs : FileSys} {ids : List Nat}
    (h : Reached hw fs ids) : ∃ k n, Allocated fs k n ∧ ∀ id, id ∈ ids → id ≤ k := by
  induction h with
  | fresh fs hf => exact ⟨0, 0, hf.starts_allocated, fun id hid => by simp at hid⟩
  | new fs ids _ ih =>
    obtain ⟨k, n, ha, hids⟩ := ih
    obtain ⟨h1, h2⟩ := ha.new_file hw
    refine ⟨k, n, by rw [h1]; exact ha, ?_⟩
    intro id hid
    rcases List.mem_cons.mp hid with heq | hmem
    · rw [heq]; exact h2
    · exact hids id hmem
  | append fs ids num buf r fs' _ hnum happ ih =>
    obtain ⟨k, n, ha, hids⟩ := ih
    have hle : num ≤ k := hids num hnum
    rcases ha.append hw num buf hle with ⟨_, h2⟩ | ⟨_, fs2, k', h2, h3, h4, _⟩
    · rw [h2] at happ
      have e : fs = fs' := by injection happ with e1; injection e1
      rw [← e]
      exact ⟨k, n, ha, hids⟩
    · rw [h2] at happ
      have e : fs2 = fs' := by injection happ with e1; injection e1
      rw [← e]
      exact ⟨k', n + 1, h3, fun id hid => le_trans (hids id hid) h4⟩

theorem Fresh_freshFS : Fresh freshFS :=
  ⟨fun _ _ => rfl, fun _ _ => rfl, rfl⟩

/-- C14 (as amended). Every store reached from a fresh mounted store by
`OS_File_New` and `OS_File_Append` calls, each append targeting an identifier
that `OS_File_New` has returned, is a forest of simple chains. -/
theorem appends_to_issued_files_keep_forest (hw : Platform) (fs : FileSys) (ids : List Nat)
    (h : Reached hw fs ids) : Forest fs := by
  obtain ⟨k, n, ha, _⟩ := h.stays_allocated
  exact ha.forest

set_option maxRecDepth 100000 in
theorem appends_to_issued_files_keep_forest_witness :
    Reached tm4c appendedFS [0] ∧ Forest appendedFS :=
  have hr : Reached tm4c appendedFS [0] :=
    Reached.append freshFS [0] 0 bufAA 0 appendedFS
      (Reached.new freshFS [] (Reached.fresh freshFS Fresh_freshFS)) (by decide) (by rfl)
  ⟨hr, appends_to_issued_files_keep_forest tm4c appendedFS [0] hr⟩

set_option maxRecDepth 100000 in
/-- C14 (as stated) fails: from the fresh store two appends to file 1, which
`OS_File_New` never issued, both take sector 0 and link it to itself, so the
chain of file 1 never reaches an end marker. -/
theorem appends_to_unissued_file_make_cycle :
    Fresh freshFS ∧
    ¬ ∀ (cs : List (Nat × (Nat → Nat))) (fs' : FileSys), (∀ c, c ∈ cs → c.1 ≤ 254) →
      appendsRun tm4c cs freshFS = some fs' → Forest fs' := by
  refine ⟨⟨fun _ _ => rfl, fun _ _ => rfl, rfl⟩, ?_⟩
  intro hall
  have e : (appendsRun tm4c [(1, bufAA), (1, bufAA)] freshFS).map
      (fun fs => (fs.Directory 1, chainFrom fs.FAT 256 (fs.Directory 1))) = some (0, none) := by
    decide
  cases hrun : appendsRun tm4c [(1, bufAA), (1, bufAA)] freshFS with
  | none => rw [hrun] at e; exact Option.noConfusion e
  | some fs' =>
    rw [hrun] at e
    have e1 : fs'.Directory 1 = 0 := congrArg Prod.fst (Option.some.inj e)
    have e2 : chainFrom fs'.FAT 256 (fs'.Directory 1) = none :=
      congrArg Prod.snd (Option.some.inj e)
    have hc : ∀ c, c ∈ [((1 : Nat), bufAA), (1, bufAA)] → c.1 ≤ 254 := by
      intro c hc
      simp only [List.mem_cons, List.mem_singleton, List.mem_nil_iff, or_false, or_self] at hc
      rw [hc]
      decide
    obtain ⟨l, hl, _⟩ := (hall _ fs' hc hrun).1 1 (by decide) (by rw [e1]; decide)
    rw [e2] at hl
    exact Option.noConfusion hl

/-- C15. In a store reached from a fresh one by `OS_File_New` and appends to
issued identifiers, `OS_File_Append` to an issued identifier returns 0 or 255;
on 0 the size of that file grows by exactly one and every other size is
unchanged, on 255 no size changes. -/
theorem append_grows_only_the_target_by_one (hw : Platform) (fs : FileSys) (ids : List Nat)
    (h : Reached hw fs ids) (id : Nat) (hid : id ∈ ids) (buf : Nat → Nat) :
    ∃ r fs', OS_File_Append 256 hw id buf fs = some (r, fs') ∧ (r = 0 ∨ r = 255) ∧
      (r = 0 → OS_File_Size id fs' = OS_File_Size id fs + 1 ∧
        ∀ o, o ≠ id → o < 256 → OS_File_Size o fs' = OS_File_Size o fs) ∧
      (r = 255 → ∀ o, OS_File_Size o fs' = OS_File_Size o fs) := by
  obtain ⟨k, n, ha, hids⟩ := h.stays_allocated
  rcases ha.append hw id buf (hids id hid) with ⟨_, h2⟩ | ⟨_, fs2, k', h2, _, _, h5, h6⟩
  · exact ⟨255, fs, h2, Or.inr rfl, fun hc => absurd hc (by decide), fun _ _ => rfl⟩
  · exact ⟨0, fs2, h2, Or.inl rfl, fun _ => ⟨h5, h6⟩, fun hc => absurd hc (by decide)⟩

set_option maxRecDepth 100000 in
theorem append_grows_only_the_target_by_one_witness :
    Reached tm4c appendedFS [1, 0] ∧
    ∃ r fs', OS_File_Append 256 tm4c 1 bufAA appendedFS = some (r, fs') ∧ (r = 0 ∨ r = 255) ∧
      (r = 0 → OS_File_Size 1 fs' = OS_File_Size 1 appendedFS + 1 ∧
        ∀ o, o ≠ 1 → o < 256 → OS_File_Size o fs' = OS_File_Size o appendedFS) ∧
      (r = 255 → ∀ o, OS_File_Size o fs' = OS_File_Size o appendedFS) :=
  have hr : Reached tm4c appendedFS [1, 0] :=
    Reached.new appendedFS [0]
      (Reached.append freshFS [0] 0 bufAA 0 appendedFS
        (Reached.new freshFS [] (Reached.fresh freshFS ⟨fun _ _ => rfl, fun _ _ => rfl, rfl⟩))
        (by decide) (by rfl))
  ⟨hr, append_grows_only_the_target_by_one tm4c appendedFS [1, 0] hr 1 (by decide) bufAA⟩

/-! ## The free-sector search -/

theorem ascending_bounds (FAT : Nat → Nat)
    (hup : ∀ s, s < 255 → FAT s = 255 ∨ (s < FAT s ∧ FAT s < 255)) (a : Nat) (ha : a < 255) :
    ∀ j, (∀ j', j' < j → FAT (FAT^[j'] a) ≠ 255) → a + j ≤ FAT^[j] a ∧ FAT^[j] a < 255 := by
  intro j
  induction j with
  | zero => intro _; exact ⟨le_refl _, ha⟩
  | succ j ih =>
    intro hno
    obtain ⟨h1, h2⟩ := ih (iterate_before hno)
    have h3 := hno j (by omega)
    rw [Function.iterate_succ_apply']
    rcases hup _ h2 with h4 | ⟨h4, h5⟩
    · exact absurd h4 h3
    · exact ⟨by omega, h5⟩

theorem ascending_end (FAT : Nat → Nat)
    (hup : ∀ s, s < 255 → FAT s = 255 ∨ (s < FAT s ∧ FAT s < 255)) (a : Nat) (ha : a < 255) :
    ∃ j, FAT (FAT^[j] a) = 255 ∧ (∀ j', j' < j → FAT (FAT^[j'] a) ≠ 255) ∧
      FAT^[j] a < 255 ∧ j < 255 := by
  classical
  by_cases hex : ∃ j, FAT (FAT^[j] a) = 255
  · have hmin : ∀ j', j' < Nat.find hex → FAT (FAT^[j'] a) ≠ 255 :=
      fun j' hj' => Nat.find_min hex hj'
    obtain ⟨h1, h2⟩ := ascending_bounds FAT hup a ha (Nat.find hex) hmin
    exact ⟨Nat.find hex, Nat.find_spec hex, hmin, h2, by omega⟩
  · exfalso
    have hno : ∀ j', j' < 255 → FAT (FAT^[j'] a) ≠ 255 := fun j' _ hc => hex ⟨j', hc⟩
    obtain ⟨h1, h2⟩ := ascending_bounds FAT hup a ha 255 hno
    omega

/-- With ascending links the last sector of a chain is its greatest. -/
theorem ascending_last_greatest (FAT : Nat → Nat)
    (hup : ∀ s, s < 255 → FAT s = 255 ∨ (s < FAT s ∧ FAT s < 255)) (a : Nat) (ha : a < 255)
    (j : Nat) (hend : FAT (FAT^[j] a) = 255) (hno : ∀ j', j' < j → FAT (FAT^[j'] a) ≠ 255)
    (s : Nat) (hs : OnChain FAT a s) : s ≤ FAT^[j] a := by
  obtain ⟨j0, hj0, hno0⟩ := hs
  have hle : j0 ≤ j := by
    by_contra hc
    exact hno0 j (by omega) hend
  have hs255 : s < 255 := by
    rw [← hj0]
    exact (ascending_bounds FAT hup a ha j0 hno0).2
  have hsplit : FAT^[j] a = FAT^[j - j0] s := by
    rw [← hj0, ← Function.iterate_add_apply]
    congr 1
    omega
  have hall : ∀ j', j' < j - j0 → FAT (FAT^[j'] s) ≠ 255 := by
    intro j' hj'
    rw [← hj0, ← Function.iterate_add_apply]
    exact hno (j' + j0) (by omega)
  have := (ascending_bounds FAT hup s hs255 (j - j0) hall).1
  omega

/-- `lastsector` on a file of an ascending store: the end of its chain, which
is the greatest sector of the chain. -/
theorem Ascending.lastsector_greatest {fs : FileSys} {k : Nat} (h : Ascending fs k) (i : Nat)
    (hi : i < k) :
    ∃ last, lastsector 256 fs (fs.Directory i) = some last ∧ last < 255 ∧
      OnChain fs.FAT (fs.Directory i) last ∧
      ∀ s, OnChain fs.FAT (fs.Directory i) s → s ≤ last := by
  have ha := h.dir_used i hi
  obtain ⟨j, hend, hno, hlt, hj⟩ := ascending_end fs.FAT h.fat_up _ ha
  refine ⟨fs.FAT^[j] (fs.Directory i), ?_, hlt, ⟨j, rfl, hno⟩, ?_⟩
  · unfold lastsector
    rw [if_neg (by omega)]
    exact lastsectorLoop_end fs.FAT j 256 _ (by omega) hend hno
  · intro s hs
    exact ascending_last_greatest fs.FAT h.fat_up _ ha j hend hno s hs

/-- The loop of `findfreesector` on an ascending store, from directory slot
`index` with `d` files still to visit: it returns one more than the greatest
of `free` and the last sectors of these files. -/
theorem Ascending.findfreesectorLoop_greatest {fs : FileSys} {k : Nat} (h : Ascending fs k) :
    ∀ (d index m : Nat) (free : Int), index + d = k → d < m → -1 ≤ free → free < 255 →
    ∃ F : Int, findfreesectorLoop 256 fs m free index = some ((F + 1) % 256).toNat ∧
      free ≤ F ∧ F < 255 ∧
      (∀ i, index ≤ i → i < k → ∀ last, lastsector 256 fs (fs.Directory i) = some last →
        (last : Int) ≤ F) ∧
      (F = free ∨ ∃ i last, index ≤ i ∧ i < k ∧
        lastsector 256 fs (fs.Directory i) = some last ∧ F = (last : Int)) := by
  have hk := h.hk
  intro d
  induction d with
  | zero =>
    intro index m free hik hm h1 h2
    obtain ⟨m', rfl⟩ : ∃ m', m = m' + 1 := ⟨m - 1, by omega⟩
    have hD : fs.Directory index = 255 := h.dir_free index (by omega) (by omega)
    refine ⟨free, ?_, le_refl _, h2, fun i hi1 hi2 => by omega, Or.inl rfl⟩
    unfold findfreesectorLoop lastsector
    rw [if_pos hD]
    simp only [if_true]
  | succ d ih =>
    intro index m free hik hm h1 h2
    obtain ⟨m', rfl⟩ : ∃ m', m = m' + 1 := ⟨m - 1, by omega⟩
    obtain ⟨last, hlast, hlt, _, _⟩ := h.lastsector_greatest index (by omega)
    have hne : ¬ last = 255 := by omega
    have e : (index + 1) % 256 = index + 1 := Nat.mod_eq_of_lt (by omega)
    have hw1 : wrap16 free = free := wrap16_small _ h1 (by omega)
    have hw2 : wrap16 ((last : Nat) : Int) = ((last : Nat) : Int) :=
      wrap16_small _ (by omega) (by omega)
    have hstep : findfreesectorLoop 256 fs (m' + 1) free index
        = findfreesectorLoop 256 fs m' (max_int16 free ((last : Nat) : Int)) (index + 1) := by
      conv_lhs => unfold findfreesectorLoop
      rw [hlast]
      simp only
      rw [if_neg hne, e, hw1, hw2]
    have hmax1 : free ≤ max_int16 free ((last : Nat) : Int) := by
      unfold max_int16; split <;> omega
    have hmax2 : ((last : Nat) : Int) ≤ max_int16 free ((last : Nat) : Int) := by
      unfold max_int16; split <;> omega
    have hmax3 : max_int16 free ((last : Nat) : Int) < 255 := by
      unfold max_int16; split <;> omega
    have hmax4 : max_int16 free ((last : Nat) : Int) = free ∨
        max_int16 free ((last : Nat) : Int) = ((last : Nat) : Int) := by
      unfold max_int16; split
      · exact Or.inl rfl
      · exact Or.inr rfl
    obtain ⟨F, hF, hF1, hF2, hF3, hF4⟩ :=
      ih (index + 1) m' _ (by omega) (by omega) (by omega) hmax3
    refine ⟨F, by rw [hstep, hF], by omega, hF2, ?_, ?_⟩
    · intro i hi1 hi2 last' hl
      by_cases hii : i = index
      · rw [hii, hlast] at hl
        have := Option.some.inj hl
        omega
      · exact hF3 i (by omega) hi2 last' hl
    · rcases hF4 with hF4 | ⟨i, l, hi1, hi2, hl, hFl⟩
      · rcases hmax4 with hm4 | hm4
        · exact Or.inl (by rw [hF4, hm4])
        · exact Or.inr ⟨index, last, le_refl _, by omega, hlast, by rw [hF4, hm4]⟩
      · exact Or.inr ⟨i, l, by omega, hi2, hl, hFl⟩

/-- The stores reached by `OS_File_New` and appends to issued identifiers have
the ascending layout. -/
theorem Allocated.ascending {fs : FileSys} {k n : Nat} (h : Allocated fs k n) :
    Ascending fs k := by
  have hn := h.hn
  refine ⟨h.hk, ?_, h.dir_free, ?_⟩
  · intro i hi
    have := h.dir_used i hi
    omega
  · intro s hs
    by_cases hsn : s < n
    · rcases h.fat_used s hsn with h1 | ⟨h1, h2⟩
      · exact Or.inl h1
      · exact Or.inr ⟨h1, by omega⟩
    · exact Or.inl (h.fat_free s (by omega) (by omega))

/-- C21 (as amended). On a mounted store whose files occupy the first `k`
directory slots and whose FAT links lead to higher sectors, `findfreesector`
returns, and its result `n` is one more than the greatest sector on the chain
of any file: every such sector is below `n`, and `n - 1` is one of them unless
`n = 0`.  It is 0 when no file exists and 255 exactly when sector 254 is on the
chain of a file; the sector `n` is on no chain; and when `n = 255`
`OS_File_Append` returns 255 and leaves the whole state as it was. -/
theorem findfreesector_returns_next_after_greatest (fs : FileSys) (k : Nat)
    (h : Ascending fs k) (hm : fs.bDirectoryLoaded ≠ 0) :
    ∃ n, findfreesector 256 fs = some n ∧ n ≤ 255 ∧
      (∀ i s, i ≤ 254 → fs.Directory i ≠ 255 → OnChain fs.FAT (fs.Directory i) s → s < n) ∧
      (n ≠ 0 → ∃ i, i ≤ 254 ∧ fs.Directory i ≠ 255 ∧
        OnChain fs.FAT (fs.Directory i) (n - 1)) ∧
      ((∀ i, i ≤ 254 → fs.Directory i = 255) → n = 0) ∧
      (n = 255 ↔ ∃ i, i ≤ 254 ∧ fs.Directory i ≠ 255 ∧
        OnChain fs.FAT (fs.Directory i) 254) ∧
      (∀ i, i ≤ 254 → fs.Directory i ≠ 255 → ¬ OnChain fs.FAT (fs.Directory i) n) ∧
      (n = 255 → ∀ hw num buf, OS_File_Append 256 hw num buf fs = some (255, fs)) := by
  have hk := h.hk
  obtain ⟨F, hF, hF1, hF2, hF3, hF4⟩ := h.findfreesectorLoop_greatest k 0 256 (-1) (by omega)
    (by omega) (le_refl _) (by omega)
  have hfile : ∀ i, i ≤ 254 → fs.Directory i ≠ 255 → i < k := by
    intro i hi hne
    by_contra hc
    exact hne (h.dir_free i (by omega) (by omega))
  have hupper : ∀ i s, i ≤ 254 → fs.Directory i ≠ 255 →
      OnChain fs.FAT (fs.Directory i) s → (s : Int) ≤ F := by
    intro i s hi hne hs
    obtain ⟨last, hlast, _, _, hgr⟩ := h.lastsector_greatest i (hfile i hi hne)
    have h1 := hgr s hs
    have h2 := hF3 i (by omega) (hfile i hi hne) last hlast
    omega
  have hatt : F ≠ -1 → ∃ i, i ≤ 254 ∧ fs.Directory i ≠ 255 ∧
      OnChain fs.FAT (fs.Directory i) F.toNat := by
    intro hne
    rcases hF4 with hF4 | ⟨i, last, _, hi, hlast, hFl⟩
    · exact absurd hF4 hne
    · obtain ⟨last', hlast', _, hon, _⟩ := h.lastsector_greatest i hi
      rw [hlast] at hlast'
      have e : last = last' := Option.some.inj hlast'
      have hd := h.dir_used i hi
      refine ⟨i, by omega, by omega, ?_⟩
      rw [hFl, Int.toNat_ofNat, e]
      exact hon
  have hn : ((F + 1) % 256).toNat = (F + 1).toNat := by
    rw [Int.emod_eq_of_lt (by omega) (by omega)]
  have hfind : findfreesector 256 fs = some (F + 1).toNat := by
    unfold findfreesector
    rw [hF, hn]
  refine ⟨(F + 1).toNat, hfind, by omega, ?_, ?_, ?_, ?_, ?_, ?_⟩
  · intro i s hi hne hs
    have := hupper i s hi hne hs
    omega
  · intro hn0
    obtain ⟨i, hi, hne, hon⟩ := hatt (by omega)
    refine ⟨i, hi, hne, ?_⟩
    have e : (F + 1).toNat - 1 = F.toNat := by omega
    rw [e]
    exact hon
  · intro hnone
    by_contra hn0
    obtain ⟨i, hi, hne, _⟩ := hatt (by omega)
    exact hne (hnone i hi)
  · constructor
    · intro h255
      obtain ⟨i, hi, hne, hon⟩ := hatt (by omega)
      refine ⟨i, hi, hne, ?_⟩
      have e : F.toNat = 254 := by omega
      rw [← e]
      exact hon
    · rintro ⟨i, hi, hne, hon⟩
      have := hupper i 254 hi hne hon
      omega
  · intro i hi hne hon
    have := hupper i _ hi hne hon
    omega
  · intro h255 hw num buf
    unfold OS_File_Append
    simp only [if_neg hm, hfind]
    rw [if_pos h255]

theorem twoFilesFS_ascending : Ascending twoFilesFS 2 := by
  refine ⟨by decide, ?_, ?_, ?_⟩
  · intro i hi
    interval_cases i
    · show (0 : Nat) < 255
      decide
    · show (1 : Nat) < 255
      decide
  · intro i h1 _
    have h0 : i ≠ 0 := by omega
    have h2 : i ≠ 1 := by omega
    simp [twoFilesFS, h0, h2]
  · intro s hs
    by_cases h0 : s = 0
    · right
      simp [twoFilesFS, h0]
    · left
      simp [twoFilesFS, h0]

set_option maxRecDepth 100000 in
theorem findfreesector_returns_next_after_greatest_witness :
    Ascending twoFilesFS 2 ∧ twoFilesFS.bDirectoryLoaded ≠ 0 ∧
    findfreesector 256 twoFilesFS = some 3 ∧
    ∃ n, findfreesector 256 twoFilesFS = some n ∧ n ≤ 255 ∧
      (∀ i s, i ≤ 254 → twoFilesFS.Directory i ≠ 255 →
        OnChain twoFilesFS.FAT (twoFilesFS.Directory i) s → s < n) ∧
      (n ≠ 0 → ∃ i, i ≤ 254 ∧ twoFilesFS.Directory i ≠ 255 ∧
        OnChain twoFilesFS.FAT (twoFilesFS.Directory i) (n - 1)) ∧
      ((∀ i, i ≤ 254 → twoFilesFS.Directory i = 255) → n = 0) ∧
      (n = 255 ↔ ∃ i, i ≤ 254 ∧ twoFilesFS.Directory i ≠ 255 ∧
        OnChain twoFilesFS.FAT (twoFilesFS.Directory i) 254) ∧
      (∀ i, i ≤ 254 → twoFilesFS.Directory i ≠ 255 →
        ¬ OnChain twoFilesFS.FAT (twoFilesFS.Directory i) n) ∧
      (n = 255 → ∀ hw num buf, OS_File_Append 256 hw num buf twoFilesFS = some (255, twoFilesFS)) :=
  ⟨twoFilesFS_ascending, by decide, by decide,
    findfreesector_returns_next_after_greatest twoFilesFS 2 twoFilesFS_ascending (by decide)⟩

theorem gapFS_forest : Forest gapFS := by
  have hD : ∀ i, gapFS.Directory i ≠ 255 → i = 1 := by
    intro i hne
    by_contra hc
    exact hne (by simp [gapFS, hc])
  refine ⟨?_, ?_, ?_⟩
  · intro i _ hne
    rw [hD i hne]
    exact ⟨[0], by rfl, by decide⟩
  · intro i i' l l' _ _ hii hne hne'
    rw [hD i hne, hD i' hne'] at hii
    exact absurd rfl hii
  · intro j j' _ _ _ hne
    exact absurd rfl hne

theorem descFS_forest : Forest descFS := by
  have hD : ∀ i, descFS.Directory i ≠ 255 → i = 0 := by
    intro i hne
    by_contra hc
    exact hne (by simp [descFS, hc])
  have hF : ∀ j, descFS.FAT j ≠ 255 → j = 5 := by
    intro j hne
    by_contra hc
    exact hne (by simp [descFS, hc])
  refine ⟨?_, ?_, ?_⟩
  · intro i _ hne
    rw [hD i hne]
    exact ⟨[5, 2], by rfl, by decide⟩
  · intro i i' l l' _ _ hii hne hne'
    rw [hD i hne, hD i' hne'] at hii
    exact absurd rfl hii
  · intro j j' _ _ hjj hne heq
    have e := hF j hne
    have hne' : descFS.FAT j' ≠ 255 := by rw [← heq]; exact hne
    have e' := hF j' hne'
    exact hjj (by rw [e, e'])

set_option maxRecDepth 100000 in
/-- C21 (as stated) fails on forests that `findfreesector` does not expect.
In `gapFS` file 1 holds sector 0 while directory slot 0 is free: the search
stops at slot 0 and returns sector 0, which is on the chain of file 1.  In
`descFS` the chain of file 0 is 5, 2: the search returns 3, one more than the
last sector, not one more than the greatest sector 5. -/
theorem findfreesector_misses_unexpected_layouts :
    (Forest gapFS ∧ gapFS.bDirectoryLoaded = 1 ∧ gapFS.Directory 255 = 255 ∧
      gapFS.Directory 1 ≠ 255 ∧ OnChain gapFS.FAT (gapFS.Directory 1) 0 ∧
      findfreesector 256 gapFS = some 0) ∧
    (Forest descFS ∧ descFS.bDirectoryLoaded = 1 ∧ descFS.Directory 255 = 255 ∧
      descFS.Directory 0 ≠ 255 ∧ OnChain descFS.FAT (descFS.Directory 0) 5 ∧
      findfreesector 256 descFS = some 3) :=
  ⟨⟨gapFS_forest, by decide, by decide, by decide, ⟨0, by rfl, fun j' hj' => by omega⟩,
      by decide⟩,
    ⟨descFS_forest, by decide, by decide, by decide, ⟨0, by rfl, fun j' hj' => by omega⟩,
      by decide⟩⟩

end EFile
